import Mathlib

/-!
# The journal parser of `knejadfard/ledger` (`src/parse.cc`)

A shallow embedding of `next_element`, `finalize_entry` and `parse_ledger`,
followed by the properties that the specification states about them.

Conventions of the embedding.

* A C string is a `List Char` holding the characters before the terminating
  NUL. Character classes are those of the "C" locale.
* The build modelled is the default one: `HUQUQULLAH` is not defined and
  `assert` is active. `int` is 32 bits wide.
* `ledger.h` is not part of the sources. The amount library (`create_amount`,
  `copy`, `negate`), `entry::validate` and `balance::credit` are parameters
  (`Lib`); the account registry is modelled from the specification.
* Objects created with `new entry` live in `State.heap`; a pointer to an entry
  is its index there. `main_ledger.entries` is a list of such pointers.
* The date of an entry is kept as the triple of fields (`tm_mday`, `tm_mon`,
  `tm_year`) stored in `moment` just before `std::mktime` is called on it. What
  `std::mktime` makes of the fields depends on the time zone of the host;
  `mktimeUTC` gives it for the UTC zone.
* The PCRE functions are modelled after their documentation: `pcre_exec` by a
  backtracking matcher for the one pattern used, with the return values and
  the match vector of the library; `pcre_copy_substring` with its two failure
  codes.
* Wherever the C++ semantics stops determining what happens (a null or empty
  container access, an overflowing `int`, a read of the match vector after a
  failed match, a read over the end of the array `line`) or `assert` aborts, the
  run is `stuck` in the state reached so far.
-/

namespace Ledger

/-! ## Characters and C strings -/

/-- The NUL character that ends a C string. -/
def NUL : Char := Char.ofNat 0
/-- Horizontal tab. -/
def TAB : Char := Char.ofNat 9
/-- Line feed, the delimiter of `getline`. -/
def NL : Char := Char.ofNat 10
/-- The space character. -/
def SP : Char := Char.ofNat 32
/-- The comment marker `;`. -/
def SEMI : Char := Char.ofNat 59

/-- `std::isspace` in the "C" locale: space, `\t`, `\n`, `\v`, `\f`, `\r`. -/
def isspace (c : Char) : Bool :=
  c.toNat == 32 || (9 ≤ c.toNat && c.toNat ≤ 13)

/-- `std::isdigit`: the ten decimal digits. -/
def isdigit (c : Char) : Bool :=
  48 ≤ c.toNat && c.toNat ≤ 57

/-- The C string stored in a buffer: the characters before the first NUL. -/
def cstr (b : List Char) : List Char :=
  b.takeWhile (fun c => c != NUL)

/-- The text of the successive lines of a stream: the input cut at every
line feed. A stream that ends in a line feed yields a last, empty line, which
is the extra iteration of `while (! in.eof())` that reads nothing. -/
def splitLines : List Char → List (List Char)
  | [] => [[]]
  | c :: cs =>
    if c = NL then [] :: splitLines cs
    else match splitLines cs with
      | [] => [[c]]
      | l :: ls => (c :: l) :: ls

/-- `int` is a 32-bit two's complement integer. -/
def inInt (v : Int) : Bool :=
  -2147483648 ≤ v && v ≤ 2147483647

/-- `std::atoi`: skips leading white space, reads an optional sign and the
longest run of digits. The C standard leaves the result undefined when the
value is not representable in `int`; that case is `none`. -/
def atoi (s : List Char) : Option Int :=
  let s1 := s.dropWhile isspace
  let neg := s1.head? == some (Char.ofNat 45)
  let s2 := if neg || s1.head? == some (Char.ofNat 43) then s1.tail else s1
  let n : Nat := (s2.takeWhile isdigit).foldl (fun a c => 10 * a + (c.toNat - 48)) 0
  let v : Int := if neg then -(n : Int) else (n : Int)
  if inInt v then some v else none

/-! ## The header pattern and the PCRE calls -/

/-- Regular expressions, as far as `regexp` needs them. Repetition is greedy
and backtracks, as in PCRE. -/
inductive Re where
  | cls (p : Char → Bool)
  | seq (a b : Re)
  | opt (a : Re)
  | plus (p : Char → Bool)
  | grp (n : Nat) (a : Re)

/-- One or more characters of class `p`, longest run first; `k` continues the
match after the run, and a failure of `k` gives back one character. -/
def plusFrom {R : Type} (p : Char → Bool) (k : List Char → Nat → Option R) :
    List Char → Nat → Option R
  | [], _ => none
  | c :: cs, i =>
    if p c then
      match plusFrom p k cs (i + 1) with
      | some r => some r
      | none => k cs (i + 1)
    else none

/-- Backtracking match of `r` against the subject from offset `i` (the text
left is `s`), with the offsets captured so far in `ov` and the rest of the
pattern as the continuation `k`. A group records its start and end offsets at
`ov[2n]` and `ov[2n+1]`. -/
def Re.exec : Re → List Int → List Char → Nat →
    (List Int → List Char → Nat → Option (List Int)) → Option (List Int)
  | .cls p, ov, s, i, k =>
    match s with
    | [] => none
    | c :: cs => if p c then k ov cs (i + 1) else none
  | .seq a b, ov, s, i, k => a.exec ov s i (fun ov1 s1 i1 => b.exec ov1 s1 i1 k)
  | .opt a, ov, s, i, k =>
    match a.exec ov s i k with
    | some r => some r
    | none => k ov s i
  | .plus p, ov, s, i, k => plusFrom p (k ov) s i
  | .grp n a, ov, s, i, k =>
    a.exec ov s i (fun ov1 s1 i1 => k ((ov1.set (2 * n) i).set (2 * n + 1) i1) s1 i1)

/-- What it means for a pattern to match, apart from the order in which the
alternatives are tried: from offset `i`, with `s` the text left and `ov` the
offsets captured, the pattern can get to offset `j`, with `t` left and `ow`
captured. -/
def Re.Matches : Re → List Int → List Char → Nat → List Int → List Char → Nat → Prop
  | .cls p, ov, s, i, ow, t, j => ∃ c, s = c :: t ∧ p c = true ∧ j = i + 1 ∧ ow = ov
  | .seq a b, ov, s, i, ow, t, j =>
    ∃ ov1 s1 i1, a.Matches ov s i ov1 s1 i1 ∧ b.Matches ov1 s1 i1 ow t j
  | .opt a, ov, s, i, ow, t, j => a.Matches ov s i ow t j ∨ (ow = ov ∧ t = s ∧ j = i)
  | .plus p, ov, s, i, ow, t, j =>
    ∃ run, run ≠ [] ∧ (∀ c ∈ run, p c = true) ∧ s = run ++ t ∧ j = i + run.length ∧ ow = ov
  | .grp n a, ov, s, i, ow, t, j =>
    ∃ ov1, a.Matches ov s i ov1 t j ∧ ow = (ov1.set (2 * n) i).set (2 * n + 1) j

/-- The class `[0-9]`. -/
def reDigit : Char → Bool := isdigit
/-- The class `[./]`. -/
def reSep : Char → Bool := fun c => c.toNat == 46 || c.toNat == 47
/-- The class `\s`: the white space characters of `isspace` (PCRE counts the
vertical tab among them since release 8.34). -/
def reSpace : Char → Bool := isspace
/-- The class `[^)]`. -/
def reNotClose : Char → Bool := fun c => c.toNat != 41
/-- The class `.`: any character but a line feed. -/
def reDot : Char → Bool := fun c => c != NL
/-- A literal character. -/
def reLit (n : Nat) : Char → Bool := fun c => c.toNat == n

/-- The part `(([0-9]{4})[./])?` of the pattern. -/
def reYear : Re :=
  .opt (.grp 1 (.seq
    (.grp 2 (.seq (.cls reDigit) (.seq (.cls reDigit) (.seq (.cls reDigit) (.cls reDigit)))))
    (.cls reSep)))

/-- The part `(\*\s+)?` of the pattern. -/
def reStar : Re :=
  .opt (.grp 5 (.seq (.cls (reLit 42)) (.plus reSpace)))

/-- The part `(\(([^)]+)\)\s+)?` of the pattern. -/
def reCode : Re :=
  .opt (.grp 6 (.seq (.cls (reLit 40))
    (.seq (.grp 7 (.plus reNotClose)) (.seq (.cls (reLit 41)) (.plus reSpace)))))

/-- The part `(.+)` of the pattern. -/
def reDesc : Re :=
  .grp 8 (.plus reDot)

/-- The pattern `regexp` after its anchor:
`(([0-9]{4})[./])?([0-9]+)[./]([0-9]+)\s+(\*\s+)?(\(([^)]+)\)\s+)?(.+)`. -/
def regexp : Re :=
  .seq reYear
  (.seq (.grp 3 (.plus reDigit))
  (.seq (.cls reSep)
  (.seq (.grp 4 (.plus reDigit))
  (.seq (.plus reSpace)
  (.seq reStar
  (.seq reCode reDesc))))))

/-- The pattern between the white space after the day and the description. -/
def reRest5 : Re := .seq reStar reCode
/-- The pattern between the day and the description. -/
def reRest4 : Re := .seq (.plus reSpace) reRest5
/-- The pattern between the second separator and the description. -/
def reRest3 : Re := .seq (.grp 4 (.plus reDigit)) reRest4
/-- The pattern between the month and the description. -/
def reRest2 : Re := .seq (.cls reSep) reRest3
/-- The pattern between the year part and the description. -/
def reRest1 : Re := .seq (.grp 3 (.plus reDigit)) reRest2
/-- The pattern up to the description: `regexp` is this part followed by
`reDesc`, and the two ways of nesting the sequence run the same. -/
def reFront : Re := .seq reYear reRest1

/-- Whether a pattern can write the slot `m` of the match vector. -/
def Re.sets : Re → Nat → Bool
  | .cls _, _ => false
  | .plus _, _ => false
  | .seq a b, m => a.sets m || b.sets m
  | .opt a, m => a.sets m
  | .grp n a, m => m == 2 * n || m == 2 * n + 1 || a.sets m

/-- The offsets of groups 0 to 8 before a match: all unset. -/
def ovectorUnset : List Int := List.replicate 18 (-1)

/-- `pcre_exec(entry_re, NULL, line, strlen(line), 0, 0, ovector, 60)`.
The pattern starts with `^`, so a match can only start at offset 0. On a match
the return value is one more than the highest numbered group that took part,
and `ovector` holds the offsets of the groups (`-1` for a group that did not
take part). When nothing matches the return value is `PCRE_ERROR_NOMATCH`,
which is `-1`, and `ovector` keeps whatever the uninitialised local array held
(`none`). The value `0` stands for a too small `ovector` and cannot occur with
60 slots for 9 groups. -/
def pcre_exec (line : List Char) : Int × Option (List Int) :=
  match regexp.exec ovectorUnset line 0
      (fun ov _ i => some ((ov.set 0 0).set 1 i)) with
  | some ov =>
    (((List.range 9).foldl (fun m n => if 0 ≤ ov.getD (2 * n) (-1) then n + 1 else m) 0 : Nat),
      some ov)
  | none => (-1, none)

/-- `pcre_copy_substring(line, ovector, matched, n, buf, 255)`: the return
value and the new contents of `buf`. The call fails with
`PCRE_ERROR_NOSUBSTRING` (`-7`) when `n` is not below `matched` and with
`PCRE_ERROR_NOMEMORY` (`-6`) when the substring and its NUL do not fit in 255
bytes; `buf` is then left as it was. -/
def pcre_copy_substring (line : List Char) (ov : List Int) (matched : Int) (n : Nat)
    (buf : List Char) : Int × List Char :=
  if matched ≤ n then (-7, buf)
  else
    let a := (ov.getD (2 * n) (-1)).toNat
    let b := (ov.getD (2 * n + 1) (-1)).toNat
    if 255 < (b - a) + 1 then (-6, buf)
    else (((b - a : Nat) : Int), (line.drop a).take (b - a))

/-- The text of group `n` of a match: the characters of the line between the
two offsets of the group. -/
def group (line : List Char) (ov : List Int) (n : Nat) : List Char :=
  (line.drop (ov.getD (2 * n) (-1)).toNat).take
    ((ov.getD (2 * n + 1) (-1)).toNat - (ov.getD (2 * n) (-1)).toNat)

/-- The number that a text of digits denotes. -/
def digitsValue (ds : List Char) : Nat :=
  ds.foldl (fun a c => 10 * a + (c.toNat - 48)) 0

/-! ## Data model -/

/-- The fields of `moment` that `parse_ledger` assigns before `std::mktime`. -/
structure Tm where
  tm_mday : Int
  tm_mon : Int
  tm_year : Int
  deriving DecidableEq, Repr

/-- The number of days from 1970-01-01 to the given day of the proleptic
Gregorian calendar; the month is in 1 to 12, the day may lie outside the
month. -/
def daysFromCivil (y m d : Int) : Int :=
  let y1 := if m ≤ 2 then y - 1 else y
  let era := Int.ediv y1 400
  let yoe := y1 - era * 400
  let doy := Int.ediv (153 * (if 2 < m then m - 3 else m + 9) + 2) 5 + d - 1
  let doe := yoe * 365 + Int.ediv yoe 4 - Int.ediv yoe 100 + doy
  era * 146097 + doe - 719468

/-- The year, month and day of the day that lies the given number of days
after 1970-01-01. -/
def civilFromDays (z0 : Int) : Int × Int × Int :=
  let z := z0 + 719468
  let era := Int.ediv z 146097
  let doe := z - era * 146097
  let yoe := Int.ediv (doe - Int.ediv doe 1460 + Int.ediv doe 36524 - Int.ediv doe 146096) 365
  let doy := doe - (365 * yoe + Int.ediv yoe 4 - Int.ediv yoe 100)
  let mp := Int.ediv (5 * doy + 2) 153
  let d := doy - Int.ediv (153 * mp + 2) 5 + 1
  let m := if mp < 10 then mp + 3 else mp - 9
  (yoe + era * 400 + (if m ≤ 2 then 1 else 0), m, d)

/-- `std::mktime` in the UTC zone for midnight of the given fields: the month
is carried into the year and the day into the months, as the C standard
prescribes for fields outside their ranges. The result is in seconds. -/
def mktimeUTC (tm : Tm) : Int :=
  (daysFromCivil (tm.tm_year + 1900 + Int.ediv tm.tm_mon 12) (Int.emod tm.tm_mon 12 + 1) 1
    + (tm.tm_mday - 1)) * 86400

/-- The calendar date (year, month, day) of a time in the UTC zone. -/
def dateUTC (t : Int) : Int × Int × Int :=
  civilFromDays (Int.ediv t 86400)

/-- A `transaction`: the account it posts to (the registry key of the account
that `find_account` returned), its cost and its note. -/
structure Transaction (A : Type) where
  acct : List Char
  cost : A
  note : List Char
  deriving DecidableEq, Repr

/-- An `entry`. `date` is `none` until the header fields are stored, and then
holds the fields on which `std::mktime` is called to give `curr->date`. -/
structure Entry (A : Type) where
  date : Option Tm
  cleared : Bool
  code : List Char
  desc : List Char
  xacts : List (Transaction A)
  deriving DecidableEq, Repr

/-- The object that `new entry` creates: no date yet, not cleared, empty code
and description, no transactions. -/
def Entry.fresh {A : Type} : Entry A :=
  { date := none, cleared := false, code := [], desc := [], xacts := [] }

/-- What `parse.cc` uses from `ledger.h`, over the types `A` of amounts and
`B` of balances: `create_amount`, `amount::copy`, `amount::negate`,
`entry::validate`, `balance::credit`, and the balance of a new account. -/
structure Lib (A B : Type) where
  create_amount : List Char → A
  copy : A → A
  negate : A → A
  validate : Entry A → Bool
  credit : B → A → B
  noBalance : B

/-- A message written to `std::cerr`: the header that failed to parse with
its line number and text, or the entry that failed to balance with the line
number printed, the pointer to the entry and the entry printed. -/
inductive Diag (A : Type) where
  | failedToParse (line : Int) (text : List Char)
  | failedToBalance (line : Int) (p : Nat) (e : Entry A)
  deriving DecidableEq, Repr

/-- Why a run cannot go on. -/
inductive Fault where
  /-- A member of `curr` is used while `curr` is `NULL`. -/
  | nullEntry
  /-- The call `curr->xacts.front()` on an empty list. -/
  | emptyFront
  /-- The match vector is read after `pcre_exec` found no match. -/
  | noMatch
  /-- An `assert` failed. -/
  | assertion
  /-- An `int` result is not representable. -/
  | intRange
  /-- The call `atoi(line + 2)` reads on over the end of the array `line`. -/
  | pastLine
  deriving DecidableEq, Repr

/-- The state that `parse_ledger` works on: the entry objects, the globals
`main_ledger.entries`, the account registry, `linenum`, the static `buf`, the
locals `curr` and `current_year`, what was written to `std::cerr`, and the
bytes of the local array `line`. The array is not initialised at the call: it
holds what the stack held, and from then on what `getline` has stored in it,
the bytes behind the end of a line being those of earlier, longer lines. -/
structure State (A B : Type) where
  heap : List (Entry A)
  entries : List Nat
  accounts : List (List Char × B)
  linenum : Int
  buf : List Char
  curr : Option Nat
  current_year : Int
  cerr : List (Diag A)
  line : List Char
  deriving DecidableEq, Repr

/-- The result of one iteration of the loop. -/
inductive Step (A B : Type) where
  | ok (s : State A B)
  | stuck (f : Fault) (s : State A B)
  deriving DecidableEq, Repr

/-- The result of a call of `parse_ledger`: it returned `true` in state `s`;
or it got stuck; or the stream went into its failed state on a line of more
than 1022 characters, after which `in.eof()` never becomes true and the loop
reads empty lines for ever. -/
inductive Outcome (A B : Type) where
  | returned (s : State A B)
  | stuck (f : Fault) (s : State A B)
  | hangs (s : State A B)
  deriving DecidableEq, Repr

/-- The state in which a run ended, got stuck or began to spin. -/
def Outcome.state {A B : Type} : Outcome A B → State A B
  | .returned s => s
  | .stuck _ s => s
  | .hangs s => s

/-! ## The account registry -/

/-- The balance of the account with the given path, if the registry has
one. -/
def balance_of {B : Type} : List (List Char × B) → List Char → Option B
  | [], _ => none
  | a :: rest, path => if a.1 = path then some a.2 else balance_of rest path

/-- Modelled from the spec: `main_ledger.find_account` is declared in
`ledger.h`. It looks the path up in the registry and creates the account, with
no balance, on first reference; the account is identified by its path. -/
def find_account {B : Type} (zero : B) (accts : List (List Char × B))
    (path : List Char) : List (List Char × B) :=
  match balance_of accts path with
  | some _ => accts
  | none => accts ++ [(path, zero)]

/-- The call `acct->balance.credit(cost)` on the account with the given
path. -/
def credit_account {A B : Type} (L : Lib A B) (accts : List (List Char × B))
    (path : List Char) (cost : A) : List (List Char × B) :=
  accts.map (fun a => if a.1 = path then (a.1, L.credit a.2 cost) else a)

/-! ## `next_element` -/

/-- The loop that turns every tab of the buffer into a space. -/
def tabsToSpaces (b : List Char) : List Char :=
  b.map (fun c => if c = TAB then SP else c)

/-- The call `strstr(buf, "  ")`: the text before the first pair of spaces and
the text from the second space of that pair on. -/
def splitDouble : List Char → Option (List Char × List Char)
  | [] => none
  | c :: rest =>
    match rest with
    | [] => none
    | d :: _ =>
      if c = SP ∧ d = SP then some ([], rest)
      else match splitDouble rest with
        | some (a, b) => some (c :: a, b)
        | none => none

/-- The call `strchr(buf, ' ')`: the text before the first space and the text
after it. -/
def splitSingle : List Char → Option (List Char × List Char)
  | [] => none
  | c :: rest =>
    if c = SP then some ([], rest)
    else match splitSingle rest with
      | some (a, b) => some (c :: a, b)
      | none => none

/-- The function `next_element(buf, variable)`: the string left in `buf` (cut
at the separator when there is one) and the pointer returned, `none` for
`NULL`. The flag `variable` is called `isVariable` here. -/
def next_element (buf : List Char) (isVariable : Bool) : List Char × Option (List Char) :=
  let b := tabsToSpaces buf
  match (if isVariable then splitDouble b else splitSingle b) with
  | none => (b, none)
  | some (first, rest) => (first, some (rest.dropWhile isspace))

/-! ## `finalize_entry` and the header line -/

/-- The function `finalize_entry(curr)`, reading the global `linenum`. A
pointer that is not in the heap does not occur in a run: `curr` is `NULL` or
the entry allocated last. -/
def finalize_entry {A B : Type} (L : Lib A B) (s : State A B) (curr : Option Nat) :
    State A B :=
  match curr with
  | none => s
  | some p =>
    match s.heap[p]? with
    | none => s
    | some e =>
      if ! L.validate e then
        { s with cerr := s.cerr ++ [Diag.failedToBalance (s.linenum - 1) p e] }
      else
        { s with entries := s.entries ++ [p] }

/-- The result of storing the header fields into the new entry: the entry and
`buf` at the end, or at the point where the run got stuck. -/
inductive Filled (A : Type) where
  | done (e : Entry A) (buf : List Char)
  | fault (f : Fault) (e : Entry A) (buf : List Char)
  deriving DecidableEq, Repr

/-- Lines 101 to 137 of `parse_ledger`: the date, the cleared flag, the code
and the description are read from the match vector into the new entry `e`. -/
def fill_entry {A : Type} (line : List Char) (ov : List Int) (matched : Int)
    (current_year : Int) (e : Entry A) (buf : List Char) : Filled A :=
  let buf1 := if 0 ≤ ov.getD 2 (-1) then (pcre_copy_substring line ov matched 2 buf).2 else buf
  match (if 0 ≤ ov.getD 2 (-1) then atoi buf1 else some current_year) with
  | none => .fault .intRange e buf1
  | some year =>
    if ov.getD 6 (-1) < 0 then .fault .assertion e buf1
    else
      let buf2 := (pcre_copy_substring line ov matched 3 buf1).2
      match atoi buf2 with
      | none => .fault .intRange e buf2
      | some mon =>
        if ov.getD 8 (-1) < 0 then .fault .assertion e buf2
        else
          let buf3 := (pcre_copy_substring line ov matched 4 buf2).2
          match atoi buf3 with
          | none => .fault .intRange e buf3
          | some mday =>
            if !(inInt (mon - 1) && inInt (year - 1900)) then .fault .intRange e buf3
            else
              let e1 := { e with date := some ⟨mday, mon - 1, year - 1900⟩ }
              let e2 := if 0 ≤ ov.getD 10 (-1) then { e1 with cleared := true } else e1
              let buf4 :=
                if 0 ≤ ov.getD 12 (-1) then (pcre_copy_substring line ov matched 7 buf3).2
                else buf3
              let e3 := if 0 ≤ ov.getD 12 (-1) then { e2 with code := buf4 } else e2
              if 0 ≤ ov.getD 16 (-1) then
                let r := pcre_copy_substring line ov matched 8 buf4
                if r.1 < 0 then .fault .assertion e3 r.2
                else .done { e3 with desc := r.2 } r.2
              else .done e3 buf4

/-- The branch of the loop for a line that starts with a digit. -/
def header {A B : Type} (L : Lib A B) (s : State A B) (line : List Char) : Step A B :=
  let m := pcre_exec line
  if m.1 = 0 then
    .ok { s with cerr := s.cerr ++ [Diag.failedToParse s.linenum line] }
  else
    let s1 := match s.curr with
      | some p => finalize_entry L s (some p)
      | none => s
    let p := s1.heap.length
    let s2 := { s1 with heap := s1.heap ++ [Entry.fresh], curr := some p }
    match m.2 with
    | none => .stuck .noMatch s2
    | some ov =>
      match fill_entry line ov m.1 s2.current_year (Entry.fresh : Entry A) s2.buf with
      | .done e buf => .ok { s2 with heap := s2.heap.set p e, buf := buf }
      | .fault f e buf => .stuck f { s2 with heap := s2.heap.set p e, buf := buf }

/-! ## The posting line -/

/-- Whether the amount of a posting is implicit: the test
`! cost_str || ! *cost_str || *cost_str == ';'`. -/
def isImplicit : Option (List Char) → Bool
  | none => true
  | some [] => true
  | some (c :: _) => c == SEMI

/-- The note of a posting with an implicit amount: when there is a cost field
that is not empty, the text after its leading `;` and white space characters;
the empty note of a new `transaction` otherwise. -/
def implicitNote : Option (List Char) → List Char
  | some (c :: r) => (c :: r).dropWhile (fun d => d == SEMI || isspace d)
  | _ => []

/-- The text before the first `;` of the cost field: what is left in
`cost_str` once `*note_str++ = '\0'` has cut it. -/
def beforeNote (cost_str : List Char) : List Char :=
  cost_str.takeWhile (fun c => c != SEMI)

/-- The note of a posting with an explicit amount: when the cost field holds
a `;`, the text after the first one with leading white space skipped; the
empty note of a new `transaction` otherwise. -/
def explicitNote (cost_str : List Char) : List Char :=
  match cost_str.dropWhile (fun c => c != SEMI) with
  | [] => []
  | _ :: r => r.dropWhile isspace

/-- The loop that cuts trailing white space off the cost text. The text
starts with a character that is not white space, where the loop stops at the
latest. -/
def trimTrailing (t : List Char) : List Char :=
  (t.reverse.dropWhile isspace).reverse

/-- The text handed to `create_amount`. -/
def costText (cost_str : List Char) : List Char :=
  trimTrailing (beforeNote cost_str)

/-- Lines 198 to 202: the account is looked up or created, credited if
`compute_balances` is set, and the transaction is appended to `curr->xacts`.
With `curr == NULL` the registry has been updated when the run gets stuck. -/
def record {A B : Type} (L : Lib A B) (compute_balances : Bool) (s : State A B)
    (x : Transaction A) : Step A B :=
  let accts := find_account L.noBalance s.accounts x.acct
  let s1 := { s with accounts :=
    if compute_balances then credit_account L accts x.acct x.cost else accts }
  match s.curr with
  | none => .stuck .nullEntry s1
  | some q =>
    match s.heap[q]? with
    | none => .stuck .nullEntry s1
    | some e => .ok { s1 with heap := s1.heap.set q { e with xacts := e.xacts ++ [x] } }

/-- The branch of the loop for a line that starts with white space. -/
def posting {A B : Type} (L : Lib A B) (compute_balances : Bool) (s : State A B)
    (line : List Char) : Step A B :=
  let ne := next_element (line.dropWhile isspace) true
  if isImplicit ne.2 then
    match s.curr with
    | none => .stuck .nullEntry s
    | some q =>
      match s.heap[q]? with
      | none => .stuck .nullEntry s
      | some e =>
        match e.xacts.head? with
        | none => .stuck .emptyFront s
        | some x0 =>
          record L compute_balances s
            { acct := ne.1, cost := L.negate (L.copy x0.cost), note := implicitNote ne.2 }
  else
    let cost_str := ne.2.getD []
    record L compute_balances s
      { acct := ne.1, cost := L.create_amount (costText cost_str),
        note := explicitNote cost_str }

/-! ## The loop -/

/-- Whether `atoi` comes to a character at which it stops, after the white
space, the sign and the digits it reads, before the end of the bytes `t`. -/
def atoiStops (t : List Char) : Bool :=
  let s1 := t.dropWhile isspace
  let s2 := if s1.head? == some (Char.ofNat 45) || s1.head? == some (Char.ofNat 43)
    then s1.tail else s1
  !(s2.dropWhile isdigit).isEmpty

/-- The text that `atoi` reads at `line + 2` when the C string in `line` has
fewer than two characters: `line + 2` then lies behind the terminating NUL,
where the array holds the bytes of earlier lines (or what it held at the
call). The text runs up to the next NUL in the array; when the array holds no
NUL from there on, `atoi` still stays inside the array if it comes to a
character at which it stops, and runs over the end of the array if not
(`none`). -/
def staleText (arr : List Char) : Option (List Char) :=
  if NUL ∈ arr.drop 2 then some (cstr (arr.drop 2))
  else if atoiStops (arr.drop 2) then some (arr.drop 2)
  else none

/-- The branch for a line that starts with `Y`: `current_year = atoi(line + 2)`.
The argument `line` is the C string in the array `s.line`. When it has two
characters or more, `line + 2` points into it; for the line `Y` alone `atoi`
reads the bytes that the array holds behind the terminating NUL. -/
def year_directive {A B : Type} (s : State A B) (line : List Char) : Step A B :=
  match (if line.length < 2 then staleText s.line else some (line.drop 2)) with
  | none => .stuck .pastLine s
  | some text =>
    match atoi text with
    | none => .stuck .intRange s
    | some y => .ok { s with current_year := y }

/-- The body of the loop after `linenum++`, for the C string `line`. -/
def step {A B : Type} (L : Lib A B) (compute_balances : Bool) (s : State A B)
    (line : List Char) : Step A B :=
  match line with
  | [] => .ok s
  | c :: _ =>
    if c = NL then .ok s
    else if isdigit c then header L s line
    else if isspace c then posting L compute_balances s line
    else if c.toNat = 89 then year_directive s line
    else .ok s

/-- What `in.getline(line, 1023)` leaves in the array `line` for the input
line `l`: at most 1022 characters of the line and a NUL are stored at the start
of the array, and the bytes behind them stay as they were. -/
def getline (arr l : List Char) : List Char :=
  l.take 1022 ++ NUL :: arr.drop ((l.take 1022).length + 1)

/-- The state after `in.getline(line, 1023); linenum++;` for the input line
`l`. -/
def readLine {A B : Type} (s : State A B) (l : List Char) : State A B :=
  { s with linenum := s.linenum + 1, line := getline s.line l }

/-- The `while (! in.eof())` loop over the lines still to read, and the
statements after it. `in.getline(line, 1023)` stores at most 1022 characters;
a longer line puts the stream into its failed state, its first 1022
characters are processed, and the loop never ends. -/
def loop {A B : Type} (L : Lib A B) (compute_balances : Bool) :
    List (List Char) → State A B → Outcome A B
  | [], s => .returned (match s.curr with
      | some p => finalize_entry L s (some p)
      | none => s)
  | l :: ls, s =>
    let s1 := readLine s l
    if l.length ≤ 1022 then
      match step L compute_balances s1 (cstr l) with
      | .ok s2 => loop L compute_balances ls s2
      | .stuck f s2 => .stuck f s2
    else
      match step L compute_balances s1 (cstr (l.take 1022)) with
      | .ok s2 => .hangs s2
      | .stuck f s2 => .stuck f s2

/-- The function `parse_ledger(in, compute_balances)`, called with the stream
contents `input` when the globals are as in `g` and the host's calendar year
is `host_year`. The fields `curr` and `current_year` of `g` are not read; the
field `line` of `g` is what the stack holds where the array `line` comes to
lie. -/
def parse_ledger {A B : Type} (L : Lib A B) (host_year : Int) (g : State A B)
    (input : List Char) (compute_balances : Bool) : Outcome A B :=
  loop L compute_balances (splitLines input)
    { g with curr := none, current_year := host_year }

/-! ## An amount library to run the parser on examples -/

/-- Modelled from the spec: the amount type is declared in `ledger.h`. An
amount is a fixed-precision magnitude, here a whole number of its smallest
unit, with a commodity symbol, empty when there is none. -/
structure Amount where
  quantity : Int
  commodity : List Char
  deriving DecidableEq, Repr

/-- Modelled from the spec: `create_amount` is declared in `ledger.h`, and the
spec gives examples of its input only (`$10`, `-10`). Here the text is read as
a commodity symbol followed by a signed whole number. -/
def Amount.parse (t : List Char) : Amount :=
  let isNum : Char → Bool := fun c => isdigit c || c.toNat == 45
  { quantity := (atoi (t.dropWhile (fun c => !isNum c))).getD 0,
    commodity := t.takeWhile (fun c => !isNum c) }

/-- Modelled from the spec: `negate` flips the sign. -/
def Amount.negate (a : Amount) : Amount :=
  { a with quantity := -a.quantity }

/-- The sum of the costs in commodity `c` among the transactions `xs`. -/
def commoditySum (c : List Char) (xs : List (Transaction Amount)) : Int :=
  ((xs.filter (fun x => x.cost.commodity == c)).map (fun x => x.cost.quantity)).sum

/-- Modelled from the spec: `entry::validate` is declared in `ledger.h`. An
entry is balanced when, for every commodity among its transactions, the costs
in that commodity sum to zero. -/
def validateEntry (e : Entry Amount) : Bool :=
  e.xacts.all (fun x => commoditySum x.cost.commodity e.xacts == 0)

/-- Modelled from the spec: `balance::credit` is declared in `ledger.h`. A
balance holds one amount per commodity; crediting adds to the amount of the
commodity, or inserts it when the commodity is new. -/
def creditBalance (b : List Amount) (a : Amount) : List Amount :=
  if b.any (fun x => x.commodity == a.commodity) then
    b.map (fun x =>
      if x.commodity == a.commodity then { x with quantity := x.quantity + a.quantity } else x)
  else b ++ [a]

/-- The amount library used in the examples. `copy` yields an independent
duplicate, which for values is the value itself. -/
def sampleLib : Lib Amount (List Amount) :=
  { create_amount := Amount.parse
    copy := fun a => a
    negate := Amount.negate
    validate := validateEntry
    credit := creditBalance
    noBalance := [] }

/-- The globals at program start: nothing allocated, an empty ledger, `linenum`
zero, an empty `buf`, nothing written; the 1024 bytes of a fresh stack, where
`line` comes to lie, are zero. -/
def startState : State Amount (List Amount) :=
  { heap := [], entries := [], accounts := [], linenum := 0, buf := [],
    curr := none, current_year := 0, cerr := [], line := List.replicate 1024 NUL }

/-! ## Notions used to state the properties -/

/-- The state carried by the result of an iteration. -/
def Step.state {A B : Type} : Step A B → State A B
  | .ok s => s
  | .stuck _ s => s

/-- The state at the head of the loop once the given lines have been read and
processed, when the run gets that far. -/
def steps {A B : Type} (L : Lib A B) (compute_balances : Bool) :
    List (List Char) → State A B → Option (State A B)
  | [], s => some s
  | l :: ls, s =>
    if l.length ≤ 1022 then
      match step L compute_balances (readLine s l) (cstr l) with
      | .ok s2 => steps L compute_balances ls s2
      | .stuck _ _ => none
    else none

/-- Whether the entry that `p` points to passes `validate()`. -/
def valid {A B : Type} (L : Lib A B) (h : List (Entry A)) (p : Nat) : Bool :=
  match h[p]? with
  | some e => L.validate e
  | none => false

/-- The entries named by the "failed to balance" messages, in the order
written. -/
def diagPtrs {A : Type} : List (Diag A) → List Nat
  | [] => []
  | .failedToBalance _ p _ :: ds => p :: diagPtrs ds
  | .failedToParse _ _ :: ds => diagPtrs ds

/-- Every pointer in `main_ledger.entries` points to an entry that passes
`validate()`. -/
def Committed {A B : Type} (L : Lib A B) (s : State A B) : Prop :=
  ∀ p ∈ s.entries, valid L s.heap p = true

/-- What an iteration does to the entry objects, to `main_ledger.entries`, to
`curr` and to the "failed to balance" messages: nothing; or a transaction is
appended to the open entry; or a first entry is opened; or the open entry is
finalized and the next one is opened. -/
inductive Effect {A B : Type} (L : Lib A B) (s t : State A B) : Prop where
  | same (hh : t.heap = s.heap) (he : t.entries = s.entries) (hc : t.curr = s.curr)
      (hd : diagPtrs t.cerr = diagPtrs s.cerr)
  | post (q : Nat) (e : Entry A) (x : Transaction A) (hq : s.curr = some q)
      (hg : s.heap[q]? = some e)
      (hh : t.heap = s.heap.set q { e with xacts := e.xacts ++ [x] })
      (he : t.entries = s.entries) (hc : t.curr = s.curr)
      (hd : diagPtrs t.cerr = diagPtrs s.cerr)
  | openFirst (e : Entry A) (hq : s.curr = none) (hh : t.heap = s.heap ++ [e])
      (hc : t.curr = some s.heap.length) (he : t.entries = s.entries)
      (hd : diagPtrs t.cerr = diagPtrs s.cerr)
  | openNext (q : Nat) (e0 e : Entry A) (hq : s.curr = some q) (hg : s.heap[q]? = some e0)
      (hh : t.heap = s.heap ++ [e]) (hc : t.curr = some s.heap.length)
      (he : t.entries = s.entries ++ (if L.validate e0 then [q] else []))
      (hd : diagPtrs t.cerr = diagPtrs s.cerr ++ (if L.validate e0 then [] else [q]))

/-- The invariant of the loop, relative to the globals `g` at the call. Either
no entry has been opened yet; or the entries opened so far are those at the
addresses from `g.heap.length` on, the last of them is the open one, and each
of the others was finalized: appended to `main_ledger.entries` if it passes
`validate()`, reported as unbalanced if not, in the order of opening. -/
def Inv {A B : Type} (L : Lib A B) (g s : State A B) : Prop :=
  (s.curr = none ∧ s.heap = g.heap ∧ s.entries = g.entries ∧
    diagPtrs s.cerr = diagPtrs g.cerr) ∨
  (∃ k, s.curr = some (g.heap.length + k) ∧ s.heap.length = g.heap.length + k + 1 ∧
    s.heap.take g.heap.length = g.heap ∧
    s.entries = g.entries ++ (List.range' g.heap.length k).filter (valid L s.heap) ∧
    diagPtrs s.cerr =
      diagPtrs g.cerr ++ (List.range' g.heap.length k).filter (fun p => !valid L s.heap p))

/-- The addresses below this bound hold entries that the loop no longer
touches: all entries when none is open, those before the open one
otherwise. -/
def closedBelow {A B : Type} (s : State A B) : Nat :=
  s.curr.getD s.heap.length

/-- The state of a run that has returned, relative to the globals `g` at the
call: the entries known before are untouched, and every entry opened by the
run (the addresses from `g.heap.length` on) was appended to
`main_ledger.entries` if it passes `validate()` and reported as unbalanced if
not, in the order of opening. -/
def Finished {A B : Type} (L : Lib A B) (g s : State A B) : Prop :=
  s.heap.take g.heap.length = g.heap ∧
  s.entries = g.entries ++
    (List.range' g.heap.length (s.heap.length - g.heap.length)).filter (valid L s.heap) ∧
  diagPtrs s.cerr = diagPtrs g.cerr ++
    (List.range' g.heap.length (s.heap.length - g.heap.length)).filter
      (fun p => !valid L s.heap p)

/-- The entries that a run opened: the addresses allocated between the call,
with globals `g`, and the state `t`, in the order of allocation. -/
def opened {A B : Type} (g t : State A B) : List Nat :=
  List.range' g.heap.length (t.heap.length - g.heap.length)

/-- The pointers that a run appended to `main_ledger.entries`. -/
def appended {A B : Type} (g t : State A B) : List Nat :=
  t.entries.drop g.entries.length

/-- The entries that a run reported as unbalanced. -/
def reported {A B : Type} (g t : State A B) : List Nat :=
  (diagPtrs t.cerr).drop (diagPtrs g.cerr).length

/-- The commit/discard partition: every entry opened was either appended or
reported, once and not both, and nothing else was appended or reported. -/
def Partitioned {A B : Type} (g t : State A B) : Prop :=
  (∀ p ∈ opened g t, (appended g t).count p + (reported g t).count p = 1) ∧
  (opened g t).length = (appended g t).length + (reported g t).length

/-- Whether the loop takes a line for an entry header: its first character is a
digit. -/
def isHeaderLine (line : List Char) : Bool :=
  match cstr line with
  | [] => false
  | c :: _ => isdigit c

/-- A state with one entry, balanced and committed, from an earlier run. -/
def priorState : State Amount (List Amount) :=
  { startState with
    heap := [{ date := some ⟨31, 11, 123⟩, cleared := true, code := [], desc := "Gift".toList,
               xacts := [{ acct := "Income".toList, cost := ⟨-5, "$".toList⟩, note := [] },
                         { acct := "Cash".toList, cost := ⟨5, "$".toList⟩, note := [] }] }],
    entries := [0] }

/-- A journal with an entry that does not balance followed by one that
does. -/
def journalMixed : List Char :=
  "2024/01/01 Lunch\n  Expenses  $5\n  Cash  $-4\n2024/01/02 Rent\n  Expenses  $7\n  Cash\n".toList

/-- A header whose description has 255 characters. -/
def journalLongDesc : List Char :=
  "1/1 ".toList ++ List.replicate 255 (Char.ofNat 120)

/-- A header followed by a first posting with an explicit amount. -/
def journalFirstPosting : List (List Char) :=
  ["2024/01/01 Lunch".toList, "  A  $10".toList]

/-- The state at the head of the loop after `journalFirstPosting`: one open
entry, whose only posting is `A  $10`. -/
def afterFirstPosting : State Amount (List Amount) :=
  (steps sampleLib true journalFirstPosting startState).getD startState

/-- A journal whose first posting has no amount. -/
def journalImplicitFirst : List Char :=
  "2024/01/01 Opening\n  Assets:Cash\n".toList

/-- A balanced entry followed by a line that starts with a digit but is not a
header. -/
def journalBadHeader : List Char :=
  "2024/01/01 Lunch\n  Expenses  $5\n  Cash  $-5\n2024\n".toList

/-- Whether a text holds no two consecutive spaces. -/
def noDoubleSpace : List Char → Bool
  | [] => true
  | a :: rest =>
    match rest with
    | [] => true
    | b :: _ => !(a == SP && b == SP) && noDoubleSpace rest

/-- The form of posting line described for the double-space rule: a non-empty
indentation of white space, an account text `A` that is not empty, does not
start with white space and holds no two consecutive spaces, `n` spaces with
`n` at least two, and a cost text `C` that is not empty, starts with neither
white space nor `;` and holds no `;`. The line is
`indent ++ A ++ List.replicate n SP ++ C`. -/
def PostingForm (indent A : List Char) (n : Nat) (C : List Char) : Prop :=
  indent ≠ [] ∧ (∀ c ∈ indent, isspace c = true ∧ c ≠ NL) ∧
  (∃ a A1, A = a :: A1 ∧ isspace a = false) ∧ noDoubleSpace A = true ∧
  2 ≤ n ∧
  (∃ c C1, C = c :: C1 ∧ isspace c = false ∧ c ≠ SEMI) ∧ SEMI ∉ C

/-- The transactions of the given entries, in the order of the entries and,
within an entry, in the order in which they were appended. -/
def postedAll {A : Type} : List (Entry A) → List (Transaction A)
  | [] => []
  | e :: es => e.xacts ++ postedAll es

/-- The costs of the transactions recorded against the account `path`, in
order. -/
def costsTo {A : Type} (path : List Char) (xs : List (Transaction A)) : List A :=
  (xs.filter (fun x => x.acct == path)).map (fun x => x.cost)

/-- The balance of an account after the given costs have been credited to it
one after the other; an account that does not exist yet (`none`) is created
with no balance by the first credit. -/
def creditAll {A B : Type} (L : Lib A B) (b : Option B) (costs : List A) : Option B :=
  costs.foldl (fun ob c => some (L.credit (ob.getD L.noBalance) c)) b

/-- The header line of the specification's example. -/
def headerSample : List Char := "2024/03/15 * (123) Coffee".toList

/-- The match vector of `headerSample`. -/
def headerSampleOv : List Int :=
  [0, 25, 0, 5, 0, 4, 5, 7, 8, 10, 11, 13, 13, 19, 14, 17, 19, 25]

/-- A header whose code has 255 characters. -/
def headerLongCode : List Char :=
  "1/1 (".toList ++ List.replicate 255 (Char.ofNat 99) ++ ") x".toList

/-- A header whose month does not fit an `int`. -/
def headerBigMonth : List Char := "99999999999/1 x".toList

/-- A header without a year whose month is written with 255 digits. -/
def headerLongMonth : List Char :=
  List.replicate 254 (Char.ofNat 48) ++ "3/15 x".toList

/-- The match vector of the header `3/15  Coffee`. -/
def coffeeOv : List Int :=
  [0, 12, -1, -1, -1, -1, 0, 1, 2, 4, -1, -1, -1, -1, -1, -1, 6, 12]

/-! ## Notions for the later properties -/

/-- The state with the account registry left out of consideration. -/
def eraseAccounts {A B : Type} (s : State A B) : State A B :=
  { s with accounts := [] }

/-- The result of an iteration with the account registry left out. -/
def Step.erase {A B : Type} : Step A B → Step A B
  | .ok s => .ok (eraseAccounts s)
  | .stuck f s => .stuck f (eraseAccounts s)

/-- The result of a run with the account registry left out. -/
def Outcome.erase {A B : Type} : Outcome A B → Outcome A B
  | .returned s => .returned (eraseAccounts s)
  | .stuck f s => .stuck f (eraseAccounts s)
  | .hangs s => .hangs (eraseAccounts s)

/-- Whether the loop takes a line for a posting: its first character is white
space (and so not a digit) and not a line feed. -/
def isPostingLine (line : List Char) : Bool :=
  match cstr line with
  | [] => false
  | c :: _ => c != NL && isspace c

/-- The account path that a posting line names: the text that `next_element`
leaves at `p`. -/
def accountOf (line : List Char) : List Char :=
  (next_element ((cstr line).dropWhile isspace) true).1

/-- The registry `b` is the registry `a` followed by accounts that have no
balance. -/
def Grown {A B : Type} (L : Lib A B) (a b : List (List Char × B)) : Prop :=
  ∃ new, b = a ++ new ∧ ∀ x ∈ new, x.2 = L.noBalance

/-- The line numbers printed in the messages, in the order written. -/
def diagLines {A : Type} : List (Diag A) → List Int
  | [] => []
  | .failedToBalance n _ _ :: ds => n :: diagLines ds
  | .failedToParse n _ :: ds => n :: diagLines ds

/-- The state at the head of the loop after the first three lines of
`journalMixed`, in a run with the host year 2024. -/
def mixedAfterThree : State Amount (List Amount) :=
  (steps sampleLib true ((splitLines journalMixed).take 3)
    { startState with curr := none, current_year := 2024 }).getD startState

/-- The state at the head of the loop after the header `2024/01/01 Lunch`: one
open entry without postings. -/
def afterHeader : State Amount (List Amount) :=
  (steps sampleLib true ["2024/01/01 Lunch".toList] startState).getD startState

/-- The accounts, costs and notes of the postings of all entries. -/
def postingsOf {A B : Type} (s : State A B) : List (List Char × A × List Char) :=
  (postedAll s.heap).map (fun x => (x.acct, x.cost, x.note))

/-- Modelled from the spec: the amount parser is declared in `ledger.h`; it
fails on malformed numeric or commodity text, and the spec shows `$10` and
`-10` as texts it takes. Here a text is accepted when a whole number, with an
optional sign, at least one digit and nothing after the digits, follows the
commodity symbol. -/
def Amount.accepted (t : List Char) : Bool :=
  let num := t.dropWhile (fun c => !(isdigit c || c.toNat == 45))
  let ds := if num.head? == some (Char.ofNat 45) then num.tail else num
  !ds.isEmpty && ds.all isdigit

/-- The loop
`for (t = cost_str + (strlen(cost_str) - 1); isspace(*t); t--) *t = '\0';`
on the text `text` at `cost_str`, when `t` points to the character number `k`
of the text, counted from 1. A white space character is overwritten with NUL
and `t` moves down; at any other character the loop ends, and the string left
at `cost_str` is the text up to that character. With `k` at 0 the pointer `t`
has moved in front of the text (`none`). -/
def trimFrom (text : List Char) : Nat → Option (List Char)
  | 0 => none
  | k + 1 =>
    match text[k]? with
    | some ch => if isspace ch then trimFrom text k else some (text.take (k + 1))
    | none => none

/-- The trimming loop from its start, at the last character of the text. -/
def trimLoop (text : List Char) : Option (List Char) :=
  trimFrom text text.length

/-- What the loop `if (*p == '\t') *p = ' ';` does to one character. -/
def tabToSpace (c : Char) : Char :=
  if c = TAB then SP else c

/-- Whether a pattern cannot tell a tab from a space: each of its character
classes holds both or neither. -/
def Re.tabBlind : Re → Bool
  | .cls p => p TAB == p SP
  | .seq a b => a.tabBlind && b.tabBlind
  | .opt a => a.tabBlind
  | .plus p => p TAB == p SP
  | .grp _ a => a.tabBlind

/-- An entry with the tabs of its code and of its description turned into
spaces. -/
def untabEntry {A : Type} (e : Entry A) : Entry A :=
  { e with code := tabsToSpaces e.code, desc := tabsToSpaces e.desc }

/-- A state with the tabs in the codes and descriptions of its entries and in
`buf` turned into spaces. -/
def untabState {A B : Type} (s : State A B) : State A B :=
  { s with heap := s.heap.map untabEntry, buf := tabsToSpaces s.buf }

/-- The result of an iteration, with the state seen through `untabState`. -/
def Step.untab {A B : Type} : Step A B → Step A B
  | .ok s => .ok (untabState s)
  | .stuck f s => .stuck f (untabState s)

/-- The result of `fill_entry`, with the tabs of the code, of the description
and of `buf` turned into spaces. -/
def Filled.untab {A : Type} : Filled A → Filled A
  | .done e buf => .done (untabEntry e) (tabsToSpaces buf)
  | .fault f e buf => .fault f (untabEntry e) (tabsToSpaces buf)

/-- The classes of line that the loop tells apart by the first character. -/
inductive LineClass where
  | blank
  | header
  | posting
  | directive
  | other
  deriving DecidableEq, Repr

/-- The chain of tests on `line[0]` in the loop. -/
def classify (line : List Char) : LineClass :=
  match line with
  | [] => .blank
  | c :: _ =>
    if c = NL then .blank
    else if isdigit c then .header
    else if isspace c then .posting
    else if c.toNat = 89 then .directive
    else .other

/-- A posting line with tabs: a tab, the account `A`, two tabs, the cost
`$10`. -/
def postingWithTabs : List Char :=
  TAB :: Char.ofNat 65 :: TAB :: TAB :: [Char.ofNat 36, Char.ofNat 49, Char.ofNat 48]

/-- A header line whose description holds a tab: `1/1 a`, a tab, `b`. -/
def headerWithTab : List Char :=
  "1/1 a".toList ++ TAB :: "b".toList

set_option maxRecDepth 100000

theorem plusFrom_post {R : Type} (p : Char → Bool) (k : List Char → Nat → Option R)
    (Q : List Char → Nat → Prop) (P : R → Prop)
    (hstep : ∀ c cs i, Q (c :: cs) i → Q cs (i + 1))
    (hk : ∀ s i r, Q s i → k s i = some r → P r) :
    ∀ s i r, Q s i → plusFrom p k s i = some r → P r := by
  intro s
  induction s with
  | nil => intro i r _ h; simp [plusFrom] at h
  | cons c cs ih =>
    intro i r hQ h
    simp only [plusFrom] at h
    split at h
    · split at h
      · rename_i r' hr'
        cases h
        exact ih (i + 1) r (hstep c cs i hQ) hr'
      · exact hk cs (i + 1) r (hstep c cs i hQ) h
    · cases h

theorem exec_post (Q : List Int → List Char → Nat → Prop) (P : List Int → Prop)
    (hstep : ∀ ov c cs i, Q ov (c :: cs) i → Q ov cs (i + 1))
    (hset : ∀ ov s i n v, Q ov s i → Q (ov.set n v) s i) :
    ∀ (re : Re) (ov : List Int) (s : List Char) (i : Nat)
      (k : List Int → List Char → Nat → Option (List Int)),
      Q ov s i → (∀ ov1 s1 i1 r, Q ov1 s1 i1 → k ov1 s1 i1 = some r → P r) →
      ∀ r, re.exec ov s i k = some r → P r := by
  intro re
  induction re with
  | cls p =>
    intro ov s i k hQ hk r h
    cases s with
    | nil => simp [Re.exec] at h
    | cons c cs =>
      simp only [Re.exec] at h
      split at h
      · exact hk ov cs (i + 1) r (hstep ov c cs i hQ) h
      · cases h
  | seq a b iha ihb =>
    intro ov s i k hQ hk r h
    simp only [Re.exec] at h
    exact iha ov s i _ hQ (fun ov1 s1 i1 r1 hQ1 h1 => ihb ov1 s1 i1 k hQ1 hk r1 h1) r h
  | opt a iha =>
    intro ov s i k hQ hk r h
    simp only [Re.exec] at h
    split at h
    · rename_i r' hr'
      cases h
      exact iha ov s i k hQ hk r hr'
    · exact hk ov s i r hQ h
  | plus p =>
    intro ov s i k hQ hk r h
    simp only [Re.exec] at h
    exact plusFrom_post p (k ov) (Q ov) P (hstep ov) (fun s1 i1 r1 h1 h2 => hk ov s1 i1 r1 h1 h2)
      s i r hQ h
  | grp n a iha =>
    intro ov s i k hQ hk r h
    simp only [Re.exec] at h
    exact iha ov s i _ hQ
      (fun ov1 s1 i1 r1 hQ1 h1 => hk _ s1 i1 r1 (hset _ _ _ _ _ (hset _ _ _ _ _ hQ1)) h1) r h

theorem foldl_rc_pos (ov : List Int) (l : List Nat) (m : Nat) (hm : 1 ≤ m) :
    1 ≤ l.foldl (fun m n => if 0 ≤ ov.getD (2 * n) (-1) then n + 1 else m) m := by
  induction l generalizing m with
  | nil => simpa using hm
  | cons n ns ih =>
    simp only [List.foldl]
    apply ih
    split <;> omega

/-- The return value of `pcre_exec` is never `0`, the value that the test
`! matched` looks for. -/
theorem pcre_exec_ne_zero (line : List Char) : (pcre_exec line).1 ≠ 0 := by
  unfold pcre_exec
  split
  · rename_i ov h
    have hov : ov.getD 0 (-1) = 0 := by
      refine exec_post (fun ov _ _ => ov.length = 18) (fun r => r.getD 0 (-1) = 0)
        (fun _ _ _ _ h => h) (fun _ _ _ _ _ h => by simpa using h)
        regexp ovectorUnset line 0 _ (by simp [ovectorUnset]) ?_ ov h
      intro ov1 s1 i1 r hlen hr
      simp only [Option.some.injEq] at hr
      subst hr
      match ov1, hlen with
      | a :: b :: _, _ => simp [List.set]
    have : 1 ≤ (List.range 9).foldl (fun m n => if 0 ≤ ov.getD (2 * n) (-1) then n + 1 else m) 0 := by
      have h9 : List.range 9 = 0 :: [1, 2, 3, 4, 5, 6, 7, 8] := by decide
      rw [h9, List.foldl]
      apply foldl_rc_pos
      rw [show 2 * 0 = 0 from rfl, hov]
      decide
    simp only [ne_eq]
    omega
  · simp

section effects
variable {A B : Type}

theorem set_append_last {α : Type} (h : List α) (a e : α) :
    (h ++ [a]).set h.length e = h ++ [e] := by
  induction h with
  | nil => rfl
  | cons x xs ih => simp [List.set, ih]

theorem diagPtrs_append (d1 d2 : List (Diag A)) :
    diagPtrs (d1 ++ d2) = diagPtrs d1 ++ diagPtrs d2 := by
  induction d1 with
  | nil => rfl
  | cons d ds ih => cases d <;> simp [diagPtrs, ih]

/-- The effect of `finalize_entry` on a valid pointer. -/
theorem finalize_entry_some (L : Lib A B) (s : State A B) (q : Nat) (e0 : Entry A)
    (hg : s.heap[q]? = some e0) :
    (finalize_entry L s (some q)).heap = s.heap ∧
    (finalize_entry L s (some q)).curr = s.curr ∧
    (finalize_entry L s (some q)).accounts = s.accounts ∧
    (finalize_entry L s (some q)).current_year = s.current_year ∧
    (finalize_entry L s (some q)).buf = s.buf ∧
    (finalize_entry L s (some q)).entries = s.entries ++ (if L.validate e0 then [q] else []) ∧
    diagPtrs (finalize_entry L s (some q)).cerr =
      diagPtrs s.cerr ++ (if L.validate e0 then [] else [q]) := by
  simp only [finalize_entry, hg]
  cases hv : L.validate e0 <;> simp [diagPtrs_append, diagPtrs]

theorem header_effect (L : Lib A B) (s : State A B) (line : List Char)
    (hcur : ∀ q, s.curr = some q → q < s.heap.length) :
    Effect L s (header L s line).state := by
  unfold header
  simp only [pcre_exec_ne_zero, if_false]
  cases hq : s.curr with
  | none =>
    simp only []
    cases (pcre_exec line).2 with
    | none => exact .openFirst Entry.fresh hq rfl rfl rfl rfl
    | some ov =>
      simp only []
      cases fill_entry line ov (pcre_exec line).1 s.current_year (Entry.fresh : Entry A) s.buf with
      | done e buf => exact .openFirst e hq (set_append_last _ _ _) rfl rfl rfl
      | fault f e buf => exact .openFirst e hq (set_append_last _ _ _) rfl rfl rfl
  | some q =>
    have hlt := hcur q hq
    obtain ⟨e0, hg⟩ : ∃ e0, s.heap[q]? = some e0 := ⟨s.heap[q], by simp [hlt]⟩
    obtain ⟨h1, _, _, h4, h5, h6, h7⟩ := finalize_entry_some L s q e0 hg
    simp only []
    cases (pcre_exec line).2 with
    | none =>
      refine .openNext q e0 Entry.fresh hq hg ?_ ?_ h6 h7
      · simp [Step.state, h1]
      · simp [Step.state, h1]
    | some ov =>
      simp only []
      cases fill_entry line ov (pcre_exec line).1 (finalize_entry L s (some q)).current_year
          (Entry.fresh : Entry A) (finalize_entry L s (some q)).buf with
      | done e buf =>
        refine .openNext q e0 e hq hg ?_ ?_ h6 h7
        · simp [Step.state, set_append_last, h1]
        · simp [Step.state, h1]
      | fault f e buf =>
        refine .openNext q e0 e hq hg ?_ ?_ h6 h7
        · simp [Step.state, set_append_last, h1]
        · simp [Step.state, h1]

theorem record_effect (L : Lib A B) (cb : Bool) (s : State A B) (x : Transaction A) :
    Effect L s (record L cb s x).state := by
  unfold record
  cases hq : s.curr with
  | none => exact .same rfl rfl hq.symm rfl
  | some q =>
    simp only []
    cases hg : s.heap[q]? with
    | none => exact .same rfl rfl hq.symm rfl
    | some e => exact .post q e x hq hg rfl rfl hq.symm rfl

theorem posting_effect (L : Lib A B) (cb : Bool) (s : State A B) (line : List Char) :
    Effect L s (posting L cb s line).state := by
  unfold posting
  simp only []
  split
  · cases hq : s.curr with
    | none => exact .same rfl rfl rfl rfl
    | some q =>
      simp only []
      cases hg : s.heap[q]? with
      | none => exact .same rfl rfl rfl rfl
      | some e =>
        simp only []
        cases e.xacts.head? with
        | none => exact .same rfl rfl rfl rfl
        | some x0 => exact record_effect L cb s _
  · exact record_effect L cb s _

theorem year_directive_effect (L : Lib A B) (s : State A B) (line : List Char) :
    Effect L s (year_directive s line).state := by
  unfold year_directive
  split
  · exact .same rfl rfl rfl rfl
  · split
    · exact .same rfl rfl rfl rfl
    · exact .same rfl rfl rfl rfl

theorem step_effect (L : Lib A B) (cb : Bool) (s : State A B) (line : List Char)
    (hcur : ∀ q, s.curr = some q → q < s.heap.length) :
    Effect L s (step L cb s line).state := by
  cases line with
  | nil => exact .same rfl rfl rfl rfl
  | cons c cs =>
    simp only [step]
    split
    · exact .same rfl rfl rfl rfl
    · split
      · exact header_effect L s _ hcur
      · split
        · exact posting_effect L cb s _
        · split
          · exact year_directive_effect L s _
          · exact .same rfl rfl rfl rfl

end effects

section invariant
variable {A B : Type}

theorem valid_congr (L : Lib A B) (h1 h2 : List (Entry A)) (p : Nat)
    (h : h2[p]? = h1[p]?) : valid L h2 p = valid L h1 p := by
  simp [valid, h]

theorem take_set_of_le {α : Type} (l : List α) (n q : Nat) (a : α) (h : n ≤ q) :
    (l.set q a).take n = l.take n := by
  apply List.ext_getElem?
  intro i
  by_cases hi : i < n
  · rw [List.getElem?_take_of_lt hi, List.getElem?_take_of_lt hi,
      List.getElem?_set_ne (by omega)]
  · rw [List.getElem?_take_eq_none (by omega), List.getElem?_take_eq_none (by omega)]

theorem inv_effect (L : Lib A B) (g s t : State A B) (hI : Inv L g s) (hE : Effect L s t) :
    Inv L g t ∧ (∀ p, p < closedBelow s → t.heap[p]? = s.heap[p]?) ∧
      closedBelow s ≤ closedBelow t := by
  cases hE with
  | same hh he hc hd =>
    refine ⟨?_, fun p _ => by rw [hh], by simp [closedBelow, hh, hc]⟩
    rcases hI with ⟨h1, h2, h3, h4⟩ | ⟨k, h1, h2, h3, h4, h5⟩
    · exact Or.inl ⟨by rw [hc, h1], by rw [hh, h2], by rw [he, h3], by rw [hd, h4]⟩
    · exact Or.inr ⟨k, by rw [hc, h1], by rw [hh, h2], by rw [hh, h3], by rw [he, hh, h4],
        by rw [hd, hh, h5]⟩
  | post q e x hq hg hh he hc hd =>
    rcases hI with ⟨h1, _⟩ | ⟨k, h1, h2, h3, h4, h5⟩
    · rw [h1] at hq; cases hq
    · rw [hq] at h1
      have hqk : q = g.heap.length + k := by simpa using h1
      have hfr : ∀ p, p < q → t.heap[p]? = s.heap[p]? := by
        intro p hp
        rw [hh, List.getElem?_set_ne (by omega)]
      have hval : ∀ p ∈ List.range' g.heap.length k, valid L t.heap p = valid L s.heap p := by
        intro p hp
        have := List.mem_range'_1.mp hp
        exact valid_congr L _ _ p (hfr p (by omega))
      refine ⟨Or.inr ⟨k, by rw [hc, hq, hqk], by rw [hh]; simpa using h2, ?_, ?_, ?_⟩, ?_, ?_⟩
      · rw [hh, take_set_of_le _ _ _ _ (by omega), h3]
      · rw [he, h4]
        congr 1
        exact (List.filter_congr hval).symm
      · rw [hd, h5]
        congr 1
        exact (List.filter_congr (fun p hp => by rw [hval p hp])).symm
      · intro p hp
        simp only [closedBelow, hq, Option.getD_some] at hp
        exact hfr p hp
      · simp [closedBelow, hc, hq]
  | openFirst e hq hh hc he hd =>
    rcases hI with ⟨h1, h2, h3, h4⟩ | ⟨k, h1, _⟩
    · refine ⟨Or.inr ⟨0, by rw [hc, h2]; rfl, by rw [hh, h2]; simp, ?_, ?_, ?_⟩, ?_, ?_⟩
      · rw [hh, h2]; simp
      · rw [he, h3]; simp
      · rw [hd, h4]; simp
      · intro p hp
        simp only [closedBelow, hq, Option.getD_none] at hp
        rw [hh, List.getElem?_append_left hp]
      · simp [closedBelow, hq, hc]
    · rw [h1] at hq; cases hq
  | openNext q e0 e hq hg hh hc he hd =>
    rcases hI with ⟨h1, _⟩ | ⟨k, h1, h2, h3, h4, h5⟩
    · rw [h1] at hq; cases hq
    · rw [hq] at h1
      have hqk : q = g.heap.length + k := by simpa using h1
      have hfr : ∀ p, p < s.heap.length → t.heap[p]? = s.heap[p]? := by
        intro p hp
        rw [hh, List.getElem?_append_left hp]
      have hval : ∀ p ∈ List.range' g.heap.length k, valid L t.heap p = valid L s.heap p := by
        intro p hp
        have := List.mem_range'_1.mp hp
        exact valid_congr L _ _ p (hfr p (by omega))
      have hvq : valid L t.heap (g.heap.length + k) = L.validate e0 := by
        rw [valid_congr L _ _ _ (hfr _ (by omega)), ← hqk]
        simp [valid, hg]
      refine ⟨Or.inr ⟨k + 1, by rw [hc, h2, Nat.add_assoc],
        by rw [hh, List.length_append, h2]; rfl, ?_, ?_, ?_⟩, ?_, ?_⟩
      · rw [hh, List.take_append_of_le_length (by omega), h3]
      · rw [he, h4, List.range'_concat, List.filter_append, List.append_assoc]
        congr 2
        · exact (List.filter_congr hval).symm
        · simp only [Nat.one_mul, List.filter_cons, List.filter_nil, hvq, hqk]
      · rw [hd, h5, List.range'_concat, List.filter_append, List.append_assoc]
        congr 2
        · exact (List.filter_congr (fun p hp => by rw [hval p hp])).symm
        · simp only [Nat.one_mul, List.filter_cons, List.filter_nil, hvq, hqk]
          cases L.validate e0 <;> simp
      · intro p hp
        simp only [closedBelow, hq, Option.getD_some] at hp
        exact hfr p (by omega)
      · simp only [closedBelow, hq, hc, Option.getD_some]
        omega

theorem inv_curr_lt (L : Lib A B) (g s : State A B) (hI : Inv L g s) :
    ∀ q, s.curr = some q → q < s.heap.length := by
  intro q hq
  rcases hI with ⟨h1, _⟩ | ⟨k, h1, h2, _⟩
  · rw [h1] at hq; cases hq
  · rw [h1] at hq
    simp only [Option.some.injEq] at hq
    omega

end invariant

section run
variable {A B : Type}

theorem inv_start (L : Lib A B) (g : State A B) (y : Int) :
    Inv L g { g with curr := none, current_year := y } :=
  Or.inl ⟨rfl, rfl, rfl, rfl⟩

/-- The statements after the loop turn the invariant into `Finished`. -/
theorem inv_finish (L : Lib A B) (g s : State A B) (hI : Inv L g s) :
    Finished L g (match s.curr with
      | some p => finalize_entry L s (some p)
      | none => s) ∧
    (match s.curr with
      | some p => finalize_entry L s (some p)
      | none => s).heap = s.heap := by
  rcases hI with ⟨h1, h2, h3, h4⟩ | ⟨k, h1, h2, h3, h4, h5⟩
  · rw [h1]
    refine ⟨⟨by rw [h2]; simp, by rw [h3, h2]; simp, by rw [h4, h2]; simp⟩, rfl⟩
  · rw [h1]
    simp only []
    obtain ⟨e0, hg⟩ : ∃ e0, s.heap[g.heap.length + k]? = some e0 :=
      ⟨s.heap[g.heap.length + k], by simp [h2]⟩
    obtain ⟨f1, _, _, _, _, f6, f7⟩ := finalize_entry_some L s _ e0 hg
    have hlen : s.heap.length - g.heap.length = k + 1 := by omega
    have hvq : valid L s.heap (g.heap.length + k) = L.validate e0 := by simp [valid, hg]
    refine ⟨⟨by rw [f1, h3], ?_, ?_⟩, f1⟩
    · rw [f6, f1, h4, hlen, List.range'_concat, List.filter_append, List.append_assoc]
      congr 2
      simp only [Nat.one_mul, List.filter_cons, List.filter_nil, hvq]
    · rw [f7, f1, h5, hlen, List.range'_concat, List.filter_append, List.append_assoc]
      congr 2
      simp only [Nat.one_mul, List.filter_cons, List.filter_nil, hvq]
      cases L.validate e0 <;> simp

theorem step_inv (L : Lib A B) (cb : Bool) (g s : State A B) (line : List Char)
    (hI : Inv L g s) :
    Inv L g (step L cb s line).state ∧
      (∀ p, p < closedBelow s → (step L cb s line).state.heap[p]? = s.heap[p]?) ∧
      closedBelow s ≤ closedBelow (step L cb s line).state :=
  inv_effect L g _ _ hI (step_effect L cb s line (inv_curr_lt L g _ hI))

/-- What holds of the state of every outcome: the invariant or, once the run
has returned, `Finished`; and the entries closed at the start are as they
were. -/
theorem loop_outcome (L : Lib A B) (cb : Bool) (g : State A B) :
    ∀ (lines : List (List Char)) (s : State A B), Inv L g s →
      (Inv L g (loop L cb lines s).state ∨ Finished L g (loop L cb lines s).state) ∧
      (∀ t, loop L cb lines s = .returned t → Finished L g t) ∧
      (∀ p, p < closedBelow s → (loop L cb lines s).state.heap[p]? = s.heap[p]?) := by
  intro lines
  induction lines with
  | nil =>
    intro s hI
    have h := inv_finish L g s hI
    refine ⟨Or.inr h.1, ?_, ?_⟩
    · intro t ht
      simp only [loop, Outcome.returned.injEq] at ht
      rw [← ht]
      exact h.1
    · intro p _
      simp only [loop, Outcome.state]
      rw [h.2]
  | cons l ls ih =>
    intro s hI
    have key : ∀ line, Inv L g (step L cb (readLine s l) line).state ∧
        (∀ p, p < closedBelow s →
          (step L cb (readLine s l) line).state.heap[p]? = s.heap[p]?) ∧
        closedBelow s ≤ closedBelow (step L cb (readLine s l) line).state :=
      fun line => step_inv L cb g (readLine s l) line hI
    simp only [loop]
    split
    · have hk := key (cstr l)
      cases hs : step L cb (readLine s l) (cstr l) with
      | ok s2 =>
        rw [hs] at hk
        simp only [Step.state] at hk
        obtain ⟨i1, i2, i3⟩ := ih s2 hk.1
        refine ⟨i1, i2, ?_⟩
        intro p hp
        simp only []
        rw [i3 p (by omega), hk.2.1 p hp]
      | stuck f s2 =>
        rw [hs] at hk
        simp only [Step.state] at hk
        exact ⟨Or.inl hk.1, fun t ht => Outcome.noConfusion ht, fun p hp => hk.2.1 p hp⟩
    · have hk := key (cstr (l.take 1022))
      cases hs : step L cb (readLine s l) (cstr (l.take 1022)) with
      | ok s2 =>
        rw [hs] at hk
        simp only [Step.state] at hk
        exact ⟨Or.inl hk.1, fun t ht => Outcome.noConfusion ht, fun p hp => hk.2.1 p hp⟩
      | stuck f s2 =>
        rw [hs] at hk
        simp only [Step.state] at hk
        exact ⟨Or.inl hk.1, fun t ht => Outcome.noConfusion ht, fun p hp => hk.2.1 p hp⟩

theorem steps_loop (L : Lib A B) (cb : Bool) (suf : List (List Char)) :
    ∀ (pre : List (List Char)) (s s1 : State A B), steps L cb pre s = some s1 →
      loop L cb (pre ++ suf) s = loop L cb suf s1 := by
  intro pre
  induction pre with
  | nil => intro s s1 h; simp only [steps, Option.some.injEq] at h; rw [h]; rfl
  | cons l ls ih =>
    intro s s1 h
    simp only [steps] at h
    simp only [List.cons_append, loop]
    split at h
    · rename_i hl
      rw [if_pos hl]
      cases hs : step L cb (readLine s l) (cstr l) with
      | ok s2 => rw [hs] at h; exact ih s2 s1 h
      | stuck f s2 => rw [hs] at h; cases h
    · cases h

theorem steps_inv (L : Lib A B) (cb : Bool) (g : State A B) :
    ∀ (pre : List (List Char)) (s s1 : State A B), Inv L g s → steps L cb pre s = some s1 →
      Inv L g s1 := by
  intro pre
  induction pre with
  | nil => intro s s1 hI h; simp only [steps, Option.some.injEq] at h; rw [← h]; exact hI
  | cons l ls ih =>
    intro s s1 hI h
    simp only [steps] at h
    split at h
    · have hk := step_inv L cb g (readLine s l) (cstr l) hI
      cases hs : step L cb (readLine s l) (cstr l) with
      | ok s2 =>
        rw [hs] at h hk
        exact ih s2 s1 hk.1 h
      | stuck f s2 => rw [hs] at h; cases h
    · cases h

end run

section c1
variable {A B : Type}

theorem valid_lt (L : Lib A B) (h : List (Entry A)) (p : Nat) (hv : valid L h p = true) :
    p < h.length := by
  unfold valid at hv
  split at hv
  · rename_i e he
    exact (List.getElem?_eq_some.mp he).1
  · cases hv

theorem getElem?_of_take {α : Type} (t g : List α) (h : t.take g.length = g) (p : Nat)
    (hp : p < g.length) : t[p]? = g[p]? := by
  rw [← List.getElem?_take_of_lt hp, h]

theorem committed_of_shape (L : Lib A B) (g t : State A B) (R : List Nat)
    (hpre : Committed L g) (h1 : t.heap.take g.heap.length = g.heap)
    (h2 : t.entries = g.entries ++ R.filter (valid L t.heap)) : Committed L t := by
  intro p hp
  rw [h2, List.mem_append] at hp
  rcases hp with hp | hp
  · have hv := hpre p hp
    rw [valid_congr L g.heap t.heap p (getElem?_of_take _ _ h1 p (valid_lt L _ _ hv))]
    exact hv
  · exact (List.mem_filter.mp hp).2

theorem committed_of_inv (L : Lib A B) (g t : State A B) (hpre : Committed L g)
    (hI : Inv L g t) : Committed L t := by
  rcases hI with ⟨_, h2, h3, _⟩ | ⟨k, _, _, h3, h4, _⟩
  · exact committed_of_shape L g t [] hpre (by rw [h2]; simp) (by rw [h3]; simp)
  · exact committed_of_shape L g t _ hpre h3 h4

theorem inv_entries_closed (L : Lib A B) (g s : State A B) (hpre : Committed L g)
    (hI : Inv L g s) : ∀ p ∈ s.entries, p < closedBelow s := by
  intro p hp
  rcases hI with ⟨h1, h2, h3, _⟩ | ⟨k, h1, _, _, h4, _⟩
  · rw [h3] at hp
    simp only [closedBelow, h1, Option.getD_none, h2]
    exact valid_lt L _ _ (hpre p hp)
  · rw [h4, List.mem_append] at hp
    simp only [closedBelow, h1, Option.getD_some]
    rcases hp with hp | hp
    · have := valid_lt L _ _ (hpre p hp)
      omega
    · have := List.mem_range'_1.mp (List.mem_filter.mp hp).1
      omega

/-- C1. Balance invariant of the store. If every pointer in
`main_ledger.entries` points to an entry that passes `validate()` when
`parse_ledger` is called, the same holds in the state in which the run ends
(whether it returns, gets stuck or spins), for every input and either value of
`compute_balances`. Moreover, at every point of the run (after any number of
lines read), the entries then in `main_ledger.entries` pass `validate()` and
are, at the end of the run, exactly as they are at that point: an entry is no
longer modified once it has been appended. -/
theorem balance_invariant (L : Lib A B) (host_year : Int) (g : State A B)
    (input : List Char) (compute_balances : Bool) (hpre : Committed L g) :
    Committed L (parse_ledger L host_year g input compute_balances).state ∧
    ∀ (pre suf : List (List Char)) (s1 : State A B),
      splitLines input = pre ++ suf →
      steps L compute_balances pre { g with curr := none, current_year := host_year } = some s1 →
      ∀ p ∈ s1.entries, valid L s1.heap p = true ∧
        (parse_ledger L host_year g input compute_balances).state.heap[p]? = s1.heap[p]? := by
  have h0 := inv_start L g host_year
  constructor
  · rcases (loop_outcome L compute_balances g (splitLines input) _ h0).1 with h | h
    · exact committed_of_inv L g _ hpre h
    · exact committed_of_shape L g _ _ hpre h.1 h.2.1
  · intro pre suf s1 hsplit hsteps p hp
    have hI1 := steps_inv L compute_balances g pre _ s1 h0 hsteps
    refine ⟨committed_of_inv L g s1 hpre hI1 p hp, ?_⟩
    unfold parse_ledger
    rw [hsplit, steps_loop L compute_balances suf pre _ s1 hsteps]
    exact (loop_outcome L compute_balances g suf s1 hI1).2.2 p
      (inv_entries_closed L g s1 hpre hI1 p hp)

theorem priorState_committed : Committed sampleLib priorState := by
  intro p hp
  have : p = 0 := by simpa [priorState] using hp
  subst this
  decide

/-- Witness of C1: the run on `journalMixed` from `priorState`. The entry
committed before passes `validate()`, and so do the two entries in the store
after the run. -/
theorem balance_invariant_witness :
    Committed sampleLib priorState ∧
    Committed sampleLib (parse_ledger sampleLib 2024 priorState journalMixed true).state ∧
    (parse_ledger sampleLib 2024 priorState journalMixed true).state.entries = [0, 2] :=
  ⟨priorState_committed,
    (balance_invariant sampleLib 2024 priorState journalMixed true priorState_committed).1,
    by decide⟩

end c1

section c2
variable {A B : Type}

theorem count_filter_split (P : Nat → Bool) (p : Nat) (R : List Nat) :
    (R.filter P).count p + (R.filter (fun q => !P q)).count p = R.count p := by
  induction R with
  | nil => rfl
  | cons r rs ih =>
    cases hP : P r <;> simp [List.filter_cons, hP, List.count_cons] <;> omega

theorem length_filter_split (P : Nat → Bool) (R : List Nat) :
    (R.filter P).length + (R.filter (fun q => !P q)).length = R.length := by
  induction R with
  | nil => rfl
  | cons r rs ih =>
    cases hP : P r <;> simp [List.filter_cons, hP] <;> omega

theorem partitioned_of_finished (L : Lib A B) (g t : State A B) (h : Finished L g t) :
    Partitioned g t := by
  obtain ⟨_, h2, h3⟩ := h
  have ha : appended g t = (opened g t).filter (valid L t.heap) := by
    unfold appended opened
    rw [h2, List.drop_left]
  have hr : reported g t = (opened g t).filter (fun p => !valid L t.heap p) := by
    unfold reported opened
    rw [h3, List.drop_left]
  constructor
  · intro p hp
    rw [ha, hr, count_filter_split]
    exact List.count_eq_one_of_mem (List.nodup_range' _ _) hp
  · rw [ha, hr, length_filter_split]

/-- C2, as amended. Commit/discard partition: for every input on which
`parse_ledger` returns, every entry that the run opened was finalized exactly
once, either appended to `main_ledger.entries` or reported as unbalanced, never
both and never neither; so the number of entries opened is the number appended
plus the number of "failed to balance" messages. -/
theorem commit_discard_partition (L : Lib A B) (host_year : Int) (g t : State A B)
    (input : List Char) (compute_balances : Bool)
    (hret : parse_ledger L host_year g input compute_balances = .returned t) :
    Partitioned g t :=
  partitioned_of_finished L g t
    ((loop_outcome L compute_balances g (splitLines input) _ (inv_start L g host_year)).2.1 t hret)

/-- Witness of C2: the run on `journalMixed` returns; of the two entries it
opened, at addresses 1 and 2, the first was reported and the second
appended. -/
theorem commit_discard_partition_witness :
    parse_ledger sampleLib 2024 priorState journalMixed true =
      .returned (parse_ledger sampleLib 2024 priorState journalMixed true).state ∧
    Partitioned priorState (parse_ledger sampleLib 2024 priorState journalMixed true).state ∧
    appended priorState (parse_ledger sampleLib 2024 priorState journalMixed true).state = [2] ∧
    reported priorState (parse_ledger sampleLib 2024 priorState journalMixed true).state = [1] :=
  ⟨by decide,
    commit_discard_partition sampleLib 2024 priorState _ journalMixed true (by decide),
    by decide, by decide⟩

/-- Counterexample to C2 as stated. On a header whose description has 255
characters the entry is opened, `assert(result >= 0)` then stops the run, and
the entry is neither appended nor reported. -/
theorem commit_discard_partition_counterexample :
    (∃ s, parse_ledger sampleLib 2024 startState journalLongDesc true = .stuck .assertion s) ∧
    opened startState (parse_ledger sampleLib 2024 startState journalLongDesc true).state = [0] ∧
    ¬ Partitioned startState (parse_ledger sampleLib 2024 startState journalLongDesc true).state :=
  ⟨⟨(parse_ledger sampleLib 2024 startState journalLongDesc true).state, by decide⟩,
    by decide, fun h => absurd h.2 (by decide)⟩

end c2

section c9
variable {A B : Type}

theorem header_heap_length (L : Lib A B) (s : State A B) (line : List Char) :
    (header L s line).state.heap.length = s.heap.length + 1 := by
  have hfin : ∀ q, (finalize_entry L s q).heap = s.heap := by
    intro q
    unfold finalize_entry
    split
    · rfl
    · split
      · rfl
      · split <;> rfl
  unfold header
  simp only [pcre_exec_ne_zero, if_false]
  have hs1 : (match s.curr with
      | some p => finalize_entry L s (some p)
      | none => s).heap = s.heap := by
    cases s.curr with
    | none => rfl
    | some q => exact hfin (some q)
  generalize (match s.curr with
      | some p => finalize_entry L s (some p)
      | none => s) = s1 at hs1 ⊢
  cases (pcre_exec line).2 with
  | none => simp [Step.state, hs1]
  | some ov =>
    simp only []
    cases fill_entry line ov (pcre_exec line).1 s1.current_year (Entry.fresh : Entry A) s1.buf with
    | done e buf => simp [Step.state, hs1]
    | fault f e buf => simp [Step.state, hs1]

theorem record_heap_length (L : Lib A B) (cb : Bool) (s : State A B) (x : Transaction A) :
    (record L cb s x).state.heap.length = s.heap.length := by
  unfold record
  cases s.curr with
  | none => rfl
  | some q =>
    simp only []
    cases s.heap[q]? with
    | none => rfl
    | some e => simp [Step.state]

theorem posting_heap_length (L : Lib A B) (cb : Bool) (s : State A B) (line : List Char) :
    (posting L cb s line).state.heap.length = s.heap.length := by
  unfold posting
  simp only []
  split
  · cases s.curr with
    | none => rfl
    | some q =>
      simp only []
      cases s.heap[q]? with
      | none => rfl
      | some e =>
        simp only []
        cases e.xacts.head? with
        | none => rfl
        | some x0 => exact record_heap_length L cb s _
  · exact record_heap_length L cb s _

theorem year_directive_heap (s : State A B) (line : List Char) :
    (year_directive s line).state.heap = s.heap := by
  unfold year_directive
  split
  · rfl
  · split <;> rfl

theorem isdigit_not_NL (c : Char) (h : c = NL) : isdigit c = false := by
  subst h; decide

/-- An iteration allocates an entry exactly when the line starts with a
digit. -/
theorem step_heap_length (L : Lib A B) (cb : Bool) (s : State A B) (line : List Char) :
    (step L cb s line).state.heap.length =
      s.heap.length + (match line with
        | [] => 0
        | c :: _ => if isdigit c then 1 else 0) := by
  cases line with
  | nil => rfl
  | cons c cs =>
    simp only [step]
    by_cases hnl : c = NL
    · simp [hnl, isdigit_not_NL, Step.state]
    · rw [if_neg hnl]
      by_cases hd : isdigit c = true
      · rw [if_pos hd, if_pos hd]
        exact header_heap_length L s _
      · rw [if_neg hd, if_neg hd]
        split
        · exact posting_heap_length L cb s _
        · split
          · rw [year_directive_heap]; rfl
          · rfl

theorem steps_heap_length (L : Lib A B) (cb : Bool) :
    ∀ (pre : List (List Char)) (s s1 : State A B), steps L cb pre s = some s1 →
      s1.heap.length = s.heap.length + (pre.filter isHeaderLine).length := by
  intro pre
  induction pre with
  | nil =>
    intro s s1 h
    simp only [steps, Option.some.injEq] at h
    rw [← h]; rfl
  | cons l ls ih =>
    intro s s1 h
    simp only [steps] at h
    split at h
    · have hl := step_heap_length L cb (readLine s l) (cstr l)
      cases hs : step L cb (readLine s l) (cstr l) with
      | ok s2 =>
        rw [hs] at h hl
        simp only [Step.state] at hl
        have hm : (match cstr l with
            | [] => 0
            | c :: _ => if isdigit c then 1 else 0) = if isHeaderLine l then 1 else 0 := by
          unfold isHeaderLine
          cases cstr l with
          | nil => rfl
          | cons c cs => cases isdigit c <;> rfl
        rw [ih s2 s1 h, hl, hm, List.filter_cons]
        have hrl : (readLine s l).heap.length = s.heap.length := rfl
        rw [hrl]
        cases isHeaderLine l <;> simp
        omega
      | stuck f s2 => rw [hs] at h; cases h
    · cases h

/-- A run that returns has gone through all the lines, and returns the state
at the end of the loop with the open entry finalized. -/
theorem loop_returned (L : Lib A B) (cb : Bool) :
    ∀ (lines : List (List Char)) (s t : State A B), loop L cb lines s = .returned t →
      ∃ s1, steps L cb lines s = some s1 ∧ t.heap = s1.heap ∧ t.accounts = s1.accounts := by
  intro lines
  induction lines with
  | nil =>
    intro s t h
    refine ⟨s, rfl, ?_⟩
    simp only [loop, Outcome.returned.injEq] at h
    rw [← h]
    cases s.curr with
    | none => exact ⟨rfl, rfl⟩
    | some q =>
      simp only [finalize_entry]
      split
      · exact ⟨rfl, rfl⟩
      · split <;> exact ⟨rfl, rfl⟩
  | cons l ls ih =>
    intro s t h
    simp only [loop] at h
    simp only [steps]
    split at h
    · rename_i hl
      rw [if_pos hl]
      cases hs : step L cb (readLine s l) (cstr l) with
      | ok s2 => rw [hs] at h; exact ih s2 t h
      | stuck f s2 => rw [hs] at h; cases h
    · split at h <;> cases h

theorem range'_take (n k j : Nat) (h : k ≤ j) :
    (List.range' n j).take k = List.range' n k := by
  induction k generalizing n j with
  | zero => simp
  | succ k ih =>
    cases j with
    | zero => omega
    | succ j =>
      simp only [List.range'_succ, List.take_succ_cons]
      rw [ih (n + 1) j (by omega)]

/-- The store in the state of any outcome: the sequence at the call followed
by those of the first `k` entries opened that pass `validate()`, where `k` is
the number of entries opened or one less. -/
theorem store_shape (L : Lib A B) (g t : State A B) (h : Inv L g t ∨ Finished L g t) :
    t.heap.take g.heap.length = g.heap ∧
    ∃ k, k ≤ (opened g t).length ∧ (opened g t).length ≤ k + 1 ∧
      t.entries = g.entries ++ ((opened g t).take k).filter (valid L t.heap) := by
  rcases h with (⟨_, h2, h3, _⟩ | ⟨k, _, h2, h3, h4, _⟩) | ⟨h1, h2, _⟩
  · refine ⟨by rw [h2]; simp, 0, Nat.zero_le _, ?_, by rw [h3]; simp⟩
    simp [opened, h2]
  · have ho : opened g t = List.range' g.heap.length (k + 1) := by
      unfold opened
      rw [h2]
      congr 1
      omega
    refine ⟨h3, k, by rw [ho]; simp, by rw [ho]; simp, ?_⟩
    rw [ho, range'_take _ _ _ (Nat.le_succ k)]
    exact h4
  · exact ⟨h1, (opened g t).length, Nat.le_refl _, Nat.le_succ _, by rw [List.take_length]; exact h2⟩

/-- C9. Append-only commit order. In the state in which a run ends, whether
it returns or not, the entries known at the call are as they were and the
sequence `main_ledger.entries` is the sequence at the call followed by entries
opened by the run that pass `validate()`, in the order in which they were
opened, whatever their dates: those among the first `k` entries opened, where
only the entry still open when a run stops early can be missing. When
`parse_ledger` returns, it is exactly the opened entries that pass
`validate()`, and there is one entry opened for each header line of the input.
Entries are opened in the order of the header lines: after any number of lines
read, the number of entries opened is the number of header lines among them,
so the entry of the header line number `j` is the one at address
`g.heap.length + j`. -/
theorem append_only_commit_order (L : Lib A B) (host_year : Int) (g : State A B)
    (input : List Char) (compute_balances : Bool) :
    ((parse_ledger L host_year g input compute_balances).state.heap.take g.heap.length =
        g.heap ∧
      ∃ k, k ≤ (opened g (parse_ledger L host_year g input compute_balances).state).length ∧
        (opened g (parse_ledger L host_year g input compute_balances).state).length ≤ k + 1 ∧
        (parse_ledger L host_year g input compute_balances).state.entries =
          g.entries ++
            ((opened g (parse_ledger L host_year g input compute_balances).state).take k).filter
              (valid L (parse_ledger L host_year g input compute_balances).state.heap)) ∧
    (∀ t, parse_ledger L host_year g input compute_balances = .returned t →
      t.entries = g.entries ++ (opened g t).filter (valid L t.heap) ∧
      (opened g t).length = ((splitLines input).filter isHeaderLine).length) ∧
    (∀ (pre suf : List (List Char)) (s1 : State A B),
      splitLines input = pre ++ suf →
      steps L compute_balances pre { g with curr := none, current_year := host_year } = some s1 →
      s1.heap.length = g.heap.length + (pre.filter isHeaderLine).length) := by
  have hO := loop_outcome L compute_balances g (splitLines input) _ (inv_start L g host_year)
  refine ⟨store_shape L g _ hO.1, ?_, ?_⟩
  · intro t hret
    have hF := hO.2.1 t hret
    obtain ⟨s1, hs1, ht, _⟩ := loop_returned L compute_balances (splitLines input) _ t hret
    have hlen := steps_heap_length L compute_balances (splitLines input) _ s1 hs1
    refine ⟨hF.2.1, ?_⟩
    simp only [opened, List.length_range', ht, hlen]
    omega
  · intro pre suf s2 _ hs2
    exact steps_heap_length L compute_balances pre
      { g with curr := none, current_year := host_year } s2 hs2

/-- Witness of C9: the run on `journalMixed` from `priorState` returns with
the entry known before followed by the second of the two entries opened. -/
theorem append_only_commit_order_witness :
    parse_ledger sampleLib 2024 priorState journalMixed true =
      .returned (parse_ledger sampleLib 2024 priorState journalMixed true).state ∧
    ((parse_ledger sampleLib 2024 priorState journalMixed true).state.entries =
      priorState.entries ++
        (opened priorState (parse_ledger sampleLib 2024 priorState journalMixed true).state).filter
          (valid sampleLib (parse_ledger sampleLib 2024 priorState journalMixed true).state.heap) ∧
      (opened priorState
        (parse_ledger sampleLib 2024 priorState journalMixed true).state).length =
        ((splitLines journalMixed).filter isHeaderLine).length) ∧
    (parse_ledger sampleLib 2024 priorState journalMixed true).state.entries = [0, 2] :=
  ⟨by decide,
    (append_only_commit_order sampleLib 2024 priorState journalMixed true).2.1 _ (by decide),
    by decide⟩

end c9

section c3
variable {A B : Type}

theorem isspace_not_digit (c : Char) (h : isspace c = true) : isdigit c = false := by
  simp only [isspace, isdigit, Bool.or_eq_true, Bool.and_eq_true, beq_iff_eq,
    decide_eq_true_eq] at h
  simp only [isdigit, Bool.and_eq_false_iff, decide_eq_false_iff_not]
  omega

/-- A line that starts with white space other than a line feed goes to the
posting branch. -/
theorem step_posting (L : Lib A B) (cb : Bool) (s : State A B) (c : Char) (rest : List Char)
    (hsp : isspace c = true) (hnl : c ≠ NL) :
    step L cb s (c :: rest) = posting L cb s (c :: rest) := by
  simp only [step, if_neg hnl, isspace_not_digit c hsp, hsp, if_true, Bool.false_eq_true,
    if_false]

/-- C3. Implicit-amount correctness: in a state whose open entry holds the
postings `x0 :: xs`, a posting line whose cost field is absent (`NULL`), empty
or led by `;` appends a posting whose cost is the negation of a copy of the
cost of the first posting `x0`, whatever `xs` is; the postings already there,
the first one included, are as they were. -/
theorem implicit_amount (L : Lib A B) (compute_balances : Bool) (s : State A B)
    (c : Char) (rest : List Char) (q : Nat) (e : Entry A) (x0 : Transaction A)
    (xs : List (Transaction A))
    (hsp : isspace c = true) (hnl : c ≠ NL)
    (hq : s.curr = some q) (hg : s.heap[q]? = some e) (hx : e.xacts = x0 :: xs)
    (himp : (next_element ((c :: rest).dropWhile isspace) true).2 = none ∨
      (next_element ((c :: rest).dropWhile isspace) true).2 = some [] ∨
      ∃ r, (next_element ((c :: rest).dropWhile isspace) true).2 = some (SEMI :: r)) :
    ∃ t x, step L compute_balances s (c :: rest) = .ok t ∧
      x.cost = L.negate (L.copy x0.cost) ∧
      x.acct = (next_element ((c :: rest).dropWhile isspace) true).1 ∧
      t.curr = some q ∧ t.entries = s.entries ∧
      t.heap[q]? = some { e with xacts := x0 :: (xs ++ [x]) } := by
  have hI : isImplicit (next_element ((c :: rest).dropWhile isspace) true).2 = true := by
    rcases himp with h | h | ⟨r, h⟩ <;> rw [h] <;> simp [isImplicit]
  have hlt : q < s.heap.length := (List.getElem?_eq_some.mp hg).1
  rw [step_posting L compute_balances s c rest hsp hnl]
  unfold posting
  simp only [hI, if_true, hq, hg, hx, List.head?_cons]
  unfold record
  simp only [hq, hg]
  refine ⟨_, Transaction.mk (next_element ((c :: rest).dropWhile isspace) true).1
    (L.negate (L.copy x0.cost))
    (implicitNote (next_element ((c :: rest).dropWhile isspace) true).2),
    rfl, rfl, rfl, rfl, rfl, ?_⟩
  simp [hlt, hx]

theorem afterFirstPosting_curr : afterFirstPosting.curr = some 0 := by decide

theorem afterFirstPosting_entry :
    afterFirstPosting.heap[0]? = some
      { date := some ⟨1, 0, 124⟩, cleared := false, code := [], desc := "Lunch".toList,
        xacts := [{ acct := "A".toList, cost := ⟨10, "$".toList⟩, note := [] }] } := by
  decide

/-- Witness of C3: after the postings `A  $10` and `B` the entry holds the
costs 10 and -10, both in commodity `$`. -/
theorem implicit_amount_witness :
    (∃ t x, step sampleLib true afterFirstPosting "  B".toList = .ok t ∧
      x.cost = sampleLib.negate (sampleLib.copy ⟨10, "$".toList⟩) ∧
      x.acct = (next_element ("  B".toList.dropWhile isspace) true).1 ∧
      t.curr = some 0 ∧ t.entries = afterFirstPosting.entries ∧
      t.heap[0]? = some
        { date := some ⟨1, 0, 124⟩, cleared := false, code := [], desc := "Lunch".toList,
          xacts := { acct := "A".toList, cost := ⟨10, "$".toList⟩, note := [] } :: ([] ++ [x]) }) ∧
    ((step sampleLib true afterFirstPosting "  B".toList).state.heap.map
      (fun e => e.xacts.map (fun x => (x.acct, x.cost)))) =
      [[("A".toList, ⟨10, "$".toList⟩), ("B".toList, ⟨-10, "$".toList⟩)]] :=
  ⟨implicit_amount sampleLib true afterFirstPosting (Char.ofNat 32) " B".toList 0 _ _ []
      (by decide) (by decide) afterFirstPosting_curr afterFirstPosting_entry rfl
      (Or.inl (by decide)),
    by decide⟩

/-- C4, what the code does. On `journalImplicitFirst` the first posting of the
entry has no amount: `curr->xacts.front()` is called on an empty list, the run
is stuck there, and `parse_ledger` does not report a failure. -/
theorem implicit_first_posting_stuck :
    (∃ s, parse_ledger sampleLib 2024 startState journalImplicitFirst true =
      .stuck .emptyFront s) ∧
    (parse_ledger sampleLib 2024 startState journalImplicitFirst true).state.entries = [] ∧
    (parse_ledger sampleLib 2024 startState journalImplicitFirst true).state.cerr = [] :=
  ⟨⟨(parse_ledger sampleLib 2024 startState journalImplicitFirst true).state, by decide⟩,
    by decide, by decide⟩

/-- C5, what the code does. The return value of `pcre_exec` is never the 0
that the test `! matched` looks for, whatever the line. The line `2024` starts
with a digit and does not match the pattern. Before it the entry at address 0
is open and the store is empty. The line finalizes that entry (it is
appended), replaces it by a new entry at address 1, writes no message, and the
run is stuck at the read of the match vector. -/
theorem malformed_header_finalizes :
    (∀ line, (pcre_exec line).1 ≠ 0) ∧
    (∃ s3, steps sampleLib true ((splitLines journalBadHeader).take 3) startState = some s3 ∧
      s3.curr = some 0 ∧ s3.entries = [] ∧ s3.cerr = []) ∧
    pcre_exec "2024".toList = (-1, none) ∧
    (∃ s, parse_ledger sampleLib 2024 startState journalBadHeader true = .stuck .noMatch s ∧
      s.curr = some 1 ∧ s.entries = [0] ∧ s.cerr = [] ∧ s.linenum = 4) :=
  ⟨pcre_exec_ne_zero,
    ⟨(steps sampleLib true ((splitLines journalBadHeader).take 3) startState).getD startState,
      by decide, by decide, by decide, by decide⟩,
    by decide,
    ⟨(parse_ledger sampleLib 2024 startState journalBadHeader true).state,
      by decide, by decide, by decide, by decide, by decide⟩⟩

end c3

section c7
variable {A B : Type}

theorem dropWhile_append_all (p : Char → Bool) (l1 l2 : List Char)
    (h : ∀ c ∈ l1, p c = true) : (l1 ++ l2).dropWhile p = l2.dropWhile p := by
  induction l1 with
  | nil => rfl
  | cons c cs ih =>
    have hc := h c (List.mem_cons_self _ _)
    simp only [List.cons_append, List.dropWhile_cons, hc, if_true]
    exact ih (fun d hd => h d (List.mem_cons_of_mem _ hd))

theorem tabsToSpaces_id (l : List Char) (h : TAB ∉ l) : tabsToSpaces l = l := by
  unfold tabsToSpaces
  induction l with
  | nil => rfl
  | cons c cs ih =>
    have hc : c ≠ TAB := fun hc => h (hc ▸ List.mem_cons_self _ _)
    simp only [List.map_cons, if_neg hc]
    rw [ih (fun hd => h (List.mem_cons_of_mem _ hd))]

theorem splitDouble_here (tail : List Char) :
    splitDouble (SP :: SP :: tail) = some ([], SP :: tail) := by
  rw [splitDouble]
  simp

/-- In an account text with no two consecutive spaces and no space at its
end, followed by two spaces, `strstr` finds those two spaces. -/
theorem splitDouble_account (acct tail : List Char) (hne : acct ≠ [])
    (hdbl : noDoubleSpace acct = true) (hend : acct.getLast? ≠ some SP) :
    splitDouble (acct ++ SP :: SP :: tail) = some (acct, SP :: tail) := by
  induction acct with
  | nil => exact absurd rfl hne
  | cons a as ih =>
    cases as with
    | nil =>
      have ha : a ≠ SP := fun h => hend (by simp [h])
      simp only [List.cons_append, List.nil_append]
      rw [splitDouble]
      simp [ha, splitDouble_here]
    | cons b bs =>
      have hd : noDoubleSpace (b :: bs) = true := by
        simp only [noDoubleSpace, Bool.and_eq_true] at hdbl
        exact hdbl.2
      have hab : ¬ (a = SP ∧ b = SP) := by
        simp only [noDoubleSpace, Bool.and_eq_true, Bool.not_eq_true', Bool.and_eq_false_iff,
          beq_eq_false_iff_ne] at hdbl
        intro h
        rcases hdbl.1 with h1 | h1
        · exact h1 h.1
        · exact h1 h.2
      have he : (b :: bs).getLast? ≠ some SP := by
        simpa [List.getLast?_cons_cons] using hend
      have := ih (List.cons_ne_nil _ _) hd he
      simp only [List.cons_append] at this ⊢
      rw [splitDouble]
      simp only [if_neg hab, this]

theorem isImplicit_cons (c : Char) (r : List Char) (h : c ≠ SEMI) :
    isImplicit (some (c :: r)) = false := by
  simp [isImplicit, h]

theorem beforeNote_id (t : List Char) (h : SEMI ∉ t) : beforeNote t = t := by
  unfold beforeNote
  induction t with
  | nil => rfl
  | cons c cs ih =>
    have hc : c ≠ SEMI := fun hc => h (hc ▸ List.mem_cons_self _ _)
    simp only [List.takeWhile_cons, bne_iff_ne, ne_eq, hc, not_false_eq_true, decide_True,
      if_true]
    rw [ih (fun hd => h (List.mem_cons_of_mem _ hd))]

theorem explicitNote_none (t : List Char) (h : SEMI ∉ t) : explicitNote t = [] := by
  have : t.dropWhile (fun c => c != SEMI) = [] := by
    induction t with
    | nil => rfl
    | cons c cs ih =>
      have hc : c ≠ SEMI := fun hc => h (hc ▸ List.mem_cons_self _ _)
      simp only [List.dropWhile_cons, bne_iff_ne, ne_eq, hc, not_false_eq_true, decide_True,
        if_true]
      exact ih (fun hd => h (List.mem_cons_of_mem _ hd))
  simp [explicitNote, this]

/-- What `next_element` returns on a line of the form `PostingForm` whose
account text has no tab and no space at its end and whose cost text has no
tab. -/
theorem next_element_form (indent acct : List Char) (n : Nat) (cost : List Char)
    (hform : PostingForm indent acct n cost)
    (htabA : TAB ∉ acct) (hendA : acct.getLast? ≠ some SP) (htabC : TAB ∉ cost) :
    next_element ((indent ++ acct ++ List.replicate n SP ++ cost).dropWhile isspace) true =
      (acct, some cost) := by
  obtain ⟨_, hind, ⟨a, A1, hA, ha⟩, hdbl, hn, ⟨c, C1, hC, hc, _⟩, _⟩ := hform
  obtain ⟨m, rfl⟩ : ∃ m, n = m + 2 := ⟨n - 2, by omega⟩
  have h1 : (indent ++ acct ++ List.replicate (m + 2) SP ++ cost).dropWhile isspace =
      acct ++ (SP :: SP :: (List.replicate m SP ++ cost)) := by
    rw [List.append_assoc, List.append_assoc,
      dropWhile_append_all isspace indent _ (fun d hd => (hind d hd).1), hA]
    simp [List.dropWhile_cons, ha, List.replicate_succ]
  have h2 : tabsToSpaces (acct ++ (SP :: SP :: (List.replicate m SP ++ cost))) =
      acct ++ (SP :: SP :: (List.replicate m SP ++ cost)) := by
    apply tabsToSpaces_id
    intro h
    rcases List.mem_append.mp h with h | h
    · exact htabA h
    · rcases List.mem_cons.mp h with h | h
      · revert h; decide
      · rcases List.mem_cons.mp h with h | h
        · revert h; decide
        · rcases List.mem_append.mp h with h | h
          · have := List.eq_of_mem_replicate h
            revert this; decide
          · exact htabC h
  have h3 : (SP :: (List.replicate m SP ++ cost)).dropWhile isspace = cost := by
    have : SP :: (List.replicate m SP ++ cost) = List.replicate (m + 1) SP ++ cost := by
      simp [List.replicate_succ]
    rw [this, dropWhile_append_all isspace _ _ (fun d hd => by
      rw [List.eq_of_mem_replicate hd]; decide), hC]
    simp [List.dropWhile_cons, hc]
  unfold next_element
  simp only [h1, h2, if_true]
  rw [splitDouble_account acct _ (by rw [hA]; exact List.cons_ne_nil _ _) hdbl hendA]
  simp only [h3]

/-- C7, as amended. Double-space disambiguation: for every posting line of
the form indentation + A + two or more spaces + C as in `PostingForm`, where
moreover A holds no tab and does not end with a space and C holds no tab, the
account text that `next_element` leaves is exactly A, the text handed to
`create_amount` is exactly C with trailing white space removed, and with an
entry open the posting is recorded against account A with that amount and no
note. -/
theorem double_space_disambiguation (L : Lib A B) (compute_balances : Bool) (s : State A B)
    (indent acct : List Char) (n : Nat) (cost : List Char) (q : Nat) (e : Entry A)
    (hform : PostingForm indent acct n cost)
    (htabA : TAB ∉ acct) (hendA : acct.getLast? ≠ some SP) (htabC : TAB ∉ cost)
    (hq : s.curr = some q) (hg : s.heap[q]? = some e) :
    next_element ((indent ++ acct ++ List.replicate n SP ++ cost).dropWhile isspace) true =
      (acct, some cost) ∧
    costText cost = trimTrailing cost ∧
    ∃ t, step L compute_balances s (indent ++ acct ++ List.replicate n SP ++ cost) = .ok t ∧
      t.heap[q]? = some { e with xacts := e.xacts ++
        [{ acct := acct, cost := L.create_amount (trimTrailing cost), note := [] }] } := by
  have hne := next_element_form indent acct n cost hform htabA hendA htabC
  obtain ⟨hi0, hind, _, _, _, ⟨c, C1, hC, _, hc⟩, hsemi⟩ := hform
  have hct : costText cost = trimTrailing cost := by
    unfold costText
    rw [beforeNote_id cost hsemi]
  refine ⟨hne, hct, ?_⟩
  obtain ⟨i, is, hi⟩ : ∃ i is, indent = i :: is := by
    cases indent with
    | nil => exact absurd rfl hi0
    | cons i is => exact ⟨i, is, rfl⟩
  have hisp := hind i (by rw [hi]; exact List.mem_cons_self _ _)
  have hlt : q < s.heap.length := (List.getElem?_eq_some.mp hg).1
  have hline : indent ++ acct ++ List.replicate n SP ++ cost =
      i :: (is ++ acct ++ List.replicate n SP ++ cost) := by
    rw [hi]; simp
  rw [hline, step_posting L compute_balances s i _ hisp.1 hisp.2, ← hline]
  have himp : isImplicit (some cost) = false := by
    rw [hC]; exact isImplicit_cons c C1 hc
  unfold posting
  simp only [hne, himp, Bool.false_eq_true, if_false, Option.getD_some, hct,
    explicitNote_none cost hsemi]
  unfold record
  simp only [hq, hg]
  exact ⟨_, rfl, by simp [hlt]⟩

/-- Witness of C7: the line `  Dining Out  $20` gives the account
`Dining Out` and the cost text `$20`. -/
theorem double_space_disambiguation_witness :
    PostingForm "  ".toList "Dining Out".toList 2 "$20".toList ∧
    (next_element (("  ".toList ++ "Dining Out".toList ++ List.replicate 2 SP ++
        "$20".toList).dropWhile isspace) true = ("Dining Out".toList, some "$20".toList) ∧
      costText "$20".toList = trimTrailing "$20".toList ∧
      ∃ t, step sampleLib true afterFirstPosting
          ("  ".toList ++ "Dining Out".toList ++ List.replicate 2 SP ++ "$20".toList) = .ok t ∧
        t.heap[0]? = some
          { ({ date := some ⟨1, 0, 124⟩, cleared := false, code := [], desc := "Lunch".toList,
               xacts := [{ acct := "A".toList, cost := ⟨10, "$".toList⟩, note := [] }] } :
              Entry Amount) with
            xacts := [{ acct := "A".toList, cost := ⟨10, "$".toList⟩, note := [] }] ++
              [{ acct := "Dining Out".toList,
                 cost := sampleLib.create_amount (trimTrailing "$20".toList), note := [] }] }) ∧
    trimTrailing "$20".toList = "$20".toList :=
  ⟨⟨by decide, by decide, ⟨_, _, rfl, by decide⟩, by decide, by decide,
      ⟨_, _, rfl, by decide, by decide⟩, by decide⟩,
    double_space_disambiguation sampleLib true afterFirstPosting "  ".toList
      "Dining Out".toList 2 "$20".toList 0 _
      ⟨by decide, by decide, ⟨_, _, rfl, by decide⟩, by decide, by decide,
        ⟨_, _, rfl, by decide, by decide⟩, by decide⟩
      (by decide) (by decide) (by decide) afterFirstPosting_curr afterFirstPosting_entry,
    by decide⟩

/-- Counterexample to C7 as stated. Three lines of the stated form: with the
account text `Foo ` (a space at its end) the account is `Foo`; with the account
text `a<tab>b` the account is `a b`; with the cost text `$<tab>20` the text
handed to the amount parser is `$ 20`. -/
theorem double_space_disambiguation_counterexample :
    (PostingForm "  ".toList "Foo ".toList 2 "$20".toList ∧
      (next_element (("  ".toList ++ "Foo ".toList ++ List.replicate 2 SP ++
        "$20".toList).dropWhile isspace) true).1 = "Foo".toList ∧
      "Foo".toList ≠ "Foo ".toList) ∧
    (PostingForm "  ".toList "a\tb".toList 2 "$20".toList ∧
      (next_element (("  ".toList ++ "a\tb".toList ++ List.replicate 2 SP ++
        "$20".toList).dropWhile isspace) true).1 = "a b".toList ∧
      "a b".toList ≠ "a\tb".toList) ∧
    (PostingForm "  ".toList "A".toList 2 "$\t20".toList ∧
      ((next_element (("  ".toList ++ "A".toList ++ List.replicate 2 SP ++
        "$\t20".toList).dropWhile isspace) true).2.map costText) = some "$ 20".toList ∧
      "$ 20".toList ≠ trimTrailing "$\t20".toList) :=
  ⟨⟨⟨by decide, by decide, ⟨_, _, rfl, by decide⟩, by decide, by decide,
      ⟨_, _, rfl, by decide, by decide⟩, by decide⟩, by decide, by decide⟩,
    ⟨⟨by decide, by decide, ⟨_, _, rfl, by decide⟩, by decide, by decide,
      ⟨_, _, rfl, by decide, by decide⟩, by decide⟩, by decide, by decide⟩,
    ⟨⟨by decide, by decide, ⟨_, _, rfl, by decide⟩, by decide, by decide,
      ⟨_, _, rfl, by decide, by decide⟩, by decide⟩, by decide, by decide⟩⟩

end c7

section c8
variable {A B : Type}

theorem balance_of_append (accts : List (List Char × B)) (p path : List Char) (z : B) :
    balance_of (accts ++ [(p, z)]) path =
      match balance_of accts path with
      | some b => some b
      | none => if p = path then some z else none := by
  induction accts with
  | nil => simp [balance_of]
  | cons a as ih =>
    by_cases ha : a.1 = path
    · simp [balance_of, ha]
    · simp only [List.cons_append, balance_of, if_neg ha]
      exact ih

theorem balance_of_find_account (z : B) (accts : List (List Char × B)) (p path : List Char) :
    balance_of (find_account z accts p) path =
      if p = path then some ((balance_of accts path).getD z) else balance_of accts path := by
  unfold find_account
  by_cases hp : p = path
  · subst hp
    simp only [if_true]
    cases h : balance_of accts p with
    | some b => simp [h]
    | none => simp [balance_of_append, h]
  · simp only [if_neg hp]
    cases h : balance_of accts p with
    | some b => rfl
    | none =>
      simp only [balance_of_append, if_neg hp]
      cases balance_of accts path <;> rfl

theorem balance_of_credit_account (L : Lib A B) (accts : List (List Char × B))
    (p path : List Char) (c : A) :
    balance_of (credit_account L accts p c) path =
      if p = path then (balance_of accts path).map (fun b => L.credit b c)
      else balance_of accts path := by
  unfold credit_account
  induction accts with
  | nil => simp [balance_of]
  | cons a as ih =>
    simp only [List.map_cons]
    by_cases hap : a.1 = p
    · by_cases hp : p = path
      · simp [balance_of, hap, hp]
      · have ha : a.1 ≠ path := fun h => hp (hap.symm.trans h)
        simp only [if_pos hap, balance_of, if_neg ha, if_neg hp]
        simpa [hp] using ih
    · by_cases ha : a.1 = path
      · have hp : p ≠ path := fun h => hap (ha.trans h.symm)
        simp only [if_neg hap, balance_of, if_pos ha, if_neg hp]
      · simp only [if_neg hap, balance_of, if_neg ha]
        exact ih

/-- The balance of every account after lines 198 to 200 with
`compute_balances` set. -/
theorem balance_of_recorded (L : Lib A B) (accts : List (List Char × B))
    (x : Transaction A) (path : List Char) :
    balance_of (credit_account L (find_account L.noBalance accts x.acct) x.acct x.cost) path =
      if x.acct = path then some (L.credit ((balance_of accts path).getD L.noBalance) x.cost)
      else balance_of accts path := by
  rw [balance_of_credit_account, balance_of_find_account]
  by_cases hp : x.acct = path <;> simp [hp]

theorem balance_of_none_not_mem (accts : List (List Char × B)) (p : List Char)
    (h : balance_of accts p = none) : p ∉ accts.map Prod.fst := by
  induction accts with
  | nil => simp
  | cons a as ih =>
    by_cases ha : a.1 = p
    · simp [balance_of, ha] at h
    · simp only [balance_of, if_neg ha] at h
      simp only [List.map_cons, List.mem_cons, not_or]
      exact ⟨fun hp => ha hp.symm, ih h⟩

theorem keys_find_account (z : B) (accts : List (List Char × B)) (p : List Char)
    (h : (accts.map Prod.fst).Nodup) : ((find_account z accts p).map Prod.fst).Nodup := by
  unfold find_account
  cases hb : balance_of accts p with
  | some b => exact h
  | none =>
    simp only [List.map_append, List.map_cons, List.map_nil]
    rw [List.nodup_append]
    refine ⟨h, List.nodup_singleton _, ?_⟩
    intro k hk1 hk2
    simp only [List.mem_singleton] at hk2
    subst hk2
    exact balance_of_none_not_mem accts k hb hk1

theorem keys_credit_account (L : Lib A B) (accts : List (List Char × B)) (p : List Char)
    (c : A) : (credit_account L accts p c).map Prod.fst = accts.map Prod.fst := by
  unfold credit_account
  induction accts with
  | nil => rfl
  | cons a as ih =>
    simp only [List.map_cons, ih]
    split <;> rfl

theorem fill_entry_xacts (line : List Char) (ov : List Int) (m cy : Int) (e e1 : Entry A)
    (buf buf1 : List Char) (h : fill_entry line ov m cy e buf = .done e1 buf1) :
    e1.xacts = e.xacts := by
  unfold fill_entry at h
  simp only [] at h
  repeat' split at h
  all_goals cases h
  all_goals rfl

theorem finalize_entry_frame (L : Lib A B) (s : State A B) (q : Option Nat) :
    (finalize_entry L s q).heap = s.heap ∧ (finalize_entry L s q).accounts = s.accounts ∧
    (finalize_entry L s q).current_year = s.current_year ∧
    (finalize_entry L s q).curr = s.curr := by
  unfold finalize_entry
  split
  · exact ⟨rfl, rfl, rfl, rfl⟩
  · split
    · exact ⟨rfl, rfl, rfl, rfl⟩
    · split <;> exact ⟨rfl, rfl, rfl, rfl⟩

theorem header_ok (L : Lib A B) (s t : State A B) (line : List Char)
    (h : header L s line = .ok t) :
    ∃ e, e.xacts = [] ∧ t.heap = s.heap ++ [e] ∧ t.accounts = s.accounts ∧
      t.curr = some s.heap.length ∧ t.current_year = s.current_year := by
  unfold header at h
  simp only [pcre_exec_ne_zero, if_false] at h
  have hs1 : (match s.curr with
      | some p => finalize_entry L s (some p)
      | none => s).heap = s.heap ∧ (match s.curr with
      | some p => finalize_entry L s (some p)
      | none => s).accounts = s.accounts ∧ (match s.curr with
      | some p => finalize_entry L s (some p)
      | none => s).current_year = s.current_year := by
    cases s.curr with
    | none => exact ⟨rfl, rfl, rfl⟩
    | some q => exact ⟨(finalize_entry_frame L s (some q)).1,
        (finalize_entry_frame L s (some q)).2.1, (finalize_entry_frame L s (some q)).2.2.1⟩
  generalize (match s.curr with
      | some p => finalize_entry L s (some p)
      | none => s) = s1 at hs1 h
  cases hm : (pcre_exec line).2 with
  | none => rw [hm] at h; cases h
  | some ov =>
    rw [hm] at h
    simp only [] at h
    cases hf : fill_entry line ov (pcre_exec line).1 s1.current_year (Entry.fresh : Entry A)
        s1.buf with
    | done e buf =>
      rw [hf] at h
      simp only [Step.ok.injEq] at h
      refine ⟨e, fill_entry_xacts _ _ _ _ _ _ _ _ hf, ?_, ?_, ?_, ?_⟩
      · rw [← h]; simp [set_append_last, hs1.1]
      · rw [← h]; exact hs1.2.1
      · rw [← h]; simp [hs1.1]
      · rw [← h]; exact hs1.2.2
    | fault f e buf => rw [hf] at h; cases h

theorem record_ok (L : Lib A B) (cb : Bool) (s t : State A B) (x : Transaction A)
    (h : record L cb s x = .ok t) :
    ∃ q e, s.curr = some q ∧ s.heap[q]? = some e ∧
      t.heap = s.heap.set q { e with xacts := e.xacts ++ [x] } ∧
      t.accounts = (if cb then credit_account L (find_account L.noBalance s.accounts x.acct)
        x.acct x.cost else find_account L.noBalance s.accounts x.acct) ∧
      t.current_year = s.current_year := by
  unfold record at h
  cases hq : s.curr with
  | none => rw [hq] at h; cases h
  | some q =>
    rw [hq] at h
    simp only [] at h
    cases hg : s.heap[q]? with
    | none => rw [hg] at h; cases h
    | some e =>
      rw [hg] at h
      simp only [Step.ok.injEq] at h
      exact ⟨q, e, rfl, hg, by rw [← h], by rw [← h], by rw [← h]⟩

theorem posting_ok (L : Lib A B) (cb : Bool) (s t : State A B) (line : List Char)
    (h : posting L cb s line = .ok t) :
    ∃ q e x, s.curr = some q ∧ s.heap[q]? = some e ∧
      t.heap = s.heap.set q { e with xacts := e.xacts ++ [x] } ∧
      t.accounts = (if cb then credit_account L (find_account L.noBalance s.accounts x.acct)
        x.acct x.cost else find_account L.noBalance s.accounts x.acct) ∧
      t.current_year = s.current_year := by
  unfold posting at h
  simp only [] at h
  split at h
  · cases hq : s.curr with
    | none => rw [hq] at h; cases h
    | some q =>
      rw [hq] at h
      simp only [] at h
      cases hg : s.heap[q]? with
      | none => rw [hg] at h; cases h
      | some e =>
        rw [hg] at h
        simp only [] at h
        cases hx : e.xacts.head? with
        | none => rw [hx] at h; cases h
        | some x0 =>
          rw [hx] at h
          obtain ⟨q1, e1, h1, h2, h3, h4, h5⟩ := record_ok L cb s t _ h
          exact ⟨q1, e1, _, hq.symm.trans h1, h2, h3, h4, h5⟩
  · obtain ⟨q1, e1, h1, h2, h3, h4, h5⟩ := record_ok L cb s t _ h
    exact ⟨q1, e1, _, h1, h2, h3, h4, h5⟩

theorem year_directive_ok (s t : State A B) (line : List Char)
    (h : year_directive s line = .ok t) :
    t.heap = s.heap ∧ t.accounts = s.accounts ∧ t.curr = s.curr := by
  unfold year_directive at h
  split at h
  · cases h
  · split at h
    · cases h
    · simp only [Step.ok.injEq] at h
      rw [← h]
      exact ⟨rfl, rfl, rfl⟩

theorem postedAll_append (l1 l2 : List (Entry A)) :
    postedAll (l1 ++ l2) = postedAll l1 ++ postedAll l2 := by
  induction l1 with
  | nil => rfl
  | cons e es ih => simp [postedAll, ih]

theorem set_last {α : Type} (l : List α) (q : Nat) (a b : α) (hq : q + 1 = l.length)
    (hg : l[q]? = some a) : l = l.take q ++ [a] ∧ l.set q b = l.take q ++ [b] := by
  induction l generalizing q with
  | nil => simp at hq
  | cons x xs ih =>
    cases q with
    | zero =>
      have : xs = [] := List.length_eq_zero.mp (by simpa using hq.symm)
      subst this
      simp only [List.getElem?_cons_zero, Option.some.injEq] at hg
      subst hg
      exact ⟨rfl, rfl⟩
    | succ q =>
      have := ih q (by simpa using hq) (by simpa using hg)
      constructor
      · simp only [List.take_succ_cons, List.cons_append]
        rw [← this.1]
      · simp only [List.set_cons_succ, List.take_succ_cons, List.cons_append]
        rw [this.2]

theorem postedAll_set_last (l : List (Entry A)) (q : Nat) (e : Entry A) (x : Transaction A)
    (hq : q + 1 = l.length) (hg : l[q]? = some e) :
    postedAll (l.set q { e with xacts := e.xacts ++ [x] }) = postedAll l ++ [x] := by
  obtain ⟨h1, h2⟩ := set_last l q e { e with xacts := e.xacts ++ [x] } hq hg
  rw [h2]
  conv_rhs => rw [h1]
  simp [postedAll_append, postedAll]

/-- What an iteration that goes through does to the registry and to the
transactions recorded, with `compute_balances` set: nothing, or one
transaction is recorded and its cost credited to its account. -/
theorem step_accounts (L : Lib A B) (s t : State A B) (line : List Char)
    (hlast : ∀ q, s.curr = some q → q + 1 = s.heap.length)
    (h : step L true s line = .ok t) :
    (t.accounts = s.accounts ∧ postedAll t.heap = postedAll s.heap) ∨
    (∃ x, t.accounts = credit_account L (find_account L.noBalance s.accounts x.acct)
        x.acct x.cost ∧ postedAll t.heap = postedAll s.heap ++ [x]) := by
  cases line with
  | nil =>
    simp only [step, Step.ok.injEq] at h
    rw [← h]; exact Or.inl ⟨rfl, rfl⟩
  | cons c cs =>
    simp only [step] at h
    split at h
    · simp only [Step.ok.injEq] at h
      rw [← h]; exact Or.inl ⟨rfl, rfl⟩
    · split at h
      · obtain ⟨e, he, hh, ha, _, _⟩ := header_ok L s t _ h
        refine Or.inl ⟨ha, ?_⟩
        rw [hh, postedAll_append]
        simp [postedAll, he]
      · split at h
        · obtain ⟨q, e, x, hq, hg, hh, ha, _⟩ := posting_ok L true s t _ h
          refine Or.inr ⟨x, by simpa using ha, ?_⟩
          rw [hh]
          exact postedAll_set_last s.heap q e x (hlast q hq) hg
        · split at h
          · obtain ⟨hh, ha, _⟩ := year_directive_ok s t _ h
            exact Or.inl ⟨ha, by rw [hh]⟩
          · simp only [Step.ok.injEq] at h
            rw [← h]; exact Or.inl ⟨rfl, rfl⟩

theorem creditAll_append (L : Lib A B) (b : Option B) (cs : List A) (c : A) :
    creditAll L b (cs ++ [c]) = some (L.credit ((creditAll L b cs).getD L.noBalance) c) := by
  simp [creditAll, List.foldl_append]

theorem costsTo_append (path : List Char) (xs : List (Transaction A)) (x : Transaction A) :
    costsTo path (xs ++ [x]) = costsTo path xs ++ (if x.acct = path then [x.cost] else []) := by
  unfold costsTo
  by_cases h : x.acct = path <;> simp [List.filter_append, List.filter_cons, h]

theorem inv_last (L : Lib A B) (g s : State A B) (hI : Inv L g s) :
    ∀ q, s.curr = some q → q + 1 = s.heap.length := by
  intro q hq
  rcases hI with ⟨h1, _⟩ | ⟨k, h1, h2, _⟩
  · rw [h1] at hq; cases hq
  · rw [h1] at hq
    simp only [Option.some.injEq] at hq
    omega

/-- The registry at the head of the loop, with `compute_balances` set: every
balance is the balance at the call credited with the costs recorded against
the account since, and no path has two accounts. -/
theorem steps_accounts (L : Lib A B) (g : State A B) :
    ∀ (lines : List (List Char)) (s s1 : State A B), Inv L g s →
      (∃ xs, postedAll s.heap = postedAll g.heap ++ xs ∧
        (∀ path, balance_of s.accounts path =
          creditAll L (balance_of g.accounts path) (costsTo path xs)) ∧
        ((g.accounts.map Prod.fst).Nodup → (s.accounts.map Prod.fst).Nodup)) →
      steps L true lines s = some s1 →
      (∃ xs, postedAll s1.heap = postedAll g.heap ++ xs ∧
        (∀ path, balance_of s1.accounts path =
          creditAll L (balance_of g.accounts path) (costsTo path xs)) ∧
        ((g.accounts.map Prod.fst).Nodup → (s1.accounts.map Prod.fst).Nodup)) := by
  intro lines
  induction lines with
  | nil =>
    intro s s1 _ hA h
    simp only [steps, Option.some.injEq] at h
    rw [← h]; exact hA
  | cons l ls ih =>
    intro s s1 hI hA h
    simp only [steps] at h
    split at h
    · have hk := step_inv L true g (readLine s l) (cstr l) hI
      cases hs : step L true (readLine s l) (cstr l) with
      | ok s2 =>
        rw [hs] at h hk
        refine ih s2 s1 hk.1 ?_ h
        obtain ⟨xs, hx1, hx2, hx3⟩ := hA
        rcases step_accounts L (readLine s l) s2 (cstr l)
          (inv_last L g _ hI) hs with ⟨ha, hp⟩ | ⟨x, ha, hp⟩
        · exact ⟨xs, by rw [hp]; exact hx1, fun path => by rw [ha]; exact hx2 path,
            fun hn => by rw [ha]; exact hx3 hn⟩
        · refine ⟨xs ++ [x], by
              rw [hp]
              show postedAll s.heap ++ [x] = _
              rw [hx1, List.append_assoc], ?_, ?_⟩
          · intro path
            rw [ha, balance_of_recorded, costsTo_append]
            show (if x.acct = path then
                some (L.credit ((balance_of s.accounts path).getD L.noBalance) x.cost)
              else balance_of s.accounts path) = _
            by_cases hp : x.acct = path
            · rw [if_pos hp, if_pos hp, creditAll_append, ← hx2 path]
            · rw [if_neg hp, if_neg hp, List.append_nil]
              exact hx2 path
          · intro hn
            rw [ha, keys_credit_account]
            exact keys_find_account _ _ _ (hx3 hn)
      | stuck f s2 => rw [hs] at h; cases h
    · cases h

/-- C8. Cumulative credit, with `compute_balances` set: when `parse_ledger`
returns, the balance of every account path is the balance the path had at the
call (no account, for a path the registry did not know) credited once with the
cost of every posting that the run recorded against the path, in order, in all
the entries opened by the run, those reported as unbalanced included; and a
registry in which no path had two accounts is still such, so that all postings
naming a path have resolved to the one account of that path. -/
theorem cumulative_credit (L : Lib A B) (host_year : Int) (g t : State A B)
    (input : List Char)
    (hret : parse_ledger L host_year g input true = .returned t) :
    (∀ path, balance_of t.accounts path =
      creditAll L (balance_of g.accounts path)
        (costsTo path (postedAll (t.heap.drop g.heap.length)))) ∧
    ((g.accounts.map Prod.fst).Nodup → (t.accounts.map Prod.fst).Nodup) := by
  have h0 := inv_start L g host_year
  have hF := (loop_outcome L true g (splitLines input) _ h0).2.1 t hret
  obtain ⟨s1, hs1, hth, hta⟩ := loop_returned L true (splitLines input) _ t hret
  obtain ⟨xs, hx1, hx2, hx3⟩ := steps_accounts L g (splitLines input) _ s1 h0
    ⟨[], by simp, fun path => rfl, fun hn => hn⟩ hs1
  have hsplit : t.heap = g.heap ++ t.heap.drop g.heap.length := by
    conv_lhs => rw [← List.take_append_drop g.heap.length t.heap, hF.1]
  have hxs : postedAll (t.heap.drop g.heap.length) = xs := by
    have h1 : postedAll t.heap = postedAll g.heap ++ postedAll (t.heap.drop g.heap.length) := by
      conv_lhs => rw [hsplit, postedAll_append]
    rw [hth, hx1, ← hth] at h1
    exact (List.append_cancel_left h1).symm
  rw [hxs, hta]
  exact ⟨hx2, hx3⟩

/-- Witness of C8: the run on `journalMixed`. The account `Cash` did not
exist; it is credited with -4 by the entry that is reported as unbalanced and
with -7 by the entry that is committed. -/
theorem cumulative_credit_witness :
    parse_ledger sampleLib 2024 priorState journalMixed true =
      .returned (parse_ledger sampleLib 2024 priorState journalMixed true).state ∧
    balance_of (parse_ledger sampleLib 2024 priorState journalMixed true).state.accounts
        "Cash".toList =
      creditAll sampleLib (balance_of priorState.accounts "Cash".toList)
        (costsTo "Cash".toList (postedAll
          ((parse_ledger sampleLib 2024 priorState journalMixed true).state.heap.drop
            priorState.heap.length))) ∧
    balance_of (parse_ledger sampleLib 2024 priorState journalMixed true).state.accounts
        "Cash".toList = some [⟨-11, "$".toList⟩] :=
  ⟨by decide,
    (cumulative_credit sampleLib 2024 priorState _ journalMixed (by decide)).1 "Cash".toList,
    by decide⟩

end c8

section pattern

theorem plusFrom_sound {R : Type} (p : Char → Bool) (k : List Char → Nat → Option R) :
    ∀ (s : List Char) (i : Nat) (r : R), plusFrom p k s i = some r →
      ∃ run t, run ≠ [] ∧ (∀ c ∈ run, p c = true) ∧ s = run ++ t ∧
        k t (i + run.length) = some r := by
  intro s
  induction s with
  | nil => intro i r h; simp [plusFrom] at h
  | cons c cs ih =>
    intro i r h
    simp only [plusFrom] at h
    split at h
    · rename_i hc
      split at h
      · rename_i r1 hr1
        cases h
        obtain ⟨run, t, _, h2, h3, h4⟩ := ih (i + 1) r hr1
        refine ⟨c :: run, t, List.cons_ne_nil _ _, ?_, by rw [h3]; rfl, ?_⟩
        · intro d hd
          rcases List.mem_cons.mp hd with hd | hd
          · rw [hd]; exact hc
          · exact h2 d hd
        · rw [← h4]
          congr 1
          simp only [List.length_cons]
          omega
      · exact ⟨[c], cs, List.cons_ne_nil _ _, by simpa using hc, rfl, by simpa using h⟩
    · cases h

/-- The matcher is sound: a result comes from a way in which the pattern
matches, followed by the continuation. -/
theorem exec_sound : ∀ (re : Re) (ov : List Int) (s : List Char) (i : Nat)
    (k : List Int → List Char → Nat → Option (List Int)) (r : List Int),
    re.exec ov s i k = some r →
    ∃ ow t j, re.Matches ov s i ow t j ∧ k ow t j = some r := by
  intro re
  induction re with
  | cls p =>
    intro ov s i k r h
    cases s with
    | nil => simp [Re.exec] at h
    | cons c cs =>
      simp only [Re.exec] at h
      split at h
      · rename_i hc
        exact ⟨ov, cs, i + 1, ⟨c, rfl, hc, rfl, rfl⟩, h⟩
      · cases h
  | seq a b iha ihb =>
    intro ov s i k r h
    simp only [Re.exec] at h
    obtain ⟨ov1, s1, i1, h1, h2⟩ := iha ov s i _ r h
    obtain ⟨ow, t, j, h3, h4⟩ := ihb ov1 s1 i1 k r h2
    exact ⟨ow, t, j, ⟨ov1, s1, i1, h1, h3⟩, h4⟩
  | opt a iha =>
    intro ov s i k r h
    simp only [Re.exec] at h
    split at h
    · rename_i r1 hr1
      cases h
      obtain ⟨ow, t, j, h1, h2⟩ := iha ov s i k r hr1
      exact ⟨ow, t, j, Or.inl h1, h2⟩
    · exact ⟨ov, s, i, Or.inr ⟨rfl, rfl, rfl⟩, h⟩
  | plus p =>
    intro ov s i k r h
    simp only [Re.exec] at h
    obtain ⟨run, t, h1, h2, h3, h4⟩ := plusFrom_sound p (k ov) s i r h
    exact ⟨ov, t, i + run.length, ⟨run, h1, h2, h3, rfl, rfl⟩, h4⟩
  | grp n a iha =>
    intro ov s i k r h
    simp only [Re.exec] at h
    obtain ⟨ov1, t, j, h1, h2⟩ := iha ov s i _ r h
    exact ⟨_, t, j, ⟨ov1, h1, rfl⟩, h2⟩

/-- A greedy run followed by a continuation that cannot fail takes the longest
run. -/
theorem plusFrom_total {R : Type} (p : Char → Bool) (k : List Char → Nat → Option R)
    (hk : ∀ s i, ∃ r, k s i = some r) :
    ∀ (s : List Char) (i : Nat), plusFrom p k s i =
      if s.takeWhile p = [] then none
      else k (s.dropWhile p) (i + (s.takeWhile p).length) := by
  intro s
  induction s with
  | nil => intro i; rfl
  | cons c cs ih =>
    intro i
    simp only [plusFrom]
    by_cases hc : p c = true
    · simp only [hc, if_true, List.takeWhile_cons, List.dropWhile_cons,
        List.cons_ne_nil, if_false, List.length_cons]
      rw [ih (i + 1)]
      by_cases hcs : cs.takeWhile p = []
      · have hd : cs.dropWhile p = cs := by
          cases cs with
          | nil => rfl
          | cons d ds =>
            by_cases hd : p d = true
            · simp [List.takeWhile_cons, hd] at hcs
            · simp [List.dropWhile_cons, hd]
        simp only [hcs, if_true, hd, List.length_nil]
      · simp only [hcs, if_false]
        obtain ⟨r, hr⟩ := hk (cs.dropWhile p) (i + 1 + (cs.takeWhile p).length)
        rw [hr]
        simp only []
        rw [← hr]
        congr 1
        omega
    · simp [hc, List.takeWhile_cons]

theorem regexp_exec_front (ov : List Int) (s : List Char) (i : Nat)
    (k : List Int → List Char → Nat → Option (List Int)) :
    regexp.exec ov s i k = reFront.exec ov s i (fun ov1 s1 i1 => reDesc.exec ov1 s1 i1 k) := rfl

theorem getD_set_ne (l : List Int) (n m : Nat) (v d : Int) (h : n ≠ m) :
    (l.set n v).getD m d = l.getD m d := by
  simp [List.getD_eq_getElem?_getD, List.getElem?_set, h]

theorem getD_set_self (l : List Int) (n : Nat) (v d : Int) (h : n < l.length) :
    (l.set n v).getD n d = v := by
  simp [List.getD_eq_getElem?_getD, List.getElem?_set, h]

theorem matches_frame : ∀ (re : Re) (ov : List Int) (s : List Char) (i : Nat) (ow : List Int)
    (t : List Char) (j : Nat), re.Matches ov s i ow t j →
    ow.length = ov.length ∧ ∀ m, re.sets m = false → ow.getD m (-1) = ov.getD m (-1) := by
  intro re
  induction re with
  | cls p =>
    intro ov s i ow t j h
    obtain ⟨c, _, _, _, h4⟩ := h
    rw [h4]; exact ⟨rfl, fun _ _ => rfl⟩
  | seq a b iha ihb =>
    intro ov s i ow t j h
    obtain ⟨ov1, s1, i1, h1, h2⟩ := h
    obtain ⟨a1, a2⟩ := iha _ _ _ _ _ _ h1
    obtain ⟨b1, b2⟩ := ihb _ _ _ _ _ _ h2
    refine ⟨b1.trans a1, fun m hm => ?_⟩
    simp only [Re.sets, Bool.or_eq_false_iff] at hm
    rw [b2 m hm.2, a2 m hm.1]
  | opt a iha =>
    intro ov s i ow t j h
    rcases h with h | ⟨h, _, _⟩
    · exact iha _ _ _ _ _ _ h
    · rw [h]; exact ⟨rfl, fun _ _ => rfl⟩
  | plus p =>
    intro ov s i ow t j h
    obtain ⟨run, _, _, _, _, h5⟩ := h
    rw [h5]; exact ⟨rfl, fun _ _ => rfl⟩
  | grp n a iha =>
    intro ov s i ow t j h
    obtain ⟨ov1, h1, h2⟩ := h
    obtain ⟨a1, a2⟩ := iha _ _ _ _ _ _ h1
    rw [h2]
    refine ⟨by simp [a1], fun m hm => ?_⟩
    simp only [Re.sets, Bool.or_eq_false_iff, beq_eq_false_iff_ne, ne_eq] at hm
    rw [getD_set_ne _ _ _ _ _ (fun h => hm.1.2 h.symm), getD_set_ne _ _ _ _ _ (fun h => hm.1.1 h.symm)]
    exact a2 m hm.2

theorem matches_suffix : ∀ (re : Re) (ov : List Int) (s : List Char) (i : Nat) (ow : List Int)
    (t : List Char) (j : Nat), re.Matches ov s i ow t j →
    ∃ txt, s = txt ++ t ∧ j = i + txt.length := by
  intro re
  induction re with
  | cls p =>
    intro ov s i ow t j h
    obtain ⟨c, h1, _, h3, _⟩ := h
    exact ⟨[c], h1, h3⟩
  | seq a b iha ihb =>
    intro ov s i ow t j h
    obtain ⟨ov1, s1, i1, h1, h2⟩ := h
    obtain ⟨t1, a1, a2⟩ := iha _ _ _ _ _ _ h1
    obtain ⟨t2, b1, b2⟩ := ihb _ _ _ _ _ _ h2
    exact ⟨t1 ++ t2, by rw [a1, b1, List.append_assoc], by rw [b2, a2, List.length_append]; omega⟩
  | opt a iha =>
    intro ov s i ow t j h
    rcases h with h | ⟨_, h2, h3⟩
    · exact iha _ _ _ _ _ _ h
    · exact ⟨[], by rw [h2]; rfl, by rw [h3]; rfl⟩
  | plus p =>
    intro ov s i ow t j h
    obtain ⟨run, _, _, h3, h4, _⟩ := h
    exact ⟨run, h3, h4⟩
  | grp n a iha =>
    intro ov s i ow t j h
    obtain ⟨ov1, h1, _⟩ := h
    exact iha _ _ _ _ _ _ h1

/-- The description part, followed by the end of the pattern, takes all the
characters up to the first line feed. -/
theorem reDesc_exec (ov : List Int) (s : List Char) (i : Nat) :
    reDesc.exec ov s i (fun ov1 _ i1 => some ((ov1.set 0 0).set 1 i1)) =
      if s.takeWhile reDot = [] then none
      else some ((((ov.set 16 i).set 17 ((i + (s.takeWhile reDot).length : Nat) : Int)).set 0 0).set 1
        ((i + (s.takeWhile reDot).length : Nat) : Int)) := by
  simp only [reDesc, Re.exec]
  rw [plusFrom_total reDot _ (fun s1 i1 => ⟨_, rfl⟩)]

theorem drop_step (line txt t : List Char) (i : Nat) (h : line.drop i = txt ++ t) :
    line.drop (i + txt.length) = t := by
  rw [← List.drop_drop, h, List.drop_left]

theorem take_drop_run (line run t : List Char) (i j : Nat) (h : line.drop i = run ++ t)
    (hj : j = i + run.length) : (line.drop i).take (j - i) = run := by
  rw [h, hj, Nat.add_sub_cancel_left, List.take_left]

theorem final_getD (ov7 ov : List Int) (a b : Int)
    (h : ov = (((ov7.set 16 a).set 17 b).set 0 0).set 1 b) (m : Nat)
    (h0 : m ≠ 0) (h1 : m ≠ 1) (h16 : m ≠ 16) (h17 : m ≠ 17) :
    ov.getD m (-1) = ov7.getD m (-1) := by
  rw [h, getD_set_ne _ _ _ _ _ (Ne.symm h1), getD_set_ne _ _ _ _ _ (Ne.symm h0),
    getD_set_ne _ _ _ _ _ (Ne.symm h17), getD_set_ne _ _ _ _ _ (Ne.symm h16)]

theorem char_of_toNat (c : Char) (n : Nat) (h : c.toNat = n) : c = Char.ofNat n := by
  rw [← h, Char.ofNat_toNat]

theorem take_takeWhile_length (p : Char → Bool) (l : List Char) :
    l.take (l.takeWhile p).length = l.takeWhile p := by
  induction l with
  | nil => rfl
  | cons c cs ih =>
    by_cases hc : p c = true
    · simp [List.takeWhile_cons, hc, ih]
    · simp [List.takeWhile_cons, hc]

theorem takeWhile_all (p : Char → Bool) (l : List Char) (h : ∀ c ∈ l, p c = true) :
    l.takeWhile p = l := by
  induction l with
  | nil => rfl
  | cons c cs ih =>
    simp only [List.takeWhile_cons, h c (List.mem_cons_self _ _), if_true]
    rw [ih (fun d hd => h d (List.mem_cons_of_mem _ hd))]

/-- The offsets that a group made of a run of a class records, and its
text. -/
theorem group_run (line : List Char) (p : Char → Bool) (n : Nat) (ov ow : List Int)
    (s t : List Char) (i j : Nat) (hlen : 2 * n + 1 < ov.length) (hpos : line.drop i = s)
    (h : (Re.grp n (.plus p)).Matches ov s i ow t j) :
    ow.getD (2 * n) (-1) = i ∧ ow.getD (2 * n + 1) (-1) = j ∧
    ∃ run, run ≠ [] ∧ (∀ c ∈ run, p c = true) ∧ line.drop i = run ++ t ∧ j = i + run.length := by
  obtain ⟨ov1, ⟨run, h1, h2, h3, h4, h5⟩, h6⟩ := h
  subst h5
  refine ⟨?_, ?_, run, h1, h2, by rw [hpos, h3], h4⟩
  · rw [h6, getD_set_ne _ _ _ _ _ (by omega), getD_set_self _ _ _ _ (by omega)]
  · rw [h6, getD_set_self _ _ _ _ (by simp; omega)]

theorem span_eq (i n : Nat) : ((i + n : Nat) : Int).toNat - ((i : Nat) : Int).toNat = n := by
  simp only [Int.toNat_ofNat]
  omega

/-- The shape of a match of the header pattern. The return value is 9. The
line starts with a digit. The two offsets of a group are as far apart as the
text of the group is long. The month and day groups are set and are non-empty runs of digits. The year group,
when set, is a run of four digits. The code group, when set, is the text
between an opening parenthesis and the next closing one. The description group
is set and not empty, and on a line without a line feed it is the rest of the
line. -/
theorem pcre_exec_shape (line : List Char) (m : Int) (ov : List Int)
    (h : pcre_exec line = (m, some ov)) :
    m = 9 ∧
    (∃ c rest, line = c :: rest ∧ isdigit c = true) ∧
    (∀ n, n = 2 ∨ n = 3 ∨ n = 4 ∨ n = 7 ∨ n = 8 →
      (ov.getD (2 * n + 1) (-1)).toNat - (ov.getD (2 * n) (-1)).toNat =
        (group line ov n).length) ∧
    (0 ≤ ov.getD 6 (-1) ∧ group line ov 3 ≠ [] ∧ ∀ c ∈ group line ov 3, isdigit c = true) ∧
    (0 ≤ ov.getD 8 (-1) ∧ group line ov 4 ≠ [] ∧ ∀ c ∈ group line ov 4, isdigit c = true) ∧
    (0 ≤ ov.getD 2 (-1) →
      (group line ov 2).length = 4 ∧ ∀ c ∈ group line ov 2, isdigit c = true) ∧
    (0 ≤ ov.getD 12 (-1) → ∃ rest,
      line.drop (ov.getD 12 (-1)).toNat =
        Char.ofNat 40 :: (group line ov 7 ++ Char.ofNat 41 :: rest) ∧
      group line ov 7 ≠ [] ∧ Char.ofNat 41 ∉ group line ov 7) ∧
    (0 ≤ ov.getD 16 (-1) ∧ group line ov 8 ≠ [] ∧
      (NL ∉ line → group line ov 8 = line.drop (ov.getD 16 (-1)).toNat)) := by
  -- the run of the matcher
  unfold pcre_exec at h
  split at h
  case h_2 => simp at h
  rename_i r hexec
  simp only [Prod.mk.injEq, Option.some.injEq] at h
  obtain ⟨hm, hr⟩ := h
  subst hr
  rw [regexp_exec_front] at hexec
  obtain ⟨ov7, s7, i7, hF, hD⟩ := exec_sound _ _ _ _ _ _ hexec
  rw [reDesc_exec] at hD
  split at hD
  · cases hD
  rename_i hne8
  simp only [Option.some.injEq] at hD
  have hfin := final_getD ov7 r _ _ hD.symm
  -- the parts of the pattern
  obtain ⟨ov1, s1, i1, hY, hF⟩ : ∃ ov1 s1 i1, reYear.Matches ovectorUnset line 0 ov1 s1 i1 ∧
    reRest1.Matches ov1 s1 i1 ov7 s7 i7 := hF
  obtain ⟨ov2, s2, i2, hM, hF⟩ : ∃ ov2 s2 i2, (Re.grp 3 (.plus reDigit)).Matches ov1 s1 i1 ov2 s2 i2 ∧
    reRest2.Matches ov2 s2 i2 ov7 s7 i7 := hF
  obtain ⟨ov3, s3, i3, hS, hF⟩ : ∃ ov3 s3 i3, (Re.cls reSep).Matches ov2 s2 i2 ov3 s3 i3 ∧
    reRest3.Matches ov3 s3 i3 ov7 s7 i7 := hF
  obtain ⟨ov4, s4, i4, hDy, hF⟩ : ∃ ov4 s4 i4, (Re.grp 4 (.plus reDigit)).Matches ov3 s3 i3 ov4 s4 i4 ∧
    reRest4.Matches ov4 s4 i4 ov7 s7 i7 := hF
  obtain ⟨ov5, s5, i5, hW, hF⟩ : ∃ ov5 s5 i5, (Re.plus reSpace).Matches ov4 s4 i4 ov5 s5 i5 ∧
    reRest5.Matches ov5 s5 i5 ov7 s7 i7 := hF
  obtain ⟨ov6, s6, i6, hSt, hC⟩ : ∃ ov6 s6 i6, reStar.Matches ov5 s5 i5 ov6 s6 i6 ∧
    reCode.Matches ov6 s6 i6 ov7 s7 i7 := hF
  -- lengths of the match vector
  have l0 : ovectorUnset.length = 18 := rfl
  have fY := matches_frame _ _ _ _ _ _ _ hY
  have fM := matches_frame _ _ _ _ _ _ _ hM
  have fS := matches_frame _ _ _ _ _ _ _ hS
  have fDy := matches_frame _ _ _ _ _ _ _ hDy
  have fW := matches_frame _ _ _ _ _ _ _ hW
  have fSt := matches_frame _ _ _ _ _ _ _ hSt
  have fC := matches_frame _ _ _ _ _ _ _ hC
  have l1 : ov1.length = 18 := fY.1.trans l0
  have l2 : ov2.length = 18 := fM.1.trans l1
  have l3 : ov3.length = 18 := fS.1.trans l2
  have l4 : ov4.length = 18 := fDy.1.trans l3
  have l5 : ov5.length = 18 := fW.1.trans l4
  have l6 : ov6.length = 18 := fSt.1.trans l5
  have l7 : ov7.length = 18 := fC.1.trans l6
  -- positions
  have p0 : line.drop 0 = line := rfl
  obtain ⟨tY, eY, jY⟩ := matches_suffix _ _ _ _ _ _ _ hY
  have p1 : line.drop i1 = s1 := by
    have := drop_step line tY s1 0 (by rw [p0, eY]); rwa [← jY] at this
  obtain ⟨tM, eM, jM⟩ := matches_suffix _ _ _ _ _ _ _ hM
  have p2 : line.drop i2 = s2 := by
    have := drop_step line tM s2 i1 (by rw [p1, eM]); rwa [← jM] at this
  obtain ⟨tS, eS, jS⟩ := matches_suffix _ _ _ _ _ _ _ hS
  have p3 : line.drop i3 = s3 := by
    have := drop_step line tS s3 i2 (by rw [p2, eS]); rwa [← jS] at this
  obtain ⟨tD, eD, jD⟩ := matches_suffix _ _ _ _ _ _ _ hDy
  have p4 : line.drop i4 = s4 := by
    have := drop_step line tD s4 i3 (by rw [p3, eD]); rwa [← jD] at this
  obtain ⟨tW, eW, jW⟩ := matches_suffix _ _ _ _ _ _ _ hW
  have p5 : line.drop i5 = s5 := by
    have := drop_step line tW s5 i4 (by rw [p4, eW]); rwa [← jW] at this
  obtain ⟨tSt, eSt, jSt⟩ := matches_suffix _ _ _ _ _ _ _ hSt
  have p6 : line.drop i6 = s6 := by
    have := drop_step line tSt s6 i5 (by rw [p5, eSt]); rwa [← jSt] at this
  obtain ⟨tC, eC, jC⟩ := matches_suffix _ _ _ _ _ _ _ hC
  have p7 : line.drop i7 = s7 := by
    have := drop_step line tC s7 i6 (by rw [p6, eC]); rwa [← jC] at this
  -- the month
  obtain ⟨m6, m7, runM, hM1, hM2, hM3, hM4⟩ := group_run line reDigit 3 ov1 ov2 s1 s2 i1 i2
    (by omega) p1 hM
  have r6 : r.getD 6 (-1) = i1 := by
    rw [hfin 6 (by decide) (by decide) (by decide) (by decide), fC.2 6 rfl, fSt.2 6 rfl,
      fW.2 6 rfl, fDy.2 6 rfl, fS.2 6 rfl]
    exact m6
  have r7 : r.getD 7 (-1) = i2 := by
    rw [hfin 7 (by decide) (by decide) (by decide) (by decide), fC.2 7 rfl, fSt.2 7 rfl,
      fW.2 7 rfl, fDy.2 7 rfl, fS.2 7 rfl]
    exact m7
  have g3 : group line r 3 = runM := by
    unfold group
    rw [r6, r7]
    exact take_drop_run line runM s2 i1 i2 hM3 hM4
  -- the day
  obtain ⟨d8, d9, runD, hD1, hD2, hD3, hD4⟩ := group_run line reDigit 4 ov3 ov4 s3 s4 i3 i4
    (by omega) p3 hDy
  have r8 : r.getD 8 (-1) = i3 := by
    rw [hfin 8 (by decide) (by decide) (by decide) (by decide), fC.2 8 rfl, fSt.2 8 rfl,
      fW.2 8 rfl]
    exact d8
  have r9 : r.getD 9 (-1) = i4 := by
    rw [hfin 9 (by decide) (by decide) (by decide) (by decide), fC.2 9 rfl, fSt.2 9 rfl,
      fW.2 9 rfl]
    exact d9
  have g4 : group line r 4 = runD := by
    unfold group
    rw [r8, r9]
    exact take_drop_run line runD s4 i3 i4 hD3 hD4
  -- the description
  have r16 : r.getD 16 (-1) = i7 := by
    rw [← hD, getD_set_ne _ _ _ _ _ (by decide), getD_set_ne _ _ _ _ _ (by decide),
      getD_set_ne _ _ _ _ _ (by decide), getD_set_self _ _ _ _ (by omega)]
  have r17 : r.getD 17 (-1) = ((i7 + (s7.takeWhile reDot).length : Nat) : Int) := by
    rw [← hD, getD_set_ne _ _ _ _ _ (by decide), getD_set_ne _ _ _ _ _ (by decide),
      getD_set_self _ _ _ _ (by simp; omega)]
  have g8 : group line r 8 = s7.takeWhile reDot := by
    unfold group
    rw [r16, r17]
    simp only [Int.toNat_ofNat, Nat.add_sub_cancel_left]
    rw [p7]
    exact take_takeWhile_length reDot s7
  -- the year
  have hyear : ((r.getD 5 (-1)).toNat - (r.getD 4 (-1)).toNat = (group line r 2).length ∧
      ∃ c rest, line = c :: rest ∧ isdigit c = true) ∧
      (0 ≤ r.getD 2 (-1) →
      (group line r 2).length = 4 ∧ ∀ c ∈ group line r 2, isdigit c = true) := by
    have e2 : r.getD 2 (-1) = ov1.getD 2 (-1) := by
      rw [hfin 2 (by decide) (by decide) (by decide) (by decide), fC.2 2 rfl, fSt.2 2 rfl,
        fW.2 2 rfl, fDy.2 2 rfl, fS.2 2 rfl, fM.2 2 rfl]
    have e4 : r.getD 4 (-1) = ov1.getD 4 (-1) := by
      rw [hfin 4 (by decide) (by decide) (by decide) (by decide), fC.2 4 rfl, fSt.2 4 rfl,
        fW.2 4 rfl, fDy.2 4 rfl, fS.2 4 rfl, fM.2 4 rfl]
    have e5 : r.getD 5 (-1) = ov1.getD 5 (-1) := by
      rw [hfin 5 (by decide) (by decide) (by decide) (by decide), fC.2 5 rfl, fSt.2 5 rfl,
        fW.2 5 rfl, fDy.2 5 rfl, fS.2 5 rfl, fM.2 5 rfl]
    simp only [reYear, Re.Matches] at hY
    rcases hY with ⟨oa, ⟨ob, sb, ib, ⟨oc, ⟨o1, t1, j1, ⟨c1, q1, dg1, rfl, rfl⟩,
      o2, t2, j2, ⟨c2, q2, dg2, rfl, rfl⟩, o3, t3, j3, ⟨c3, q3, dg3, rfl, rfl⟩,
      c4, q4, dg4, rfl, rfl⟩, rfl⟩, csep, q5, _, rfl, rfl⟩, rfl⟩ | ⟨rfl, hs1, hi1⟩
    · have v4 : r.getD 4 (-1) = 0 := by
        rw [e4, getD_set_ne _ _ _ _ _ (by decide), getD_set_ne _ _ _ _ _ (by decide),
          getD_set_ne _ _ _ _ _ (by decide), getD_set_self _ _ _ _ (by rw [l0]; decide)]
        rfl
      have v5 : r.getD 5 (-1) = 4 := by
        rw [e5, getD_set_ne _ _ _ _ _ (by decide), getD_set_ne _ _ _ _ _ (by decide),
          getD_set_self _ _ _ _ (by simp [l0])]
        rfl
      have g2 : group line r 2 = [c1, c2, c3, c4] := by
        unfold group
        rw [v4, v5, q1, q2, q3, q4]
        rfl
      rw [g2]
      refine ⟨⟨by rw [v4, v5]; rfl, c1, t1, q1, dg1⟩, fun _ => ⟨rfl, ?_⟩⟩
      intro c hc
      simp only [List.mem_cons, List.mem_singleton, List.not_mem_nil, or_false] at hc
      rcases hc with rfl | rfl | rfl | rfl
      · exact dg1
      · exact dg2
      · exact dg3
      · exact dg4
    · have v4 : r.getD 4 (-1) = -1 := by rw [e4]; rfl
      have v5 : r.getD 5 (-1) = -1 := by rw [e5]; rfl
      refine ⟨⟨?_, ?_⟩, fun hpos => ?_⟩
      · unfold group
        rw [v4, v5]
        rfl
      · subst hi1
        have hl : line = runM ++ s2 := by rw [← hM3]; rfl
        cases hrun : runM with
        | nil => exact absurd hrun hM1
        | cons c cs =>
          exact ⟨c, cs ++ s2, by rw [hl, hrun]; rfl, hM2 c (by rw [hrun]; exact List.mem_cons_self _ _)⟩
      · rw [e2] at hpos
        exact absurd hpos (by decide)
  -- the code
  have hcode : (r.getD 15 (-1)).toNat - (r.getD 14 (-1)).toNat = (group line r 7).length ∧
      (0 ≤ r.getD 12 (-1) → ∃ rest,
      line.drop (r.getD 12 (-1)).toNat =
        Char.ofNat 40 :: (group line r 7 ++ Char.ofNat 41 :: rest) ∧
      group line r 7 ≠ [] ∧ Char.ofNat 41 ∉ group line r 7) := by
    simp only [reCode, Re.Matches] at hC
    rcases hC with ⟨oa, ⟨ob, sb, ib, ⟨c1, q1, k1, j1, a1⟩, oc, sc, ic,
      ⟨od, ⟨run, hr1, hr2, q2, j2, a2⟩, a3⟩, oe, se, ie, ⟨c2, q3, k2, j3, a4⟩,
      run2, _, _, q4, _, a5⟩, a6⟩ | ⟨a0, _, _⟩
    · have lob : ob.length = 18 := by rw [a1]; exact l6
      have loa : oa.length = 18 := by
        rw [a5, a4, a3, a2]; simp only [List.length_set]; exact lob
      have v12 : r.getD 12 (-1) = i6 := by
        rw [hfin 12 (by decide) (by decide) (by decide) (by decide), a6,
          getD_set_ne _ _ _ _ _ (by decide), getD_set_self _ _ _ _ (by rw [loa]; decide)]
      have v14 : r.getD 14 (-1) = ib := by
        rw [hfin 14 (by decide) (by decide) (by decide) (by decide), a6,
          getD_set_ne _ _ _ _ _ (by decide), getD_set_ne _ _ _ _ _ (by decide), a5, a4, a3,
          getD_set_ne _ _ _ _ _ (by decide), getD_set_self _ _ _ _ (by rw [a2, lob]; decide)]
      have v15 : r.getD 15 (-1) = ic := by
        rw [hfin 15 (by decide) (by decide) (by decide) (by decide), a6,
          getD_set_ne _ _ _ _ _ (by decide), getD_set_ne _ _ _ _ _ (by decide), a5, a4, a3,
          getD_set_self _ _ _ _ (by simp only [List.length_set]; rw [a2, lob]; decide)]
      have pb : line.drop ib = run ++ sc := by
        have := drop_step line [c1] sb i6 (by rw [p6, q1]; rfl)
        rw [j1]
        simpa [q2] using this
      have g7 : group line r 7 = run := by
        unfold group
        rw [v14, v15]
        exact take_drop_run line run sc ib ic pb j2
      refine ⟨by rw [g7, v14, v15, j2]; exact span_eq _ _, fun _ => ⟨run2 ++ s7, ?_, by rw [g7]; exact hr1, ?_⟩⟩
      · rw [v12, g7]
        simp only [Int.toNat_ofNat]
        rw [p6, q1, q2, q3, q4, char_of_toNat c1 40 (by simpa [reLit] using k1),
          char_of_toNat c2 41 (by simpa [reLit] using k2)]
      · rw [g7]
        intro hmem
        have := hr2 _ hmem
        revert this
        decide
    · have e12 : r.getD 12 (-1) = -1 := by
        rw [hfin 12 (by decide) (by decide) (by decide) (by decide), a0, fSt.2 12 rfl,
          fW.2 12 rfl, fDy.2 12 rfl, fS.2 12 rfl, fM.2 12 rfl, fY.2 12 rfl]
        rfl
      have e14 : r.getD 14 (-1) = -1 := by
        rw [hfin 14 (by decide) (by decide) (by decide) (by decide), a0, fSt.2 14 rfl,
          fW.2 14 rfl, fDy.2 14 rfl, fS.2 14 rfl, fM.2 14 rfl, fY.2 14 rfl]
        rfl
      have e15 : r.getD 15 (-1) = -1 := by
        rw [hfin 15 (by decide) (by decide) (by decide) (by decide), a0, fSt.2 15 rfl,
          fW.2 15 rfl, fDy.2 15 rfl, fS.2 15 rfl, fM.2 15 rfl, fY.2 15 rfl]
        rfl
      refine ⟨?_, fun hpos => ?_⟩
      · unfold group
        rw [e14, e15]
        rfl
      · rw [e12] at hpos
        exact absurd hpos (by decide)
  -- the return value
  have hm9 : m = 9 := by
    have h9 : List.range 9 = [0, 1, 2, 3, 4, 5, 6, 7, 8] := by decide
    rw [h9] at hm
    simp only [List.foldl] at hm
    have h16 : (0 : Int) ≤ r.getD (2 * 8) (-1) := by
      show (0 : Int) ≤ r.getD 16 (-1)
      rw [r16]; exact Int.ofNat_nonneg _
    rw [if_pos h16] at hm
    rw [← hm]; rfl
  refine ⟨hm9, hyear.1.2, ?_, ⟨by rw [r6]; exact Int.ofNat_nonneg _, by rw [g3]; exact hM1,
    by rw [g3]; exact hM2⟩, ⟨by rw [r8]; exact Int.ofNat_nonneg _, by rw [g4]; exact hD1,
    by rw [g4]; exact hD2⟩, hyear.2, hcode.2, by rw [r16]; exact Int.ofNat_nonneg _,
    by rw [g8]; exact hne8, ?_⟩
  · intro n hn
    rcases hn with rfl | rfl | rfl | rfl | rfl
    · exact hyear.1.1
    · show (r.getD 7 (-1)).toNat - (r.getD 6 (-1)).toNat = _
      rw [g3, r6, r7, hM4]; exact span_eq _ _
    · show (r.getD 9 (-1)).toNat - (r.getD 8 (-1)).toNat = _
      rw [g4, r8, r9, hD4]; exact span_eq _ _
    · exact hcode.1
    · show (r.getD 17 (-1)).toNat - (r.getD 16 (-1)).toNat = _
      rw [g8, r16, r17]; exact span_eq _ _
  intro hnl
  rw [g8, r16]
  simp only [Int.toNat_ofNat]
  rw [p7]
  apply takeWhile_all
  intro c hc
  have hcl : c ∈ line := List.mem_of_mem_drop (by rw [p7]; exact hc)
  simp only [reDot, bne_iff_ne, ne_eq]
  intro h
  exact hnl (h ▸ hcl)

end pattern

section fields
variable {A B : Type}

theorem isdigit_not_space (c : Char) (h : isdigit c = true) : isspace c = false := by
  cases hs : isspace c with
  | false => rfl
  | true => rw [isspace_not_digit c hs] at h; cases h

theorem isdigit_not_sign (c : Char) (h : isdigit c = true) (n : Nat) (hn : n = 45 ∨ n = 43) :
    (some c == some (Char.ofNat n)) = false := by
  have hc : c ≠ Char.ofNat n := by
    intro hc
    rw [hc] at h
    rcases hn with rfl | rfl <;> revert h <;> decide
  simp [hc]

/-- On a non-empty text of digits `atoi` yields the number the digits denote,
when an `int` can hold it. -/
theorem atoi_digits (ds : List Char) (hne : ds ≠ []) (hd : ∀ c ∈ ds, isdigit c = true)
    (hv : digitsValue ds ≤ 2147483647) : atoi ds = some (digitsValue ds : Int) := by
  obtain ⟨c, cs, rfl⟩ : ∃ c cs, ds = c :: cs := by
    cases ds with
    | nil => exact absurd rfl hne
    | cons c cs => exact ⟨c, cs, rfl⟩
  have hc := hd c (List.mem_cons_self _ _)
  have h1 : (c :: cs).dropWhile isspace = c :: cs := by
    simp [List.dropWhile_cons, isdigit_not_space c hc]
  have h2 : (c :: cs).takeWhile isdigit = c :: cs := takeWhile_all isdigit _ hd
  unfold atoi
  simp only [h1, List.head?_cons, isdigit_not_sign c hc 45 (Or.inl rfl),
    isdigit_not_sign c hc 43 (Or.inr rfl), Bool.or_self, Bool.false_eq_true, if_false, h2]
  have hin : inInt ((digitsValue (c :: cs) : Nat) : Int) = true := by
    simp only [inInt, Bool.and_eq_true, decide_eq_true_eq]
    omega
  unfold digitsValue at hin ⊢
  rw [if_pos hin]

theorem digitsValue_four (ds : List Char) (hlen : ds.length = 4)
    (hd : ∀ c ∈ ds, isdigit c = true) : digitsValue ds ≤ 9999 := by
  match ds, hlen with
  | [a, b, c, d], _ =>
    have ha := hd a (by simp)
    have hb := hd b (by simp)
    have hc := hd c (by simp)
    have hd' := hd d (by simp)
    simp only [isdigit, Bool.and_eq_true, decide_eq_true_eq] at ha hb hc hd'
    simp only [digitsValue, List.foldl]
    omega

theorem copy_ok (line : List Char) (ov : List Int) (n : Nat) (buf : List Char) (hn : n < 9)
    (hspan : (ov.getD (2 * n + 1) (-1)).toNat - (ov.getD (2 * n) (-1)).toNat =
      (group line ov n).length)
    (hlen : (group line ov n).length < 255) :
    pcre_copy_substring line ov 9 n buf =
      ((((group line ov n).length : Nat) : Int), group line ov n) := by
  unfold pcre_copy_substring
  have h1 : ¬ ((9 : Int) ≤ (n : Int)) := by omega
  simp only [h1, if_false, hspan]
  rw [if_neg (by omega)]
  congr 1
  conv_rhs => unfold group; rw [hspan]

end fields

section fields2
variable {A B : Type}

/-- The header fields stored for a matching line whose month, day, code and
description fit the buffer and whose month and day fit an `int`. -/
theorem fill_entry_fields (line : List Char) (m : Int) (ov : List Int) (cy : Int)
    (e : Entry A) (buf : List Char)
    (hnl : NL ∉ line) (hm : pcre_exec line = (m, some ov))
    (h3 : (group line ov 3).length < 255) (h4 : (group line ov 4).length < 255)
    (h7 : (group line ov 7).length < 255) (h8 : (group line ov 8).length < 255)
    (v3 : digitsValue (group line ov 3) ≤ 2147483647)
    (v4 : digitsValue (group line ov 4) ≤ 2147483647)
    (hy : ov.getD 2 (-1) < 0 → inInt (cy - 1900) = true) :
    fill_entry line ov m cy e buf = .done
      { date := some ⟨(digitsValue (group line ov 4) : Int),
          (digitsValue (group line ov 3) : Int) - 1,
          (if 0 ≤ ov.getD 2 (-1) then (digitsValue (group line ov 2) : Int) else cy) - 1900⟩,
        cleared := if 0 ≤ ov.getD 10 (-1) then true else e.cleared,
        code := if 0 ≤ ov.getD 12 (-1) then group line ov 7 else e.code,
        desc := line.drop (ov.getD 16 (-1)).toNat,
        xacts := e.xacts }
      (line.drop (ov.getD 16 (-1)).toNat) := by
  obtain ⟨hm9, _, hspan, ⟨p6, n3, d3⟩, ⟨p8, n4, d4⟩, hyr, _, p16, _, hdesc⟩ :=
    pcre_exec_shape line m ov hm
  subst hm9
  have hdesc := hdesc hnl
  have c3 := fun b => copy_ok line ov 3 b (by decide) (hspan 3 (by simp)) h3
  have c4 := fun b => copy_ok line ov 4 b (by decide) (hspan 4 (by simp)) h4
  have c7 := fun b => copy_ok line ov 7 b (by decide) (hspan 7 (by simp)) h7
  have c8 := fun b => copy_ok line ov 8 b (by decide) (hspan 8 (by simp)) h8
  have a3 := atoi_digits _ n3 d3 v3
  have a4 := atoi_digits _ n4 d4 v4
  have i3 : inInt ((digitsValue (group line ov 3) : Int) - 1) = true := by
    simp only [inInt, Bool.and_eq_true, decide_eq_true_eq]; omega
  have n6 : ¬ ov.getD 6 (-1) < 0 := by omega
  have n8 : ¬ ov.getD 8 (-1) < 0 := by omega
  have n16 : ¬ ((((group line ov 8).length : Nat) : Int) < 0) := by omega
  rw [← hdesc]
  unfold fill_entry
  by_cases hy2 : 0 ≤ ov.getD 2 (-1)
  · obtain ⟨l2, d2⟩ := hyr hy2
    have b2 := digitsValue_four _ l2 d2
    have c2 := copy_ok line ov 2 buf (by decide) (hspan 2 (by simp)) (by omega)
    have a2 := atoi_digits (group line ov 2) (by intro h; rw [h] at l2; cases l2) d2 (by omega)
    have i2 : inInt ((digitsValue (group line ov 2) : Int) - 1900) = true := by
      simp only [inInt, Bool.and_eq_true, decide_eq_true_eq]; omega
    simp only [if_pos hy2, c2, a2, n6, if_false, c3, a3, n8, c4, a4, i3, i2, Bool.and_self,
      Bool.not_true, Bool.false_eq_true, p16, if_true, c7, c8, n16]
    by_cases h10 : 0 ≤ ov.getD 10 (-1) <;> by_cases h12 : 0 ≤ ov.getD 12 (-1) <;>
      simp only [h10, h12, if_true, if_false]
  · have i2 : inInt (cy - 1900) = true := hy (by omega)
    simp only [if_neg hy2, n6, if_false, c3, a3, n8, c4, a4, i3, i2, Bool.and_self,
      Bool.not_true, Bool.false_eq_true, p16, if_true, c7, c8, n16]
    by_cases h10 : 0 ≤ ov.getD 10 (-1) <;> by_cases h12 : 0 ≤ ov.getD 12 (-1) <;>
      simp only [h10, h12, if_true, if_false]

end fields2

section c10
variable {A B : Type}

/-- The header branch with the test `! matched`, which never holds, and the
test of `curr` before `finalize_entry`, which that function repeats, taken
out. -/
theorem header_unfold (L : Lib A B) (s : State A B) (line : List Char) :
    header L s line =
      match (pcre_exec line).2 with
      | none => .stuck .noMatch
          { finalize_entry L s s.curr with
            heap := (finalize_entry L s s.curr).heap ++ [Entry.fresh],
            curr := some (finalize_entry L s s.curr).heap.length }
      | some ov =>
        match fill_entry line ov (pcre_exec line).1 (finalize_entry L s s.curr).current_year
            (Entry.fresh : Entry A) (finalize_entry L s s.curr).buf with
        | .done e buf => .ok
            { finalize_entry L s s.curr with
              heap := ((finalize_entry L s s.curr).heap ++ [Entry.fresh]).set
                (finalize_entry L s s.curr).heap.length e,
              curr := some (finalize_entry L s s.curr).heap.length, buf := buf }
        | .fault f e buf => .stuck f
            { finalize_entry L s s.curr with
              heap := ((finalize_entry L s s.curr).heap ++ [Entry.fresh]).set
                (finalize_entry L s s.curr).heap.length e,
              curr := some (finalize_entry L s s.curr).heap.length, buf := buf } := by
  unfold header
  simp only [pcre_exec_ne_zero, if_false]
  cases s.curr <;> rfl

/-- C10, as amended. Header field extraction: for every line (without a line
feed, as every line read) that matches the header pattern, whose month, day,
code and description groups are each shorter than 255 characters, whose month
and day are at most 2147483647 and, when there is no year group, with a current
year from which 1900 can be subtracted in an `int`, the iteration opens an
entry with: date (year, month, day) where year is the number of the 4-digit
group if it is set and the current year otherwise, and month and day are the
numbers of their groups (kept as the fields `tm_mday`, `tm_mon + 1` and
`tm_year + 1900` on which `std::mktime` is called);
cleared if and only if the `*` group is set; code the text of the code group,
which is the text between the parentheses, if that group is set and empty
otherwise; description the whole rest of the line; and no postings. -/
theorem header_field_extraction (L : Lib A B) (compute_balances : Bool) (s : State A B)
    (line : List Char) (m : Int) (ov : List Int)
    (hnl : NL ∉ line) (hm : pcre_exec line = (m, some ov))
    (h3 : (group line ov 3).length < 255) (h4 : (group line ov 4).length < 255)
    (h7 : (group line ov 7).length < 255) (h8 : (group line ov 8).length < 255)
    (v3 : digitsValue (group line ov 3) ≤ 2147483647)
    (v4 : digitsValue (group line ov 4) ≤ 2147483647)
    (hy : ov.getD 2 (-1) < 0 → inInt (s.current_year - 1900) = true) :
    ∃ t e, step L compute_balances s line = .ok t ∧
      t.curr = some s.heap.length ∧ t.heap[s.heap.length]? = some e ∧
      e.date = some ⟨(digitsValue (group line ov 4) : Int),
        (digitsValue (group line ov 3) : Int) - 1,
        (if 0 ≤ ov.getD 2 (-1) then (digitsValue (group line ov 2) : Int)
          else s.current_year) - 1900⟩ ∧
      (e.cleared = true ↔ 0 ≤ ov.getD 10 (-1)) ∧
      e.code = (if 0 ≤ ov.getD 12 (-1) then group line ov 7 else []) ∧
      (0 ≤ ov.getD 12 (-1) → ∃ rest, line.drop (ov.getD 12 (-1)).toNat =
        Char.ofNat 40 :: (group line ov 7 ++ Char.ofNat 41 :: rest)) ∧
      e.desc = line.drop (ov.getD 16 (-1)).toNat ∧
      e.xacts = [] := by
  obtain ⟨_, ⟨c, rest, hline, hc⟩, _, _, _, _, hcode, _⟩ := pcre_exec_shape line m ov hm
  have hcnl : c ≠ NL := by
    intro h
    rw [isdigit_not_NL c h] at hc
    cases hc
  have hfr := finalize_entry_frame L s s.curr
  have hfill := fill_entry_fields line m ov (finalize_entry L s s.curr).current_year
    (Entry.fresh : Entry A) (finalize_entry L s s.curr).buf hnl hm h3 h4 h7 h8 v3 v4
    (by rw [hfr.2.2.1]; exact hy)
  have hstep : step L compute_balances s line = header L s line := by
    rw [hline]
    simp only [step, if_neg hcnl, hc, if_true]
  rw [hstep, header_unfold]
  simp only [hm, hfill]
  refine ⟨_, Entry.mk
    (some ⟨(digitsValue (group line ov 4) : Int), (digitsValue (group line ov 3) : Int) - 1,
      (if 0 ≤ ov.getD 2 (-1) then (digitsValue (group line ov 2) : Int)
        else s.current_year) - 1900⟩)
    (if 0 ≤ ov.getD 10 (-1) then true else false)
    (if 0 ≤ ov.getD 12 (-1) then group line ov 7 else [])
    (line.drop (ov.getD 16 (-1)).toNat) [], rfl, ?_, ?_, rfl, ?_, rfl, ?_, rfl, rfl⟩
  · simp only [hfr.1]
  · simp only [hfr.1, hfr.2.2.1, set_append_last]
    rw [List.getElem?_append_right (Nat.le_refl _)]
    simp [Entry.fresh]
  · by_cases h10 : 0 ≤ ov.getD 10 (-1) <;> simp [h10]
  · intro h12
    obtain ⟨r, hr, _⟩ := hcode h12
    exact ⟨r, hr⟩

/-- Witness of C10: the line `2024/03/15 * (123) Coffee` gives the date
(2024, 3, 15), stored as day 15, month 2 counted from 0 and year 124 counted
from 1900, the cleared flag, the code `123` and the description `Coffee`. -/
theorem header_field_extraction_witness :
    (NL ∉ headerSample ∧ pcre_exec headerSample = (9, some headerSampleOv)) ∧
    (∃ t e, step sampleLib true startState headerSample = .ok t ∧
      t.curr = some startState.heap.length ∧ t.heap[startState.heap.length]? = some e ∧
      e.date = some ⟨(digitsValue (group headerSample headerSampleOv 4) : Int),
        (digitsValue (group headerSample headerSampleOv 3) : Int) - 1,
        (if 0 ≤ headerSampleOv.getD 2 (-1)
          then (digitsValue (group headerSample headerSampleOv 2) : Int)
          else startState.current_year) - 1900⟩ ∧
      (e.cleared = true ↔ 0 ≤ headerSampleOv.getD 10 (-1)) ∧
      e.code = (if 0 ≤ headerSampleOv.getD 12 (-1) then group headerSample headerSampleOv 7
        else []) ∧
      (0 ≤ headerSampleOv.getD 12 (-1) → ∃ rest,
        headerSample.drop (headerSampleOv.getD 12 (-1)).toNat =
          Char.ofNat 40 :: (group headerSample headerSampleOv 7 ++ Char.ofNat 41 :: rest)) ∧
      e.desc = headerSample.drop (headerSampleOv.getD 16 (-1)).toNat ∧
      e.xacts = []) ∧
    (step sampleLib true startState headerSample).state.heap =
      [{ date := some ⟨15, 2, 124⟩, cleared := true, code := "123".toList,
         desc := "Coffee".toList, xacts := [] }] ∧
    dateUTC (mktimeUTC ⟨15, 2, 124⟩) = (2024, 3, 15) :=
  ⟨⟨by decide, by decide⟩,
    header_field_extraction sampleLib true startState headerSample 9 headerSampleOv
      (by decide) (by decide) (by decide) (by decide) (by decide) (by decide) (by decide)
      (by decide) (fun h => absurd h (by decide)),
    by decide, by decide⟩

/-- Counterexample to C10 as stated. The line `headerLongCode` matches with a
code of 255 characters between the parentheses, which does not fit `buf`; the
code stored is what `buf` held, the day `1`. The line `headerBigMonth` matches
with a month that no `int` holds, and the run is stuck at `atoi`. After the
directive `Y -2147483648` the header `1/1 x` has no year of its own, and the
run is stuck at `year - 1900`. The line `2024/13/45 x` matches with month 13
and day 45; the date that `std::mktime` gives for these fields, here in the UTC
zone, is 14 February 2025. -/
theorem header_field_extraction_counterexample :
    ((pcre_exec headerLongCode).1 = 9 ∧
      0 ≤ ((pcre_exec headerLongCode).2.getD []).getD 12 (-1) ∧
      group headerLongCode ((pcre_exec headerLongCode).2.getD []) 7 =
        List.replicate 255 (Char.ofNat 99) ∧
      (step sampleLib true startState headerLongCode).state.heap.map (fun e => e.code) =
        ["1".toList]) ∧
    ((pcre_exec headerBigMonth).1 = 9 ∧
      ∃ s, step sampleLib true startState headerBigMonth = .stuck .intRange s) ∧
    ((step sampleLib true startState "Y -2147483648".toList).state.current_year = -2147483648 ∧
      (pcre_exec "1/1 x".toList).1 = 9 ∧
      ∃ s, step sampleLib true { startState with current_year := -2147483648 } "1/1 x".toList =
        .stuck .intRange s) ∧
    ((pcre_exec "2024/13/45 x".toList).1 = 9 ∧
      (step sampleLib true startState "2024/13/45 x".toList).state.heap.map (fun e => e.date) =
        [some ⟨45, 13 - 1, 2024 - 1900⟩] ∧
      dateUTC (mktimeUTC ⟨45, 13 - 1, 2024 - 1900⟩) = (2025, 2, 14)) :=
  ⟨by decide,
    ⟨by decide, (step sampleLib true startState headerBigMonth).state, by decide⟩,
    ⟨by decide, by decide,
      (step sampleLib true { startState with current_year := -2147483648 } "1/1 x".toList).state,
      by decide⟩,
    by decide⟩

end c10

section c6
variable {A B : Type}

theorem atoi_digits_eq (ds : List Char) (hne : ds ≠ []) (hd : ∀ c ∈ ds, isdigit c = true) :
    atoi ds = if inInt (digitsValue ds : Int) then some (digitsValue ds : Int) else none := by
  obtain ⟨c, cs, rfl⟩ : ∃ c cs, ds = c :: cs := by
    cases ds with
    | nil => exact absurd rfl hne
    | cons c cs => exact ⟨c, cs, rfl⟩
  have hc := hd c (List.mem_cons_self _ _)
  have h1 : (c :: cs).dropWhile isspace = c :: cs := by
    simp [List.dropWhile_cons, isdigit_not_space c hc]
  have h2 : (c :: cs).takeWhile isdigit = c :: cs := takeWhile_all isdigit _ hd
  unfold atoi
  simp only [h1, List.head?_cons, isdigit_not_sign c hc 45 (Or.inl rfl),
    isdigit_not_sign c hc 43 (Or.inr rfl), Bool.or_self, Bool.false_eq_true, if_false, h2]
  rfl

theorem cstr_id (l : List Char) (h : NUL ∉ l) : cstr l = l := by
  unfold cstr
  apply takeWhile_all
  intro c hc
  simp only [bne_iff_ne, ne_eq]
  intro hn
  exact h (hn ▸ hc)

theorem isdigit_ne_NUL (c : Char) (h : isdigit c = true) : c ≠ NUL := by
  intro hc
  rw [hc] at h
  revert h
  decide

theorem cstr_directive (ds : List Char) (hd : ∀ c ∈ ds, isdigit c = true) :
    cstr (Char.ofNat 89 :: SP :: ds) = Char.ofNat 89 :: SP :: ds := by
  apply cstr_id
  intro hm
  rcases List.mem_cons.mp hm with hm | hm
  · revert hm; decide
  · rcases List.mem_cons.mp hm with hm | hm
    · revert hm; decide
    · exact isdigit_ne_NUL _ (hd _ hm) rfl

/-- The directive `Y <digits>` sets the current year to the number written,
when an `int` can hold it. -/
theorem step_directive (L : Lib A B) (cb : Bool) (s : State A B) (ds : List Char)
    (hne : ds ≠ []) (hd : ∀ c ∈ ds, isdigit c = true)
    (hv : digitsValue ds ≤ 2147483647) :
    step L cb s (cstr (Char.ofNat 89 :: SP :: ds)) =
      .ok { s with current_year := (digitsValue ds : Int) } := by
  rw [cstr_directive ds hd]
  have h89 : step L cb s (Char.ofNat 89 :: SP :: ds) =
      year_directive s (Char.ofNat 89 :: SP :: ds) := by
    simp only [step]
    rw [if_neg (by decide), if_neg (by decide), if_neg (by decide), if_pos (by decide)]
  have hat : atoi ds = some (digitsValue ds : Int) := atoi_digits ds hne hd hv
  rw [h89]
  unfold year_directive
  rw [if_neg (by simp)]
  simp only [List.drop_succ_cons, List.drop_zero, hat]

/-- An iteration on a line that does not start with `Y` leaves the current
year as it is. -/
theorem step_keeps_year (L : Lib A B) (cb : Bool) (s t : State A B) (line : List Char)
    (hline : line.head? ≠ some (Char.ofNat 89)) (h : step L cb s line = .ok t) :
    t.current_year = s.current_year := by
  cases line with
  | nil =>
    simp only [step, Step.ok.injEq] at h
    rw [← h]
  | cons c cs =>
    have hc : ¬ (c.toNat = 89) := by
      intro h89
      apply hline
      simp only [List.head?_cons, Option.some.injEq]
      exact char_of_toNat c 89 h89
    simp only [step] at h
    split at h
    · simp only [Step.ok.injEq] at h
      rw [← h]
    · split at h
      · obtain ⟨_, _, _, _, _, hy⟩ := header_ok L s t _ h
        exact hy
      · split at h
        · obtain ⟨_, _, _, _, _, _, _, hy⟩ := posting_ok L cb s t _ h
          exact hy
        · simp only [Step.ok.injEq] at h
          rw [← h]

theorem steps_keep_year (L : Lib A B) (cb : Bool) :
    ∀ (mid : List (List Char)) (s t : State A B),
      (∀ l ∈ mid, (cstr l).head? ≠ some (Char.ofNat 89)) →
      steps L cb mid s = some t → t.current_year = s.current_year := by
  intro mid
  induction mid with
  | nil =>
    intro s t _ h
    simp only [steps, Option.some.injEq] at h
    rw [← h]
  | cons l ls ih =>
    intro s t hmid h
    simp only [steps] at h
    split at h
    · cases hs : step L cb (readLine s l) (cstr l) with
      | ok s2 =>
        rw [hs] at h
        rw [ih s2 t (fun l1 h1 => hmid l1 (List.mem_cons_of_mem _ h1)) h,
          step_keeps_year L cb _ s2 (cstr l) (hmid l (List.mem_cons_self _ _)) hs]
        rfl
      | stuck f s2 => rw [hs] at h; cases h
    · cases h

theorem steps_append (L : Lib A B) (cb : Bool) (b : List (List Char)) :
    ∀ (a : List (List Char)) (s t : State A B), steps L cb (a ++ b) s = some t →
      ∃ s1, steps L cb a s = some s1 ∧ steps L cb b s1 = some t := by
  intro a
  induction a with
  | nil => intro s t h; exact ⟨s, rfl, h⟩
  | cons l ls ih =>
    intro s t h
    simp only [List.cons_append, steps] at h ⊢
    split at h
    · rename_i hl
      rw [if_pos hl]
      cases hs : step L cb (readLine s l) (cstr l) with
      | ok s2 => rw [hs] at h; exact ih s2 t h
      | stuck f s2 => rw [hs] at h; cases h
    · cases h

end c6

section c6b
variable {A B : Type}

/-- The date stored for a matching line without a year group whose month and
day fit the buffer, when the header fields are stored to the end. -/
theorem fill_entry_date (line : List Char) (m : Int) (ov : List Int) (cy : Int)
    (e e1 : Entry A) (buf buf1 : List Char)
    (hm : pcre_exec line = (m, some ov)) (hny : ov.getD 2 (-1) < 0)
    (h3 : (group line ov 3).length < 255) (h4 : (group line ov 4).length < 255)
    (h : fill_entry line ov m cy e buf = .done e1 buf1) :
    e1.date = some ⟨(digitsValue (group line ov 4) : Int),
      (digitsValue (group line ov 3) : Int) - 1, cy - 1900⟩ := by
  obtain ⟨hm9, _, hspan, ⟨p6, n3, d3⟩, ⟨p8, n4, d4⟩, _, _, _, _, _⟩ :=
    pcre_exec_shape line m ov hm
  subst hm9
  have c3 := fun b => copy_ok line ov 3 b (by decide) (hspan 3 (by simp)) h3
  have c4 := fun b => copy_ok line ov 4 b (by decide) (hspan 4 (by simp)) h4
  have a3 := atoi_digits_eq _ n3 d3
  have a4 := atoi_digits_eq _ n4 d4
  have n2 : ¬ (0 ≤ ov.getD 2 (-1)) := by omega
  have n6 : ¬ ov.getD 6 (-1) < 0 := by omega
  have n8 : ¬ ov.getD 8 (-1) < 0 := by omega
  unfold fill_entry at h
  simp only [if_neg n2, n6, if_false, c3, a3, n8, c4, a4] at h
  by_cases i3 : inInt (digitsValue (group line ov 3) : Int) = true
  · by_cases i4 : inInt (digitsValue (group line ov 4) : Int) = true
    · simp only [i3, i4, if_true] at h
      repeat' split at h
      all_goals cases h
      all_goals rfl
    · simp only [i3, i4, if_true, if_false] at h
      cases h
  · simp only [i3, if_false] at h
    cases h

end c6b

section c14
variable {A B : Type}

theorem cstr_take_head (l : List Char) (n : Nat) (hn : 0 < n) :
    (cstr (l.take n)).head? = (cstr l).head? := by
  cases l with
  | nil => simp
  | cons c r =>
    cases n with
    | zero => omega
    | succ m =>
      simp only [List.take_succ_cons, cstr, List.takeWhile_cons]
      split <;> rfl

/-- The body of the loop does nothing for a line that is empty or starts with
a character that is neither a digit, nor white space, nor `Y`. -/
theorem step_inert (L : Lib A B) (cb : Bool) (s : State A B) (line : List Char)
    (h : ∀ c, line.head? = some c → isdigit c = false ∧ isspace c = false ∧ c.toNat ≠ 89) :
    step L cb s line = .ok s := by
  cases line with
  | nil => rfl
  | cons c r =>
    obtain ⟨h1, h2, h3⟩ := h c rfl
    simp [step, h1, h2, h3]

/-- C14. Unrecognized and blank lines are inert. Let the C string of a line be
empty or start with a character that is neither a decimal digit, nor white
space, nor the letter `Y`. The body of the loop leaves the state as it is, so
that the iteration changes nothing but the line counter and the array `line`,
into which `getline` has read the line (`readLine`): the entry objects with
their postings, the open entry, the current year, the sequence
`main_ledger.entries`, the account registry, `buf` and what was written to
`std::cerr` are as before. The run goes on with the next line in that state
when the line has at most 1022 characters; a longer line leaves the stream in
its failed state, and the run spins in that same state. -/
theorem unrecognized_line_inert (L : Lib A B) (compute_balances : Bool) (s : State A B)
    (l : List Char) (ls : List (List Char))
    (h : ∀ c, (cstr l).head? = some c → isdigit c = false ∧ isspace c = false ∧ c.toNat ≠ 89) :
    step L compute_balances (readLine s l) (cstr l) =
      .ok (readLine s l) ∧
    (l.length ≤ 1022 →
      steps L compute_balances [l] s = some (readLine s l) ∧
      loop L compute_balances (l :: ls) s =
        loop L compute_balances ls (readLine s l)) ∧
    (1022 < l.length →
      loop L compute_balances (l :: ls) s = .hangs (readLine s l)) := by
  have h1 := step_inert L compute_balances (readLine s l) (cstr l) h
  refine ⟨h1, ?_, ?_⟩
  · intro hl
    simp [steps, loop, hl, h1]
  · intro hl
    have h2 := step_inert L compute_balances (readLine s l)
      (cstr (l.take 1022)) (by rw [cstr_take_head l 1022 (by decide)]; exact h)
    have hn : ¬ l.length ≤ 1022 := by omega
    simp [loop, hn, h2]

/-- Witness of C14: the comment line `; groceries` and the empty line, read
while the entry of `journalFirstPosting` is open, change `linenum` and the
array `line` only. -/
theorem unrecognized_line_inert_witness :
    (step sampleLib true (readLine afterFirstPosting "; groceries".toList)
        (cstr "; groceries".toList) =
      .ok (readLine afterFirstPosting "; groceries".toList) ∧
    ("; groceries".toList.length ≤ 1022 →
      steps sampleLib true ["; groceries".toList] afterFirstPosting =
        some (readLine afterFirstPosting "; groceries".toList) ∧
      loop sampleLib true ("; groceries".toList :: [[]]) afterFirstPosting =
        loop sampleLib true [[]]
          (readLine afterFirstPosting "; groceries".toList)) ∧
    (1022 < "; groceries".toList.length →
      loop sampleLib true ("; groceries".toList :: [[]]) afterFirstPosting =
        .hangs (readLine afterFirstPosting "; groceries".toList))) ∧
    (steps sampleLib true ["; groceries".toList, []] afterFirstPosting =
      some (readLine (readLine afterFirstPosting "; groceries".toList) [])) :=
  ⟨unrecognized_line_inert sampleLib true afterFirstPosting "; groceries".toList [[]]
      (by decide),
    by decide⟩

end c14

section c12
variable {A B : Type}

theorem finalize_entry_erase (L : Lib A B) (s : State A B) (q : Option Nat) :
    eraseAccounts (finalize_entry L s q) = finalize_entry L (eraseAccounts s) q := by
  cases q with
  | none => rfl
  | some p =>
    have hh : (eraseAccounts s).heap = s.heap := rfl
    simp only [finalize_entry, hh]
    cases s.heap[p]? with
    | none => rfl
    | some e => cases hv : L.validate e <;> simp [eraseAccounts, hv]

theorem header_erase (L : Lib A B) (s : State A B) (line : List Char) :
    (header L s line).erase = (header L (eraseAccounts s) line).erase := by
  unfold header
  simp only [pcre_exec_ne_zero, if_false]
  cases hq : s.curr with
  | none =>
    have hq2 : (eraseAccounts s).curr = none := hq
    simp only [hq2]
    cases (pcre_exec line).2 with
    | none => rfl
    | some ov =>
      simp only []
      show Step.erase (match fill_entry line ov (pcre_exec line).1 s.current_year
        (Entry.fresh : Entry A) s.buf with
        | .done e buf => _
        | .fault f e buf => _) = Step.erase (match fill_entry line ov (pcre_exec line).1
          s.current_year (Entry.fresh : Entry A) s.buf with
        | .done e buf => _
        | .fault f e buf => _)
      cases fill_entry line ov (pcre_exec line).1 s.current_year (Entry.fresh : Entry A) s.buf
        <;> rfl
  | some q =>
    have hq2 : (eraseAccounts s).curr = some q := hq
    simp only [hq2, ← finalize_entry_erase]
    generalize finalize_entry L s (some q) = s1
    cases (pcre_exec line).2 with
    | none => rfl
    | some ov =>
      simp only []
      show Step.erase (match fill_entry line ov (pcre_exec line).1 s1.current_year
        (Entry.fresh : Entry A) s1.buf with
        | .done e buf => _
        | .fault f e buf => _) = Step.erase (match fill_entry line ov (pcre_exec line).1
          s1.current_year (Entry.fresh : Entry A) s1.buf with
        | .done e buf => _
        | .fault f e buf => _)
      cases fill_entry line ov (pcre_exec line).1 s1.current_year (Entry.fresh : Entry A) s1.buf
        <;> rfl

theorem record_erase (L : Lib A B) (cb : Bool) (s : State A B) (x : Transaction A) :
    (record L cb s x).erase = (record L false (eraseAccounts s) x).erase := by
  unfold record
  have hc : (eraseAccounts s).curr = s.curr := rfl
  have hh : (eraseAccounts s).heap = s.heap := rfl
  simp only [hc, hh]
  cases s.curr with
  | none => rfl
  | some q =>
    simp only []
    cases s.heap[q]? with
    | none => rfl
    | some e => rfl

theorem posting_erase (L : Lib A B) (cb : Bool) (s : State A B) (line : List Char) :
    (posting L cb s line).erase = (posting L false (eraseAccounts s) line).erase := by
  unfold posting
  have hc : (eraseAccounts s).curr = s.curr := rfl
  have hh : (eraseAccounts s).heap = s.heap := rfl
  simp only [hc, hh]
  split
  · cases s.curr with
    | none => rfl
    | some q =>
      simp only []
      cases s.heap[q]? with
      | none => rfl
      | some e =>
        simp only []
        cases e.xacts.head? with
        | none => rfl
        | some x0 => exact record_erase L cb s _
  · exact record_erase L cb s _

theorem year_directive_erase (s : State A B) (line : List Char) :
    (year_directive s line).erase = (year_directive (eraseAccounts s) line).erase := by
  unfold year_directive
  have hl : (eraseAccounts s).line = s.line := rfl
  rw [hl]
  cases (if line.length < 2 then staleText s.line else some (line.drop 2)) with
  | none => rfl
  | some text =>
    simp only []
    cases atoi text <;> rfl

theorem step_erase (L : Lib A B) (cb : Bool) (s : State A B) (line : List Char) :
    (step L cb s line).erase = (step L false (eraseAccounts s) line).erase := by
  cases line with
  | nil => rfl
  | cons c cs =>
    simp only [step]
    split
    · rfl
    · split
      · exact header_erase L s _
      · split
        · exact posting_erase L cb s _
        · split
          · exact year_directive_erase s _
          · rfl

theorem step_erase_cases (L : Lib A B) (cb : Bool) (s : State A B) (line : List Char) :
    (∃ t u, step L cb s line = .ok t ∧ step L false (eraseAccounts s) line = .ok u ∧
      eraseAccounts t = eraseAccounts u) ∨
    (∃ f t u, step L cb s line = .stuck f t ∧
      step L false (eraseAccounts s) line = .stuck f u ∧
      eraseAccounts t = eraseAccounts u) := by
  have h := step_erase L cb s line
  cases h1 : step L cb s line with
  | ok t =>
    cases h2 : step L false (eraseAccounts s) line with
    | ok u =>
      rw [h1, h2] at h
      exact .inl ⟨t, u, rfl, rfl, by simpa [Step.erase] using h⟩
    | stuck f u => rw [h1, h2] at h; simp [Step.erase] at h
  | stuck f t =>
    cases h2 : step L false (eraseAccounts s) line with
    | ok u => rw [h1, h2] at h; simp [Step.erase] at h
    | stuck f2 u =>
      rw [h1, h2] at h
      simp only [Step.erase, Step.stuck.injEq] at h
      exact .inr ⟨f, t, u, rfl, by rw [h.1], h.2⟩

theorem eraseAccounts_idem (s : State A B) :
    eraseAccounts (eraseAccounts s) = eraseAccounts s := rfl

theorem loop_erase (L : Lib A B) (cb : Bool) :
    ∀ (lines : List (List Char)) (s u : State A B), eraseAccounts s = eraseAccounts u →
      (loop L cb lines s).erase = (loop L false lines u).erase := by
  intro lines
  induction lines with
  | nil =>
    intro s u h
    simp only [loop, Outcome.erase]
    have hc : (eraseAccounts s).curr = (eraseAccounts u).curr := congrArg State.curr h
    replace hc : s.curr = u.curr := hc
    rw [← hc]
    cases s.curr with
    | none => simp [h]
    | some p =>
      simp only [finalize_entry_erase, h]
  | cons l ls ih =>
    intro s u h
    have h1 : eraseAccounts (readLine s l) =
        eraseAccounts (readLine u l) := by
      have := congrArg (fun (t : State A B) => (readLine t l)) h
      exact this
    simp only [loop]
    split
    · rcases step_erase_cases L cb (readLine s l) (cstr l) with
        ⟨t, u1, e1, e2, e3⟩ | ⟨f, t, u1, e1, e2, e3⟩
      · rcases step_erase_cases L false (readLine u l) (cstr l) with
          ⟨t2, u2, e4, e5, e6⟩ | ⟨f2, t2, u2, e4, e5, e6⟩
        · rw [← h1, e2] at e5
          cases e5
          rw [e1, e4]
          exact ih t t2 (e3.trans e6.symm)
        · rw [← h1, e2] at e5
          cases e5
      · rcases step_erase_cases L false (readLine u l) (cstr l) with
          ⟨t2, u2, e4, e5, e6⟩ | ⟨f2, t2, u2, e4, e5, e6⟩
        · rw [← h1, e2] at e5
          cases e5
        · rw [← h1, e2] at e5
          cases e5
          rw [e1, e4]
          simp only [Outcome.erase, Outcome.stuck.injEq, true_and]
          exact e3.trans e6.symm
    · rcases step_erase_cases L cb (readLine s l) (cstr (l.take 1022)) with
        ⟨t, u1, e1, e2, e3⟩ | ⟨f, t, u1, e1, e2, e3⟩
      · rcases step_erase_cases L false (readLine u l)
          (cstr (l.take 1022)) with ⟨t2, u2, e4, e5, e6⟩ | ⟨f2, t2, u2, e4, e5, e6⟩
        · rw [← h1, e2] at e5
          cases e5
          rw [e1, e4]
          simp only [Outcome.erase, Outcome.hangs.injEq]
          exact e3.trans e6.symm
        · rw [← h1, e2] at e5
          cases e5
      · rcases step_erase_cases L false (readLine u l)
          (cstr (l.take 1022)) with ⟨t2, u2, e4, e5, e6⟩ | ⟨f2, t2, u2, e4, e5, e6⟩
        · rw [← h1, e2] at e5
          cases e5
        · rw [← h1, e2] at e5
          cases e5
          rw [e1, e4]
          simp only [Outcome.erase, Outcome.stuck.injEq, true_and]
          exact e3.trans e6.symm

theorem erase_state (r : Outcome A B) : r.erase.state = eraseAccounts r.state := by
  cases r <;> rfl

/-- C12. The flag `compute_balances` does not influence what is committed. The
run with the flag cleared and the run with the flag set, on the same input from
the same globals, end in the same way (both return, or both are stuck with the
same fault, or both spin) in states that differ in the account registry at
most: the same entry objects with the same postings, the same open entry, the
same sequence `main_ledger.entries`, and the same messages on `std::cerr`. -/
theorem compute_balances_irrelevant (L : Lib A B) (host_year : Int) (g : State A B)
    (input : List Char) :
    (parse_ledger L host_year g input false).erase =
      (parse_ledger L host_year g input true).erase ∧
    (parse_ledger L host_year g input false).state.heap =
      (parse_ledger L host_year g input true).state.heap ∧
    (parse_ledger L host_year g input false).state.cerr =
      (parse_ledger L host_year g input true).state.cerr ∧
    (parse_ledger L host_year g input false).state.entries =
      (parse_ledger L host_year g input true).state.entries ∧
    (appended g (parse_ledger L host_year g input false).state =
      appended g (parse_ledger L host_year g input true).state) := by
  have h : (parse_ledger L host_year g input false).erase =
      (parse_ledger L host_year g input true).erase :=
    (loop_erase L true (splitLines input) _ _ rfl).symm
  have hs := congrArg Outcome.state h
  rw [erase_state, erase_state] at hs
  have hh := congrArg State.heap hs
  have hc := congrArg State.cerr hs
  have he := congrArg State.entries hs
  refine ⟨h, hh, hc, he, ?_⟩
  unfold appended
  exact congrArg (fun l => List.drop g.entries.length l) he

end c12

section c13
variable {A B : Type}

theorem grown_refl (L : Lib A B) (a : List (List Char × B)) : Grown L a a :=
  ⟨[], by simp, by simp⟩

theorem grown_trans (L : Lib A B) (a b c : List (List Char × B))
    (h1 : Grown L a b) (h2 : Grown L b c) : Grown L a c := by
  obtain ⟨n1, e1, z1⟩ := h1
  obtain ⟨n2, e2, z2⟩ := h2
  refine ⟨n1 ++ n2, by rw [e2, e1, List.append_assoc], ?_⟩
  intro x hx
  rcases List.mem_append.1 hx with h | h
  · exact z1 x h
  · exact z2 x h

theorem grown_find_account (L : Lib A B) (a : List (List Char × B)) (p : List Char) :
    Grown L a (find_account L.noBalance a p) := by
  unfold find_account
  cases balance_of a p with
  | some b => exact grown_refl L a
  | none => exact ⟨[(p, L.noBalance)], rfl, by simp⟩

theorem balance_of_append_left (a n : List (List Char × B)) (p : List Char) (b : B)
    (h : balance_of a p = some b) : balance_of (a ++ n) p = some b := by
  induction a with
  | nil => cases h
  | cons x xs ih =>
    simp only [List.cons_append, balance_of] at h ⊢
    split
    · rename_i hx; rw [if_pos hx] at h; exact h
    · rename_i hx; rw [if_neg hx] at h; exact ih h

theorem grown_balance (L : Lib A B) (a b : List (List Char × B)) (h : Grown L a b)
    (p : List Char) (v : B) (hv : balance_of a p = some v) : balance_of b p = some v := by
  obtain ⟨n, e, _⟩ := h
  rw [e]
  exact balance_of_append_left a n p v hv

theorem record_grown (L : Lib A B) (s : State A B) (x : Transaction A) :
    Grown L s.accounts (record L false s x).state.accounts ∧
    (balance_of (record L false s x).state.accounts x.acct).isSome = true := by
  have h2 : (balance_of (find_account L.noBalance s.accounts x.acct) x.acct).isSome = true := by
    rw [balance_of_find_account]
    simp
  unfold record
  cases s.curr with
  | none => exact ⟨grown_find_account L _ _, h2⟩
  | some q =>
    simp only []
    cases s.heap[q]? with
    | none => exact ⟨grown_find_account L _ _, h2⟩
    | some e => exact ⟨grown_find_account L _ _, h2⟩

theorem posting_grown (L : Lib A B) (s : State A B) (line : List Char) :
    Grown L s.accounts (posting L false s line).state.accounts ∧
    (∀ t, posting L false s line = .ok t →
      (balance_of t.accounts (next_element (line.dropWhile isspace) true).1).isSome = true) := by
  unfold posting
  simp only []
  split
  · cases s.curr with
    | none => exact ⟨grown_refl L _, fun t h => by cases h⟩
    | some q =>
      simp only []
      cases s.heap[q]? with
      | none => exact ⟨grown_refl L _, fun t h => by cases h⟩
      | some e =>
        simp only []
        cases e.xacts.head? with
        | none => exact ⟨grown_refl L _, fun t h => by cases h⟩
        | some x0 =>
          refine ⟨(record_grown L s _).1, fun t h => ?_⟩
          have := (record_grown L s
            { acct := (next_element (line.dropWhile isspace) true).1,
              cost := L.negate (L.copy x0.cost),
              note := implicitNote (next_element (line.dropWhile isspace) true).2 }).2
          simp only [] at h
          rw [h] at this
          exact this
  · refine ⟨(record_grown L s _).1, fun t h => ?_⟩
    have := (record_grown L s
      { acct := (next_element (line.dropWhile isspace) true).1,
        cost := L.create_amount (costText ((next_element (line.dropWhile isspace) true).2.getD [])),
        note := explicitNote ((next_element (line.dropWhile isspace) true).2.getD []) }).2
    rw [h] at this
    exact this

theorem header_accounts (L : Lib A B) (s : State A B) (line : List Char) :
    (header L s line).state.accounts = s.accounts := by
  unfold header
  simp only [pcre_exec_ne_zero, if_false]
  have hf : ∀ q, (finalize_entry L s q).accounts = s.accounts :=
    fun q => (finalize_entry_frame L s q).2.1
  cases s.curr with
  | none =>
    simp only []
    cases (pcre_exec line).2 with
    | none => rfl
    | some ov =>
      simp only []
      cases fill_entry line ov (pcre_exec line).1 s.current_year (Entry.fresh : Entry A) s.buf
        <;> rfl
  | some q =>
    simp only []
    cases (pcre_exec line).2 with
    | none => exact hf _
    | some ov =>
      simp only []
      cases fill_entry line ov (pcre_exec line).1 (finalize_entry L s (some q)).current_year
          (Entry.fresh : Entry A) (finalize_entry L s (some q)).buf
        <;> exact hf _

theorem year_directive_accounts (s : State A B) (line : List Char) :
    (year_directive s line).state.accounts = s.accounts := by
  unfold year_directive
  split
  · rfl
  · split <;> rfl

theorem step_grown (L : Lib A B) (s : State A B) (line : List Char) :
    Grown L s.accounts (step L false s line).state.accounts := by
  cases line with
  | nil => exact grown_refl L _
  | cons c cs =>
    simp only [step]
    split
    · exact grown_refl L _
    · split
      · rw [header_accounts]; exact grown_refl L _
      · split
        · exact (posting_grown L s _).1
        · split
          · rw [year_directive_accounts]; exact grown_refl L _
          · exact grown_refl L _

theorem loop_grown (L : Lib A B) :
    ∀ (lines : List (List Char)) (s : State A B),
      Grown L s.accounts (loop L false lines s).state.accounts := by
  intro lines
  induction lines with
  | nil =>
    intro s
    simp only [loop, Outcome.state]
    cases s.curr with
    | none => exact grown_refl L _
    | some p => rw [(finalize_entry_frame L s (some p)).2.1]; exact grown_refl L _
  | cons l ls ih =>
    intro s
    simp only [loop]
    split
    · have h := step_grown L (readLine s l) (cstr l)
      cases hs : step L false (readLine s l) (cstr l) with
      | ok s2 =>
        rw [hs] at h
        exact grown_trans L _ _ _ h (ih s2)
      | stuck f s2 => rw [hs] at h; exact h
    · have h := step_grown L (readLine s l) (cstr (l.take 1022))
      cases hs : step L false (readLine s l) (cstr (l.take 1022)) with
      | ok s2 => rw [hs] at h; exact h
      | stuck f s2 => rw [hs] at h; exact h

theorem steps_grown (L : Lib A B) :
    ∀ (lines : List (List Char)) (s t : State A B), steps L false lines s = some t →
      Grown L s.accounts t.accounts := by
  intro lines
  induction lines with
  | nil => intro s t h; cases h; exact grown_refl L _
  | cons l ls ih =>
    intro s t h
    simp only [steps] at h
    split at h
    · have hg := step_grown L (readLine s l) (cstr l)
      cases hs : step L false (readLine s l) (cstr l) with
      | ok s2 =>
        rw [hs] at h hg
        exact grown_trans L _ _ _ hg (ih s2 t h)
      | stuck f s2 => rw [hs] at h; cases h
    · cases h

theorem steps_named (L : Lib A B) :
    ∀ (lines : List (List Char)) (s t : State A B), steps L false lines s = some t →
      ∀ l ∈ lines, isPostingLine l = true →
        (balance_of t.accounts (accountOf l)).isSome = true := by
  intro lines
  induction lines with
  | nil => intro s t _ l hl; cases hl
  | cons l0 ls ih =>
    intro s t h l hl hp
    simp only [steps] at h
    split at h
    · cases hs : step L false (readLine s l0) (cstr l0) with
      | stuck f s2 => rw [hs] at h; cases h
      | ok s2 =>
        rw [hs] at h
        rcases List.mem_cons.1 hl with rfl | hmem
        · have hg := steps_grown L ls s2 t h
          unfold isPostingLine at hp
          cases hc : cstr l with
          | nil => rw [hc] at hp; cases hp
          | cons c r =>
            rw [hc] at hp hs
            simp only [Bool.and_eq_true, bne_iff_ne, ne_eq] at hp
            rw [step_posting L false _ c r hp.2 hp.1] at hs
            have h2 := (posting_grown L (readLine s l) (c :: r)).2 s2 hs
            unfold accountOf
            rw [hc]
            cases hb : balance_of s2.accounts (next_element ((c :: r).dropWhile isspace) true).1 with
            | none => rw [hb] at h2; cases h2
            | some v => rw [grown_balance L _ _ hg _ v hb]; rfl
        · exact ih s2 t h l hmem hp
    · cases h

/-- C13. With `compute_balances` cleared, the run adds accounts to the registry
and changes no balance: in the state in which the run ends, whether it returns
or not, the registry is the registry at the call followed by accounts that have
no balance, so that every account known at the call has the balance it had.
When `parse_ledger` returns, the account path named by each posting line of the
input is in the registry. -/
theorem registry_without_balances (L : Lib A B) (host_year : Int) (g : State A B)
    (input : List Char) :
    (∃ new, (parse_ledger L host_year g input false).state.accounts = g.accounts ++ new ∧
      ∀ a ∈ new, a.2 = L.noBalance) ∧
    (∀ path b, balance_of g.accounts path = some b →
      balance_of (parse_ledger L host_year g input false).state.accounts path = some b) ∧
    (∀ t, parse_ledger L host_year g input false = .returned t →
      ∀ l ∈ splitLines input, isPostingLine l = true →
        (balance_of t.accounts (accountOf l)).isSome = true) := by
  have hg : Grown L g.accounts (parse_ledger L host_year g input false).state.accounts :=
    loop_grown L (splitLines input) { g with curr := none, current_year := host_year }
  refine ⟨hg, fun path b hb => grown_balance L _ _ hg path b hb, ?_⟩
  intro t hret l hl hp
  obtain ⟨s1, hs1, _, hacc⟩ := loop_returned L false (splitLines input) _ t hret
  rw [hacc]
  exact steps_named L (splitLines input) _ s1 hs1 l hl hp

/-- Witness of C13: the run on `journalMixed` with `compute_balances` cleared
returns; the posting line `  Cash  $-4` names the account `Cash`, which is in
the registry with no balance, as is `Expenses`. -/
theorem registry_without_balances_witness :
    (parse_ledger sampleLib 2024 priorState journalMixed false =
        .returned (parse_ledger sampleLib 2024 priorState journalMixed false).state ∧
      "  Cash  $-4".toList ∈ splitLines journalMixed ∧
      isPostingLine "  Cash  $-4".toList = true ∧ accountOf "  Cash  $-4".toList = "Cash".toList) ∧
    (balance_of (parse_ledger sampleLib 2024 priorState journalMixed false).state.accounts
      (accountOf "  Cash  $-4".toList)).isSome = true ∧
    (parse_ledger sampleLib 2024 priorState journalMixed false).state.accounts =
      [("Expenses".toList, []), ("Cash".toList, [])] :=
  ⟨⟨by decide, by decide, by decide, by decide⟩,
    (registry_without_balances sampleLib 2024 priorState journalMixed).2.2 _ (by decide)
      "  Cash  $-4".toList (by decide) (by decide),
    by decide⟩

end c13

section c16
variable {A B : Type}

theorem finalize_entry_linenum (L : Lib A B) (s : State A B) (q : Option Nat) :
    (finalize_entry L s q).linenum = s.linenum := by
  cases q with
  | none => rfl
  | some p =>
    simp only [finalize_entry]
    cases s.heap[p]? with
    | none => rfl
    | some e => cases hv : L.validate e <;> simp [hv]

theorem header_linenum (L : Lib A B) (s : State A B) (line : List Char) :
    (header L s line).state.linenum = s.linenum := by
  unfold header
  simp only [pcre_exec_ne_zero, if_false]
  cases s.curr with
  | none =>
    simp only []
    cases (pcre_exec line).2 with
    | none => rfl
    | some ov =>
      simp only []
      cases fill_entry line ov (pcre_exec line).1 s.current_year (Entry.fresh : Entry A) s.buf
        <;> rfl
  | some q =>
    simp only []
    cases (pcre_exec line).2 with
    | none => exact finalize_entry_linenum L s _
    | some ov =>
      simp only []
      cases fill_entry line ov (pcre_exec line).1 (finalize_entry L s (some q)).current_year
          (Entry.fresh : Entry A) (finalize_entry L s (some q)).buf
        <;> exact finalize_entry_linenum L s _

theorem record_linenum (L : Lib A B) (cb : Bool) (s : State A B) (x : Transaction A) :
    (record L cb s x).state.linenum = s.linenum := by
  unfold record
  cases s.curr with
  | none => rfl
  | some q =>
    simp only []
    cases s.heap[q]? <;> rfl

theorem posting_linenum (L : Lib A B) (cb : Bool) (s : State A B) (line : List Char) :
    (posting L cb s line).state.linenum = s.linenum := by
  unfold posting
  simp only []
  split
  · cases s.curr with
    | none => rfl
    | some q =>
      simp only []
      cases s.heap[q]? with
      | none => rfl
      | some e =>
        simp only []
        cases e.xacts.head? with
        | none => rfl
        | some x0 => exact record_linenum L cb s _
  · exact record_linenum L cb s _

theorem year_directive_linenum (s : State A B) (line : List Char) :
    (year_directive s line).state.linenum = s.linenum := by
  unfold year_directive
  split
  · rfl
  · split <;> rfl

theorem step_linenum (L : Lib A B) (cb : Bool) (s : State A B) (line : List Char) :
    (step L cb s line).state.linenum = s.linenum := by
  cases line with
  | nil => rfl
  | cons c cs =>
    simp only [step]
    split
    · rfl
    · split
      · exact header_linenum L s _
      · split
        · exact posting_linenum L cb s _
        · split
          · exact year_directive_linenum s _
          · rfl

theorem steps_linenum (L : Lib A B) (cb : Bool) :
    ∀ (pre : List (List Char)) (s t : State A B), steps L cb pre s = some t →
      t.linenum = s.linenum + pre.length := by
  intro pre
  induction pre with
  | nil => intro s t h; cases h; simp
  | cons l ls ih =>
    intro s t h
    simp only [steps] at h
    split at h
    · have hl := step_linenum L cb (readLine s l) (cstr l)
      cases hs : step L cb (readLine s l) (cstr l) with
      | ok s2 =>
        rw [hs] at h hl
        rw [ih s2 t h]
        simp only [Step.state] at hl
        rw [hl]
        show s.linenum + 1 + (ls.length : Int) = _
        simp only [List.length_cons]
        push_cast
        ring
      | stuck f s2 => rw [hs] at h; cases h
    · cases h

theorem header_cerr (L : Lib A B) (s : State A B) (line : List Char) (q : Nat) (e : Entry A)
    (hq : s.curr = some q) (hg : s.heap[q]? = some e) (hv : L.validate e = false) :
    (header L s line).state.cerr = s.cerr ++ [Diag.failedToBalance (s.linenum - 1) q e] := by
  have hf : (finalize_entry L s (some q)).cerr =
      s.cerr ++ [Diag.failedToBalance (s.linenum - 1) q e] := by
    simp [finalize_entry, hg, hv]
  unfold header
  simp only [pcre_exec_ne_zero, if_false, hq]
  cases (pcre_exec line).2 with
  | none => exact hf
  | some ov =>
    simp only []
    cases fill_entry line ov (pcre_exec line).1 (finalize_entry L s (some q)).current_year
        (Entry.fresh : Entry A) (finalize_entry L s (some q)).buf
      <;> exact hf

/-- C16, as amended. The line number in the message about an entry that does
not balance. Let the run have read the lines `pre` since the call, and let the
entry `e` that is open then fail `validate()`. When the next line, which is
line number `pre.length + 1` of the input, starts with a digit, the iteration
for it (on the C string `c :: r`, whatever bytes `a` the array `line` holds)
writes one message, for `e`, and the number printed in it is the value of
`linenum` at the call plus `pre.length`: with `linenum` at 0, as it is at the
first call, that is the number of the line before the header. -/
theorem unbalanced_diagnostic_line (L : Lib A B) (compute_balances : Bool) (host_year : Int)
    (g s : State A B) (pre : List (List Char)) (q : Nat) (e : Entry A) (c : Char)
    (r a : List Char)
    (hsteps : steps L compute_balances pre { g with curr := none, current_year := host_year } =
      some s)
    (hq : s.curr = some q) (hg : s.heap[q]? = some e) (hv : L.validate e = false)
    (hd : isdigit c = true) :
    (step L compute_balances { s with linenum := s.linenum + 1, line := a }
        (c :: r)).state.cerr =
      s.cerr ++ [Diag.failedToBalance (g.linenum + pre.length) q e] ∧
    s.linenum + 1 = g.linenum + ((pre.length + 1 : Nat) : Int) := by
  have hl := steps_linenum L compute_balances pre _ s hsteps
  simp only [] at hl
  have hnl : ¬ c = NL := fun h => by
    rw [isdigit_not_NL c h] at hd
    cases hd
  constructor
  · simp only [step, hnl, if_false, hd, if_true]
    rw [header_cerr L { s with linenum := s.linenum + 1, line := a } (c :: r) q e hq hg hv]
    simp only [hl]
    congr 3
    ring
  · rw [hl]
    push_cast
    ring

/-- Witness of C16: in `journalMixed` the entry of lines 1 to 3 does not
balance and the next header is line 4; the message names line 3. -/
theorem unbalanced_diagnostic_line_witness :
    (steps sampleLib true ((splitLines journalMixed).take 3)
        { startState with curr := none, current_year := 2024 } = some mixedAfterThree ∧
      (splitLines journalMixed)[3]? = some (Char.ofNat 50 :: "024/01/02 Rent".toList)) ∧
    ((step sampleLib true
        { mixedAfterThree with
          linenum := mixedAfterThree.linenum + 1,
          line := getline mixedAfterThree.line (Char.ofNat 50 :: "024/01/02 Rent".toList) }
        (Char.ofNat 50 :: "024/01/02 Rent".toList)).state.cerr =
      mixedAfterThree.cerr ++
        [Diag.failedToBalance (startState.linenum + ((splitLines journalMixed).take 3).length) 0
          { date := some ⟨1, 0, 124⟩, cleared := false, code := [], desc := "Lunch".toList,
            xacts := [{ acct := "Expenses".toList, cost := ⟨5, "$".toList⟩, note := [] },
                      { acct := "Cash".toList, cost := ⟨-4, "$".toList⟩, note := [] }] }] ∧
      mixedAfterThree.linenum + 1 =
        startState.linenum + ((((splitLines journalMixed).take 3).length + 1 : Nat) : Int)) ∧
    diagLines (parse_ledger sampleLib 2024 startState journalMixed true).state.cerr = [3] :=
  ⟨⟨by decide, by decide⟩,
    unbalanced_diagnostic_line sampleLib true 2024 startState mixedAfterThree
      ((splitLines journalMixed).take 3) 0 _ (Char.ofNat 50) "024/01/02 Rent".toList
      (getline mixedAfterThree.line (Char.ofNat 50 :: "024/01/02 Rent".toList))
      (by decide) (by decide) (by decide) (by decide) (by decide),
    by decide⟩

/-- Counterexample to C16 as stated. In `journalMixed` the entry of lines 1 to
3 does not balance, and the header that finalizes it is line 4 of the input;
the one message written names line 3 and not line 4. In a later call, made
when `linenum` stands at 6, the message for the same input names line 9. -/
theorem unbalanced_diagnostic_line_counterexample :
    ((splitLines journalMixed).map isHeaderLine = [true, false, false, true, false, false, false] ∧
      (parse_ledger sampleLib 2024 startState journalMixed true).state.cerr =
        [Diag.failedToBalance 3 0
          { date := some ⟨1, 0, 124⟩, cleared := false, code := [], desc := "Lunch".toList,
            xacts := [{ acct := "Expenses".toList, cost := ⟨5, "$".toList⟩, note := [] },
                      { acct := "Cash".toList, cost := ⟨-4, "$".toList⟩, note := [] }] }]) ∧
    diagLines (parse_ledger sampleLib 2024 { startState with linenum := 6 } journalMixed
      true).state.cerr = [9] :=
  ⟨⟨by decide, by decide⟩, by decide⟩

end c16

section c17

/-- C17. Note extraction, at the inputs where the code and the claim part.
The posting `  A  $10 ; lunch` is recorded with the cost text `$10` and the
note `lunch`. For `  A  $10 ;; lunch` the branch for an explicit amount cuts
the cost field at the first `;` and skips white space only, so the note
recorded is `; lunch` and begins with `;`. The branch for an implicit amount
skips `;` and white space alike: `  B  ;; lunch`, read after a first posting,
is recorded with the note `lunch`. -/
theorem explicit_note_keeps_semicolon :
    (afterHeader.curr = some 0 ∧ postingsOf afterHeader = []) ∧
    ((next_element ("  A  $10 ; lunch".toList.dropWhile isspace) true).2 =
        some "$10 ; lunch".toList ∧
      costText "$10 ; lunch".toList = "$10".toList ∧
      postingsOf (step sampleLib true afterHeader "  A  $10 ; lunch".toList).state =
        [("A".toList, ⟨10, "$".toList⟩, "lunch".toList)]) ∧
    ((next_element ("  A  $10 ;; lunch".toList.dropWhile isspace) true).2 =
        some "$10 ;; lunch".toList ∧
      isImplicit (some "$10 ;; lunch".toList) = false ∧
      costText "$10 ;; lunch".toList = "$10".toList ∧
      explicitNote "$10 ;; lunch".toList = "; lunch".toList ∧
      step sampleLib true afterHeader "  A  $10 ;; lunch".toList =
        .ok (step sampleLib true afterHeader "  A  $10 ;; lunch".toList).state ∧
      postingsOf (step sampleLib true afterHeader "  A  $10 ;; lunch".toList).state =
        [("A".toList, ⟨10, "$".toList⟩, "; lunch".toList)]) ∧
    (isImplicit (next_element ("  B  ;; lunch".toList.dropWhile isspace) true).2 = true ∧
      postingsOf (step sampleLib true afterFirstPosting "  B  ;; lunch".toList).state =
        [("A".toList, ⟨10, "$".toList⟩, []), ("B".toList, ⟨-10, "$".toList⟩, "lunch".toList)]) :=
  ⟨by decide, by decide, by decide, by decide⟩

end c17

section c11
variable {A B : Type}

theorem isImplicit_false (o : Option (List Char)) (h : isImplicit o = false) :
    ∃ c r, o = some (c :: r) ∧ c ≠ SEMI := by
  cases o with
  | none => cases h
  | some l =>
    cases l with
    | nil => cases h
    | cons c r =>
      refine ⟨c, r, rfl, ?_⟩
      intro hc
      simp [isImplicit, hc] at h

/-- C11, as amended. A posting line with an explicit amount is recorded
whatever the amount library makes of the cost text. Let an entry be open. For
a line that starts with white space and whose cost field is present, not empty
and does not start with `;`, the iteration ends normally with the same entry
open: one transaction is appended to the open entry, with the result of
`create_amount` for the cost text as its cost; nothing is written to
`std::cerr`; `main_ledger.entries` is as before; and with `compute_balances`
set the cost is credited to the account. -/
theorem explicit_posting_recorded (L : Lib A B) (compute_balances : Bool) (s : State A B)
    (c : Char) (rest : List Char) (q : Nat) (e : Entry A)
    (hsp : isspace c = true) (hnl : c ≠ NL)
    (hq : s.curr = some q) (hg : s.heap[q]? = some e)
    (hexp : isImplicit (next_element ((c :: rest).dropWhile isspace) true).2 = false) :
    ∃ t cost_str, (next_element ((c :: rest).dropWhile isspace) true).2 = some cost_str ∧
      step L compute_balances s (c :: rest) = .ok t ∧
      t.heap = s.heap.set q { e with xacts := e.xacts ++
        [{ acct := (next_element ((c :: rest).dropWhile isspace) true).1,
           cost := L.create_amount (costText cost_str),
           note := explicitNote cost_str }] } ∧
      t.cerr = s.cerr ∧ t.curr = some q ∧ t.entries = s.entries ∧
      t.accounts =
        (if compute_balances then
          credit_account L
            (find_account L.noBalance s.accounts
              (next_element ((c :: rest).dropWhile isspace) true).1)
            (next_element ((c :: rest).dropWhile isspace) true).1
            (L.create_amount (costText cost_str))
        else find_account L.noBalance s.accounts
          (next_element ((c :: rest).dropWhile isspace) true).1) := by
  obtain ⟨d, r, hne, _⟩ := isImplicit_false _ hexp
  rw [step_posting L compute_balances s c rest hsp hnl]
  unfold posting
  simp only [hexp, Bool.false_eq_true, if_false]
  unfold record
  simp only [hq, hg, hne, Option.getD_some]
  exact ⟨_, _, rfl, rfl, rfl, rfl, rfl, rfl, rfl⟩

/-- Witness of C11: the line `  A  abc`, whose cost text the amount parser
does not accept, read after the header `2024/01/01 Lunch`. -/
theorem explicit_posting_recorded_witness :
    ∃ t cost_str, (next_element ("  A  abc".toList.dropWhile isspace) true).2 = some cost_str ∧
      step sampleLib true afterHeader "  A  abc".toList = .ok t ∧
      t.heap = afterHeader.heap.set 0
        { ({ date := some ⟨1, 0, 124⟩, cleared := false, code := [], desc := "Lunch".toList,
             xacts := [] } : Entry Amount) with xacts := [] ++
        [{ acct := (next_element ("  A  abc".toList.dropWhile isspace) true).1,
           cost := sampleLib.create_amount (costText cost_str),
           note := explicitNote cost_str }] } ∧
      t.cerr = afterHeader.cerr ∧ t.curr = some 0 ∧ t.entries = afterHeader.entries ∧
      t.accounts =
        (if true = true then
          credit_account sampleLib
            (find_account sampleLib.noBalance afterHeader.accounts
              (next_element ("  A  abc".toList.dropWhile isspace) true).1)
            (next_element ("  A  abc".toList.dropWhile isspace) true).1
            (sampleLib.create_amount (costText cost_str))
        else find_account sampleLib.noBalance afterHeader.accounts
          (next_element ("  A  abc".toList.dropWhile isspace) true).1) :=
  explicit_posting_recorded sampleLib true afterHeader (Char.ofNat 32) " A  abc".toList 0
    { date := some ⟨1, 0, 124⟩, cleared := false, code := [], desc := "Lunch".toList,
      xacts := [] }
    (by decide) (by decide) (by decide) (by decide) (by decide)

/-- Counterexample to C11 as stated. The amount parser does not accept the
cost text `abc`. The line `  A  abc`, read after the header
`2024/01/01 Lunch`, writes nothing to `std::cerr`; a posting to `A` is recorded
in the open entry, and the account `A`, which did not exist, has been
credited. -/
theorem explicit_posting_recorded_counterexample :
    (next_element ("  A  abc".toList.dropWhile isspace) true).2 = some "abc".toList ∧
    costText "abc".toList = "abc".toList ∧
    Amount.accepted "abc".toList = false ∧ Amount.accepted "$10".toList = true ∧
    postingsOf afterHeader = [] ∧ afterHeader.accounts = [] ∧
    step sampleLib true afterHeader "  A  abc".toList =
      .ok (step sampleLib true afterHeader "  A  abc".toList).state ∧
    (step sampleLib true afterHeader "  A  abc".toList).state.cerr = afterHeader.cerr ∧
    postingsOf (step sampleLib true afterHeader "  A  abc".toList).state =
      [("A".toList, ⟨0, "abc".toList⟩, [])] ∧
    (step sampleLib true afterHeader "  A  abc".toList).state.accounts =
      [("A".toList, [⟨0, "abc".toList⟩])] :=
  ⟨by decide, by decide, by decide, by decide, by decide, by decide, by decide, by decide,
    by decide, by decide⟩

end c11

section c19
variable {A B : Type}

theorem dropWhile_head {α : Type} (p : α → Bool) :
    ∀ (l : List α) (d : α) (r : List α), l.dropWhile p = d :: r → p d = false := by
  intro l
  induction l with
  | nil => intro d r h; cases h
  | cons x xs ih =>
    intro d r h
    simp only [List.dropWhile_cons] at h
    split at h
    · exact ih d r h
    · rename_i hx
      cases h
      simpa using hx

theorem dropWhile_append_last {α : Type} (p : α → Bool) (d : α) (hd : p d = false) :
    ∀ l : List α, (l ++ [d]).dropWhile p = l.dropWhile p ++ [d] := by
  intro l
  induction l with
  | nil => simp [List.dropWhile, hd]
  | cons x xs ih =>
    simp only [List.cons_append, List.dropWhile_cons]
    split
    · exact ih
    · rfl

theorem trimTrailing_cons (d : Char) (r : List Char) (hd : isspace d = false) :
    trimTrailing (d :: r) = d :: trimTrailing r := by
  simp [trimTrailing, dropWhile_append_last isspace d hd]

theorem trimTrailing_snoc (l : List Char) (ch : Char) :
    trimTrailing (l ++ [ch]) = if isspace ch then trimTrailing l else l ++ [ch] := by
  simp only [trimTrailing, List.reverse_append, List.reverse_singleton, List.singleton_append,
    List.dropWhile_cons]
  split
  · rfl
  · simp

theorem trimTrailing_last (l : List Char) (z : Char)
    (h : (trimTrailing l).getLast? = some z) : isspace z = false := by
  simp only [trimTrailing, List.getLast?_reverse] at h
  cases hdw : l.reverse.dropWhile isspace with
  | nil => rw [hdw] at h; cases h
  | cons a b =>
    rw [hdw] at h
    simp only [List.head?_cons, Option.some.injEq] at h
    rw [← h]
    exact dropWhile_head isspace _ a b hdw

theorem mem_trimTrailing (l : List Char) (x : Char) (h : x ∈ trimTrailing l) : x ∈ l := by
  simp only [trimTrailing, List.mem_reverse] at h
  have := (List.dropWhile_suffix isspace).subset h
  simpa using this

/-- The trimming loop stops inside the text exactly when the part of the text
it walks over holds a character that is not white space, and then leaves the
text without its trailing white space. -/
theorem trimFrom_eq (text : List Char) :
    ∀ k, k ≤ text.length →
      trimFrom text k =
        if (text.take k).all isspace then none else some (trimTrailing (text.take k)) := by
  intro k
  induction k with
  | zero => intro _; simp [trimFrom]
  | succ k ih =>
    intro hk
    have hlt : k < text.length := hk
    have htk : text.take (k + 1) = text.take k ++ [text[k]] := by
      rw [List.take_succ]
      simp [List.getElem?_eq_getElem hlt]
    simp only [trimFrom, List.getElem?_eq_getElem hlt]
    rw [htk, trimTrailing_snoc, List.all_append]
    cases hsp : isspace text[k] with
    | true =>
      simp only [if_true]
      rw [ih (Nat.le_of_lt hlt)]
      simp [hsp]
    | false =>
      simp [hsp]

theorem beforeNote_cons (d : Char) (r : List Char) (hd : d ≠ SEMI) :
    beforeNote (d :: r) = d :: beforeNote r := by
  simp [beforeNote, List.takeWhile_cons, hd]

/-- C19. The explicit-amount branch never trims past the start of the cost
text. Let a line start with white space and reach the branch for an explicit
amount. Then the cost field is present and starts with a character that is
neither white space nor `;`. The trimming loop, run on the cost field cut at
its first `;`, stops inside the text, at the first character at the latest
(`trimLoop` yields a text), and what it leaves is the text that
`create_amount` is called with. That text starts with the first character of
the cost field, so it is not empty and has no leading white space; it does not
end in white space; and it holds no `;`. -/
theorem explicit_cost_text (c : Char) (rest : List Char)
    (hsp : isspace c = true) (hnl : c ≠ NL)
    (hexp : isImplicit (next_element ((c :: rest).dropWhile isspace) true).2 = false) :
    ∃ d r, (next_element ((c :: rest).dropWhile isspace) true).2 = some (d :: r) ∧
      isspace d = false ∧ d ≠ SEMI ∧
      trimLoop (beforeNote (d :: r)) = some (costText (d :: r)) ∧
      (costText (d :: r)).head? = some d ∧
      (∀ z, (costText (d :: r)).getLast? = some z → isspace z = false) ∧
      SEMI ∉ costText (d :: r) ∧
      (∀ (A B : Type) (L : Lib A B) (cb : Bool) (s : State A B),
        step L cb s (c :: rest) = record L cb s
          { acct := (next_element ((c :: rest).dropWhile isspace) true).1,
            cost := L.create_amount (costText (d :: r)),
            note := explicitNote (d :: r) }) := by
  obtain ⟨d, r, hne, hsemi⟩ := isImplicit_false _ hexp
  have hd : isspace d = false := by
    have h2 := hne
    unfold next_element at h2
    simp only [if_true] at h2
    cases hsd : splitDouble (tabsToSpaces ((c :: rest).dropWhile isspace)) with
    | none => rw [hsd] at h2; cases h2
    | some pr =>
      rw [hsd] at h2
      simp only [Option.some.injEq] at h2
      exact dropWhile_head isspace _ d r h2
  have hb : beforeNote (d :: r) = d :: beforeNote r := beforeNote_cons d r hsemi
  have hct : costText (d :: r) = d :: trimTrailing (beforeNote r) := by
    unfold costText
    rw [hb, trimTrailing_cons d _ hd]
  refine ⟨d, r, hne, hd, hsemi, ?_, ?_, ?_, ?_, ?_⟩
  · unfold trimLoop
    rw [trimFrom_eq _ _ (Nat.le_refl _), List.take_length, hb]
    simp only [List.all_cons, hd, Bool.false_and, Bool.false_eq_true, if_false]
    rw [← hb]
    rfl
  · rw [hct]; rfl
  · intro z hz
    exact trimTrailing_last _ z hz
  · rw [hct]
    intro hmem
    rcases List.mem_cons.1 hmem with h | h
    · exact hsemi h.symm
    · have h1 := mem_trimTrailing _ _ h
      have h2 := List.mem_takeWhile_imp h1
      simp [SEMI] at h2
  · intro A B L cb s
    rw [step_posting L cb s c rest hsp hnl]
    have hexp2 : isImplicit (some (d :: r)) = false := by rw [← hne]; exact hexp
    unfold posting
    simp only [hne, hexp2, Bool.false_eq_true, if_false, Option.getD_some]

/-- Witness of C19: the line `  A  $10  ; lunch`. The cost field is
`$10  ; lunch`, the loop trims `$10  ` to `$10`. -/
theorem explicit_cost_text_witness :
    (∃ d r, (next_element ("  A  $10  ; lunch".toList.dropWhile isspace) true).2 =
        some (d :: r) ∧
      isspace d = false ∧ d ≠ SEMI ∧
      trimLoop (beforeNote (d :: r)) = some (costText (d :: r)) ∧
      (costText (d :: r)).head? = some d ∧
      (∀ z, (costText (d :: r)).getLast? = some z → isspace z = false) ∧
      SEMI ∉ costText (d :: r) ∧
      (∀ (A B : Type) (L : Lib A B) (cb : Bool) (s : State A B),
        step L cb s (Char.ofNat 32 :: " A  $10  ; lunch".toList) = record L cb s
          { acct := (next_element ("  A  $10  ; lunch".toList.dropWhile isspace) true).1,
            cost := L.create_amount (costText (d :: r)),
            note := explicitNote (d :: r) })) ∧
    beforeNote "$10  ; lunch".toList = "$10  ".toList ∧
    trimLoop "$10  ".toList = some "$10".toList ∧
    trimLoop "   ".toList = none :=
  ⟨explicit_cost_text (Char.ofNat 32) " A  $10  ; lunch".toList (by decide) (by decide)
      (by decide),
    by decide, by decide, by decide⟩

end c19

section c18
variable {A B : Type}

/-- The iteration for a posting line with an explicit amount, read while an
entry is open. -/
theorem posting_explicit (L : Lib A B) (cb : Bool) (s : State A B)
    (c : Char) (rest : List Char) (q : Nat) (e : Entry A)
    (hsp : isspace c = true) (hnl : c ≠ NL)
    (hq : s.curr = some q) (hg : s.heap[q]? = some e)
    (hexp : isImplicit (next_element ((c :: rest).dropWhile isspace) true).2 = false) :
    ∃ t cost_str, (next_element ((c :: rest).dropWhile isspace) true).2 = some cost_str ∧
      step L cb s (c :: rest) = .ok t ∧
      t.heap = s.heap.set q { e with xacts := e.xacts ++
        [{ acct := (next_element ((c :: rest).dropWhile isspace) true).1,
           cost := L.create_amount (costText cost_str),
           note := explicitNote cost_str }] } ∧
      t.cerr = s.cerr ∧ t.curr = some q ∧ t.entries = s.entries := by
  obtain ⟨d, r, hne, _⟩ := isImplicit_false _ hexp
  rw [step_posting L cb s c rest hsp hnl]
  unfold posting
  simp only [hexp, Bool.false_eq_true, if_false]
  unfold record
  simp only [hq, hg, hne, Option.getD_some]
  exact ⟨_, _, rfl, rfl, rfl, rfl, rfl, rfl⟩

/-- The iteration for a posting line with an implicit amount, read while an
entry that has a posting is open. -/
theorem posting_implicit (L : Lib A B) (cb : Bool) (s : State A B)
    (c : Char) (rest : List Char) (q : Nat) (e : Entry A) (x0 : Transaction A)
    (xs : List (Transaction A))
    (hsp : isspace c = true) (hnl : c ≠ NL)
    (hq : s.curr = some q) (hg : s.heap[q]? = some e) (hx : e.xacts = x0 :: xs)
    (himp : isImplicit (next_element ((c :: rest).dropWhile isspace) true).2 = true) :
    ∃ t, step L cb s (c :: rest) = .ok t ∧
      t.heap = s.heap.set q { e with xacts := x0 :: (xs ++
        [{ acct := (next_element ((c :: rest).dropWhile isspace) true).1,
           cost := L.negate (L.copy x0.cost),
           note := implicitNote (next_element ((c :: rest).dropWhile isspace) true).2 }]) } ∧
      t.cerr = s.cerr ∧ t.curr = some q ∧ t.entries = s.entries := by
  rw [step_posting L cb s c rest hsp hnl]
  unfold posting
  simp only [himp, if_true, hq, hg, hx, List.head?_cons]
  unfold record
  simp only [hq, hg, hx, List.cons_append]
  exact ⟨_, rfl, rfl, rfl, rfl, rfl⟩

theorem getElem?_set_self_of_some {α : Type} (l : List α) (q : Nat) (a b : α)
    (h : l[q]? = some a) : (l.set q b)[q]? = some b := by
  have hlt : q < l.length := by
    by_contra hge
    rw [List.getElem?_eq_none (Nat.le_of_not_lt hge)] at h
    cases h
  simp [List.getElem?_set, hlt]

theorem commoditySum_cons (cm : List Char) (x : Transaction Amount)
    (xs : List (Transaction Amount)) :
    commoditySum cm (x :: xs) =
      (if x.cost.commodity = cm then x.cost.quantity else 0) + commoditySum cm xs := by
  unfold commoditySum
  by_cases h : x.cost.commodity = cm
  · simp [List.filter_cons, h]
  · simp [List.filter_cons, h]

theorem commoditySum_append (cm : List Char) (xs ys : List (Transaction Amount)) :
    commoditySum cm (xs ++ ys) = commoditySum cm xs + commoditySum cm ys := by
  unfold commoditySum
  simp [List.filter_append, List.map_append, List.sum_append]

theorem commoditySum_ne_zero (cm : List Char) :
    ∀ xs : List (Transaction Amount), commoditySum cm xs ≠ 0 →
      ∃ x ∈ xs, x.cost.commodity = cm := by
  intro xs
  induction xs with
  | nil => intro h; exact absurd rfl h
  | cons x xs ih =>
    intro h
    rw [commoditySum_cons] at h
    by_cases hx : x.cost.commodity = cm
    · exact ⟨x, List.mem_cons_self _ _, hx⟩
    · rw [if_neg hx, zero_add] at h
      obtain ⟨y, hy, hc⟩ := ih h
      exact ⟨y, List.mem_cons_of_mem _ hy, hc⟩

/-- With the negated first cost appended, the sums per commodity of an entry
are those of the postings between the first and the last. -/
theorem commoditySum_closed (cm : List Char) (x0 xn : Transaction Amount)
    (rest : List (Transaction Amount)) (hn : xn.cost = Amount.negate x0.cost) :
    commoditySum cm (x0 :: (rest ++ [xn])) = commoditySum cm rest := by
  rw [commoditySum_cons, commoditySum_append, commoditySum_cons, hn]
  simp only [Amount.negate, commoditySum]
  by_cases h : x0.cost.commodity = cm
  · simp [h]
  · simp [h]

theorem validate_closed (e : Entry Amount) (x0 xn : Transaction Amount)
    (rest : List (Transaction Amount)) (hn : xn.cost = Amount.negate x0.cost) :
    validateEntry { e with xacts := x0 :: (rest ++ [xn]) } = true ↔
      ∀ cm, commoditySum cm rest = 0 := by
  unfold validateEntry
  simp only [List.all_eq_true, beq_iff_eq, commoditySum_closed _ x0 xn rest hn]
  constructor
  · intro h cm
    by_contra hne
    obtain ⟨y, hy, hc⟩ := commoditySum_ne_zero cm rest hne
    have := h y (List.mem_cons_of_mem _ (List.mem_append_left _ hy))
    rw [hc] at this
    exact hne this
  · intro h x _
    exact h _

theorem finalize_entry_valid (L : Lib A B) (s : State A B) (q : Nat) (e : Entry A)
    (hg : s.heap[q]? = some e) (hv : L.validate e = true) :
    (finalize_entry L s (some q)).entries = s.entries ++ [q] ∧
    (finalize_entry L s (some q)).cerr = s.cerr := by
  simp [finalize_entry, hg, hv]

/-- C18. An entry of an explicit posting followed by an implicit one always
commits; a longer one commits when the postings in between cancel. The amount
library is `sampleLib`.

First part: let an entry without postings be open, and let a posting line with
an explicit amount be followed by one with an implicit amount. Both iterations
end normally; the entry then has two postings, with costs `c`, the amount of
the cost text, and `c` negated; it passes `validate()`, and `finalize_entry`
appends it to `main_ledger.entries` and writes no message.

Second part: let the open entry have the postings `x0 :: rest`. A posting line
with an implicit amount appends a posting whose cost is the cost of `x0`
negated, and the entry passes `validate()` if and only if the costs of `rest`
sum to zero in every commodity (which they do when `rest` is empty). -/
theorem implicit_closes_entry :
    (∀ (cb : Bool) (s : State Amount (List Amount)) (q : Nat) (e : Entry Amount)
      (c1 : Char) (r1 : List Char) (c2 : Char) (r2 : List Char),
      isspace c1 = true → c1 ≠ NL → isspace c2 = true → c2 ≠ NL →
      s.curr = some q → s.heap[q]? = some e → e.xacts = [] →
      isImplicit (next_element ((c1 :: r1).dropWhile isspace) true).2 = false →
      isImplicit (next_element ((c2 :: r2).dropWhile isspace) true).2 = true →
      ∃ t1 t2 cost_str a1 n1 a2 n2,
        (next_element ((c1 :: r1).dropWhile isspace) true).2 = some cost_str ∧
        step sampleLib cb s (c1 :: r1) = .ok t1 ∧ step sampleLib cb t1 (c2 :: r2) = .ok t2 ∧
        t2.curr = some q ∧
        t2.heap[q]? = some { e with xacts :=
          [{ acct := a1, cost := Amount.parse (costText cost_str), note := n1 },
           { acct := a2, cost := Amount.negate (Amount.parse (costText cost_str)),
             note := n2 }] } ∧
        validateEntry { e with xacts :=
          [{ acct := a1, cost := Amount.parse (costText cost_str), note := n1 },
           { acct := a2, cost := Amount.negate (Amount.parse (costText cost_str)),
             note := n2 }] } = true ∧
        (finalize_entry sampleLib t2 (some q)).entries = t2.entries ++ [q] ∧
        (finalize_entry sampleLib t2 (some q)).cerr = t2.cerr ∧
        t2.entries = s.entries ∧ t2.cerr = s.cerr) ∧
    (∀ (cb : Bool) (s : State Amount (List Amount)) (q : Nat) (e : Entry Amount)
      (x0 : Transaction Amount) (rest : List (Transaction Amount)) (c : Char) (r : List Char),
      isspace c = true → c ≠ NL →
      s.curr = some q → s.heap[q]? = some e → e.xacts = x0 :: rest →
      isImplicit (next_element ((c :: r).dropWhile isspace) true).2 = true →
      ∃ t xn, step sampleLib cb s (c :: r) = .ok t ∧ t.curr = some q ∧
        t.heap[q]? = some { e with xacts := x0 :: (rest ++ [xn]) } ∧
        xn.cost = Amount.negate x0.cost ∧
        (validateEntry { e with xacts := x0 :: (rest ++ [xn]) } = true ↔
          ∀ cm, commoditySum cm rest = 0)) := by
  constructor
  · intro cb s q e c1 r1 c2 r2 hs1 hn1 hs2 hn2 hq hg hx hexp himp
    obtain ⟨t1, cost_str, hne, hst1, hh1, hc1, hq1, he1⟩ :=
      posting_explicit sampleLib cb s c1 r1 q e hs1 hn1 hq hg hexp
    rw [hx, List.nil_append] at hh1
    have hg1 := getElem?_set_self_of_some s.heap q e
      { e with xacts := [{ acct := (next_element ((c1 :: r1).dropWhile isspace) true).1,
                           cost := sampleLib.create_amount (costText cost_str),
                           note := explicitNote cost_str }] } hg
    rw [← hh1] at hg1
    obtain ⟨t2, hst2, hh2, hc2, hq2, he2⟩ :=
      posting_implicit sampleLib cb t1 c2 r2 q _ _ [] hs2 hn2 hq1 hg1 rfl himp
    have hg2 := getElem?_set_self_of_some t1.heap q _
      { e with xacts := [{ acct := (next_element ((c1 :: r1).dropWhile isspace) true).1,
                           cost := Amount.parse (costText cost_str),
                           note := explicitNote cost_str },
          { acct := (next_element ((c2 :: r2).dropWhile isspace) true).1,
            cost := Amount.negate (Amount.parse (costText cost_str)),
            note := implicitNote (next_element ((c2 :: r2).dropWhile isspace) true).2 }] } hg1
    have hh2b : t2.heap[q]? = some { e with xacts :=
        [{ acct := (next_element ((c1 :: r1).dropWhile isspace) true).1,
           cost := Amount.parse (costText cost_str),
           note := explicitNote cost_str },
         { acct := (next_element ((c2 :: r2).dropWhile isspace) true).1,
           cost := Amount.negate (Amount.parse (costText cost_str)),
           note := implicitNote (next_element ((c2 :: r2).dropWhile isspace) true).2 }] } := by
      rw [hh2]
      exact hg2
    have hv : validateEntry { e with xacts :=
        [{ acct := (next_element ((c1 :: r1).dropWhile isspace) true).1,
           cost := Amount.parse (costText cost_str),
           note := explicitNote cost_str },
         { acct := (next_element ((c2 :: r2).dropWhile isspace) true).1,
           cost := Amount.negate (Amount.parse (costText cost_str)),
           note := implicitNote (next_element ((c2 :: r2).dropWhile isspace) true).2 }] } =
        true :=
      (validate_closed e _ _ [] rfl).2 (fun cm => rfl)
    have hf := finalize_entry_valid sampleLib t2 q _ hh2b hv
    exact ⟨t1, t2, cost_str, _, _, _, _, hne, hst1, hst2, hq2, hh2b, hv, hf.1, hf.2,
      he2.trans he1, hc2.trans hc1⟩
  · intro cb s q e x0 rest c r hs hn hq hg hx himp
    obtain ⟨t, hst, hh, _, hq2, _⟩ :=
      posting_implicit sampleLib cb s c r q e x0 rest hs hn hq hg hx himp
    refine ⟨t, { acct := (next_element ((c :: r).dropWhile isspace) true).1,
                 cost := Amount.negate x0.cost,
                 note := implicitNote (next_element ((c :: r).dropWhile isspace) true).2 },
      hst, hq2, ?_, rfl, validate_closed e x0 _ rest rfl⟩
    rw [hh]
    exact getElem?_set_self_of_some s.heap q e _ hg

/-- Witness of C18: after the header `2024/01/01 Lunch` the lines `  A  $10`
and `  B` give an entry with the costs `$10` and `$-10`, which the end of the
input commits; after `  A  $10` and `  C  $5` the line `  B` gives an entry
that does not validate, the costs in between being `$5`. -/
theorem implicit_closes_entry_witness :
    (∃ t1 t2 cost_str a1 n1 a2 n2,
        (next_element ((Char.ofNat 32 :: " A  $10".toList).dropWhile isspace) true).2 =
          some cost_str ∧
        step sampleLib true afterHeader (Char.ofNat 32 :: " A  $10".toList) = .ok t1 ∧
        step sampleLib true t1 (Char.ofNat 32 :: " B".toList) = .ok t2 ∧
        t2.curr = some 0 ∧
        t2.heap[0]? = some
          { ({ date := some ⟨1, 0, 124⟩, cleared := false, code := [], desc := "Lunch".toList,
               xacts := [] } : Entry Amount) with xacts :=
          [{ acct := a1, cost := Amount.parse (costText cost_str), note := n1 },
           { acct := a2, cost := Amount.negate (Amount.parse (costText cost_str)),
             note := n2 }] } ∧
        validateEntry
          { ({ date := some ⟨1, 0, 124⟩, cleared := false, code := [], desc := "Lunch".toList,
               xacts := [] } : Entry Amount) with xacts :=
          [{ acct := a1, cost := Amount.parse (costText cost_str), note := n1 },
           { acct := a2, cost := Amount.negate (Amount.parse (costText cost_str)),
             note := n2 }] } = true ∧
        (finalize_entry sampleLib t2 (some 0)).entries = t2.entries ++ [0] ∧
        (finalize_entry sampleLib t2 (some 0)).cerr = t2.cerr ∧
        t2.entries = afterHeader.entries ∧ t2.cerr = afterHeader.cerr) ∧
    ((parse_ledger sampleLib 2024 startState "2024/01/01 Lunch\n  A  $10\n  B".toList
        true).state.entries = [0] ∧
      postingsOf (parse_ledger sampleLib 2024 startState "2024/01/01 Lunch\n  A  $10\n  B".toList
        true).state =
        [("A".toList, ⟨10, "$".toList⟩, []), ("B".toList, ⟨-10, "$".toList⟩, [])]) ∧
    ((parse_ledger sampleLib 2024 startState
        "2024/01/01 Lunch\n  A  $10\n  C  $5\n  B".toList true).state.entries = [] ∧
      postingsOf (parse_ledger sampleLib 2024 startState
        "2024/01/01 Lunch\n  A  $10\n  C  $5\n  B".toList true).state =
        [("A".toList, ⟨10, "$".toList⟩, []), ("C".toList, ⟨5, "$".toList⟩, []),
          ("B".toList, ⟨-10, "$".toList⟩, [])]) :=
  ⟨implicit_closes_entry.1 true afterHeader 0
      { date := some ⟨1, 0, 124⟩, cleared := false, code := [], desc := "Lunch".toList,
        xacts := [] }
      (Char.ofNat 32) " A  $10".toList (Char.ofNat 32) " B".toList
      (by decide) (by decide) (by decide) (by decide) (by decide) (by decide) rfl
      (by decide) (by decide),
    by decide, by decide⟩

end c18

section c15
variable {A B : Type}

theorem tabsToSpaces_map (b : List Char) : tabsToSpaces b = b.map tabToSpace := rfl

theorem tabToSpace_class (p : Char → Bool) (h : p TAB = p SP) (c : Char) :
    p (tabToSpace c) = p c := by
  unfold tabToSpace
  split
  · rename_i hc; rw [hc]; exact h.symm
  · rfl

theorem tabToSpace_idem (c : Char) : tabToSpace (tabToSpace c) = tabToSpace c := by
  unfold tabToSpace
  split
  · have : ¬ SP = TAB := by decide
    simp [this]
  · rename_i h; simp [h]

theorem tabsToSpaces_idem (b : List Char) : tabsToSpaces (tabsToSpaces b) = tabsToSpaces b := by
  simp [tabsToSpaces_map, tabToSpace_idem]

theorem isspace_tab (c : Char) : isspace (tabToSpace c) = isspace c :=
  tabToSpace_class isspace (by decide) c

theorem isdigit_tab (c : Char) : isdigit (tabToSpace c) = isdigit c :=
  tabToSpace_class isdigit (by decide) c

theorem tabToSpace_of_not_space (c : Char) (h : isspace c = false) : tabToSpace c = c := by
  unfold tabToSpace
  split
  · rename_i hc
    rw [hc] at h
    exact absurd h (by decide)
  · rfl

theorem plusFrom_tab {R : Type} (p : Char → Bool) (hp : p TAB = p SP)
    (k k1 : List Char → Nat → Option R) (hk : ∀ t j, k1 (tabsToSpaces t) j = k t j) :
    ∀ (s : List Char) (i : Nat),
      plusFrom p k1 (tabsToSpaces s) i = plusFrom p k s i := by
  intro s
  induction s with
  | nil => intro i; rfl
  | cons c cs ih =>
    intro i
    show plusFrom p k1 (tabToSpace c :: tabsToSpaces cs) i = plusFrom p k (c :: cs) i
    simp only [plusFrom, tabToSpace_class p hp c, ih, hk]

theorem exec_tab :
    ∀ (r : Re), r.tabBlind = true →
      ∀ (ov : List Int) (s : List Char) (i : Nat)
        (k k1 : List Int → List Char → Nat → Option (List Int)),
        (∀ ov t j, k1 ov (tabsToSpaces t) j = k ov t j) →
        r.exec ov (tabsToSpaces s) i k1 = r.exec ov s i k := by
  intro r
  induction r with
  | cls p =>
    intro hb ov s i k k1 hk
    simp only [Re.tabBlind, beq_iff_eq] at hb
    cases s with
    | nil => rfl
    | cons c cs =>
      show Re.exec (.cls p) ov (tabToSpace c :: tabsToSpaces cs) i k1 = _
      simp only [Re.exec, tabToSpace_class p hb c, hk]
  | seq a b iha ihb =>
    intro hb ov s i k k1 hk
    simp only [Re.tabBlind, Bool.and_eq_true] at hb
    simp only [Re.exec]
    exact iha hb.1 ov s i _ _ (fun ov1 t j => ihb hb.2 ov1 t j k k1 hk)
  | opt a iha =>
    intro hb ov s i k k1 hk
    simp only [Re.tabBlind] at hb
    simp only [Re.exec, iha hb ov s i k k1 hk, hk]
  | plus p =>
    intro hb ov s i k k1 hk
    simp only [Re.tabBlind, beq_iff_eq] at hb
    simp only [Re.exec]
    exact plusFrom_tab p hb (k ov) (k1 ov) (hk ov) s i
  | grp n a iha =>
    intro hb ov s i k k1 hk
    simp only [Re.tabBlind] at hb
    simp only [Re.exec]
    exact iha hb ov s i _ _ (fun ov1 t j => hk _ t j)

theorem regexp_tabBlind : regexp.tabBlind = true := by decide

/-- The pattern matches a line and the line with its tabs turned into spaces
alike, with the same offsets. -/
theorem pcre_exec_tab (line : List Char) :
    pcre_exec (tabsToSpaces line) = pcre_exec line := by
  unfold pcre_exec
  rw [exec_tab regexp regexp_tabBlind ovectorUnset line 0 _ _ (fun _ _ _ => rfl)]

end c15

section c15b
variable {A B : Type}

theorem dropWhile_tab (s : List Char) :
    (tabsToSpaces s).dropWhile isspace = tabsToSpaces (s.dropWhile isspace) := by
  induction s with
  | nil => rfl
  | cons c cs ih =>
    show (tabToSpace c :: tabsToSpaces cs).dropWhile isspace = _
    simp only [List.dropWhile_cons, isspace_tab]
    split
    · exact ih
    · rfl

theorem takeWhile_digit_tab (s : List Char) :
    (tabsToSpaces s).takeWhile isdigit = s.takeWhile isdigit := by
  induction s with
  | nil => rfl
  | cons c cs ih =>
    show (tabToSpace c :: tabsToSpaces cs).takeWhile isdigit = _
    simp only [List.takeWhile_cons, isdigit_tab]
    split
    · rename_i hd
      rw [ih, tabToSpace_of_not_space c]
      cases hs : isspace c with
      | false => rfl
      | true => rw [isspace_not_digit c hs] at hd; cases hd
    · rfl

theorem head_tab (s : List Char) (d : Char) (h1 : d ≠ TAB) (h2 : d ≠ SP) :
    ((tabsToSpaces s).head? == some d) = (s.head? == some d) := by
  cases s with
  | nil => rfl
  | cons c cs =>
    show ((some (tabToSpace c)) == some d) = ((some c) == some d)
    unfold tabToSpace
    split
    · rename_i hc
      subst hc
      have e1 : ((some SP : Option Char) == some d) = false := by
        rw [beq_eq_false_iff_ne]
        intro h
        exact h2 (Option.some.inj h).symm
      have e2 : ((some TAB : Option Char) == some d) = false := by
        rw [beq_eq_false_iff_ne]
        intro h
        exact h1 (Option.some.inj h).symm
      rw [e1, e2]
    · rfl

theorem tail_tab (s : List Char) : (tabsToSpaces s).tail = tabsToSpaces s.tail := by
  cases s <;> rfl

/-- `atoi` reads a text and the text with its tabs turned into spaces
alike. -/
theorem atoi_tab (s : List Char) : atoi (tabsToSpaces s) = atoi s := by
  have key : ∀ (P : Prop) [Decidable P] (x : List Char),
      List.takeWhile isdigit (if P then (tabsToSpaces x).tail else tabsToSpaces x) =
        List.takeWhile isdigit (if P then x.tail else x) := by
    intro P _ x
    split
    · rw [tail_tab, takeWhile_digit_tab]
    · rw [takeWhile_digit_tab]
  unfold atoi
  simp only [dropWhile_tab, head_tab _ (Char.ofNat 45) (by decide) (by decide),
    head_tab _ (Char.ofNat 43) (by decide) (by decide), key]

theorem atoi_tabEq (a b : List Char) (h : tabsToSpaces a = tabsToSpaces b) :
    atoi a = atoi b := by
  rw [← atoi_tab a, h, atoi_tab]

theorem copy_tab (line : List Char) (ov : List Int) (m : Int) (n : Nat) (a b : List Char)
    (h : tabsToSpaces a = tabsToSpaces b) :
    (pcre_copy_substring (tabsToSpaces line) ov m n a).1 =
      (pcre_copy_substring line ov m n b).1 ∧
    tabsToSpaces (pcre_copy_substring (tabsToSpaces line) ov m n a).2 =
      tabsToSpaces (pcre_copy_substring line ov m n b).2 := by
  unfold pcre_copy_substring
  split
  · exact ⟨rfl, h⟩
  · simp only []
    split
    · exact ⟨rfl, h⟩
    · refine ⟨rfl, ?_⟩
      simp only [tabsToSpaces_map, List.map_drop, List.map_take, List.map_map]
      congr 2
      apply List.map_congr_left
      intro c _
      exact tabToSpace_idem c

end c15b

section c15c
variable {A B : Type}

/-- Storing the header fields from a line and from the line with its tabs
turned into spaces gives the same result, up to the tabs of the code, of the
description and of `buf`. -/
theorem fill_entry_tab (line : List Char) (ov : List Int) (m cy : Int) (e : Entry A)
    (a b : List Char) (h : tabsToSpaces a = tabsToSpaces b) :
    (fill_entry (tabsToSpaces line) ov m cy e a).untab =
      (fill_entry line ov m cy e b).untab := by
  unfold fill_entry
  simp only []
  have h1 : tabsToSpaces (if 0 ≤ ov.getD 2 (-1)
        then (pcre_copy_substring (tabsToSpaces line) ov m 2 a).2 else a) =
      tabsToSpaces (if 0 ≤ ov.getD 2 (-1)
        then (pcre_copy_substring line ov m 2 b).2 else b) := by
    split
    · exact (copy_tab line ov m 2 a b h).2
    · exact h
  generalize (if 0 ≤ ov.getD 2 (-1)
    then (pcre_copy_substring (tabsToSpaces line) ov m 2 a).2 else a) = a1 at h1 ⊢
  generalize (if 0 ≤ ov.getD 2 (-1)
    then (pcre_copy_substring line ov m 2 b).2 else b) = b1 at h1 ⊢
  rw [atoi_tabEq a1 b1 h1]
  cases (if 0 ≤ ov.getD 2 (-1) then atoi b1 else some cy) with
  | none => simp only [Filled.untab, h1]
  | some year =>
    simp only []
    by_cases h6 : ov.getD 6 (-1) < 0
    · simp only [h6, if_true, Filled.untab, h1]
    · simp only [h6, if_false]
      have h2 := (copy_tab line ov m 3 a1 b1 h1).2
      generalize (pcre_copy_substring (tabsToSpaces line) ov m 3 a1).2 = a2 at h2 ⊢
      generalize (pcre_copy_substring line ov m 3 b1).2 = b2 at h2 ⊢
      rw [atoi_tabEq a2 b2 h2]
      cases atoi b2 with
      | none => simp only [Filled.untab, h2]
      | some mon =>
        simp only []
        by_cases h8 : ov.getD 8 (-1) < 0
        · simp only [h8, if_true, Filled.untab, h2]
        · simp only [h8, if_false]
          have h3 := (copy_tab line ov m 4 a2 b2 h2).2
          generalize (pcre_copy_substring (tabsToSpaces line) ov m 4 a2).2 = a3 at h3 ⊢
          generalize (pcre_copy_substring line ov m 4 b2).2 = b3 at h3 ⊢
          rw [atoi_tabEq a3 b3 h3]
          cases atoi b3 with
          | none => simp only [Filled.untab, h3]
          | some mday =>
            simp only []
            by_cases hr : (!(inInt (mon - 1) && inInt (year - 1900))) = true
            · simp only [hr, if_true, Filled.untab, h3]
            · simp only [hr, Bool.false_eq_true, if_false]
              have h4 : tabsToSpaces (if 0 ≤ ov.getD 12 (-1)
                    then (pcre_copy_substring (tabsToSpaces line) ov m 7 a3).2 else a3) =
                  tabsToSpaces (if 0 ≤ ov.getD 12 (-1)
                    then (pcre_copy_substring line ov m 7 b3).2 else b3) := by
                split
                · exact (copy_tab line ov m 7 a3 b3 h3).2
                · exact h3
              generalize (if 0 ≤ ov.getD 12 (-1)
                then (pcre_copy_substring (tabsToSpaces line) ov m 7 a3).2 else a3) = a4 at h4 ⊢
              generalize (if 0 ≤ ov.getD 12 (-1)
                then (pcre_copy_substring line ov m 7 b3).2 else b3) = b4 at h4 ⊢
              obtain ⟨h5a, h5b⟩ := copy_tab line ov m 8 a4 b4 h4
              by_cases h16 : 0 ≤ ov.getD 16 (-1)
              · simp only [h16, if_true, h5a]
                by_cases hneg : (pcre_copy_substring line ov m 8 b4).1 < 0
                · simp only [hneg, if_true, Filled.untab, h5b]
                  by_cases h12 : 0 ≤ ov.getD 12 (-1) <;> by_cases h10 : 0 ≤ ov.getD 10 (-1) <;>
                    simp only [h12, h10, if_true, if_false, untabEntry, h4]
                · simp only [hneg, if_false, Filled.untab, h5b]
                  by_cases h12 : 0 ≤ ov.getD 12 (-1) <;> by_cases h10 : 0 ≤ ov.getD 10 (-1) <;>
                    simp only [h12, h10, if_true, if_false, untabEntry, h4, h5b]
              · simp only [h16, if_false, Filled.untab, h4]
                by_cases h12 : 0 ≤ ov.getD 12 (-1) <;> by_cases h10 : 0 ≤ ov.getD 10 (-1) <;>
                  simp only [h12, h10, if_true, if_false, untabEntry, h4]

end c15c

section c15d
variable {A B : Type}

theorem header_tab (L : Lib A B) (s : State A B) (line : List Char) :
    (header L s (tabsToSpaces line)).untab = (header L s line).untab := by
  rw [header_unfold, header_unfold, pcre_exec_tab]
  generalize finalize_entry L s s.curr = s1
  cases (pcre_exec line).2 with
  | none => rfl
  | some ov =>
    simp only []
    have h := fill_entry_tab line ov (pcre_exec line).1 s1.current_year
      (Entry.fresh : Entry A) s1.buf s1.buf rfl
    cases h1 : fill_entry (tabsToSpaces line) ov (pcre_exec line).1 s1.current_year
        (Entry.fresh : Entry A) s1.buf with
    | done e1 b1 =>
      cases h2 : fill_entry line ov (pcre_exec line).1 s1.current_year
          (Entry.fresh : Entry A) s1.buf with
      | done e2 b2 =>
        rw [h1, h2] at h
        simp only [Filled.untab, Filled.done.injEq] at h
        simp only [h1, h2, Step.untab, untabState, List.map_set, h.1, h.2]
      | fault f e2 b2 =>
        rw [h1, h2] at h
        simp [Filled.untab] at h
    | fault f1 e1 b1 =>
      cases h2 : fill_entry line ov (pcre_exec line).1 s1.current_year
          (Entry.fresh : Entry A) s1.buf with
      | done e2 b2 =>
        rw [h1, h2] at h
        simp [Filled.untab] at h
      | fault f e2 b2 =>
        rw [h1, h2] at h
        simp only [Filled.untab, Filled.fault.injEq] at h
        simp only [h1, h2, Step.untab, untabState, List.map_set, h.1, h.2.1, h.2.2]

theorem next_element_tab (b : List Char) (v : Bool) :
    next_element (tabsToSpaces b) v = next_element b v := by
  unfold next_element
  rw [tabsToSpaces_idem]

theorem posting_tab (L : Lib A B) (cb : Bool) (s : State A B) (line : List Char) :
    posting L cb s (tabsToSpaces line) = posting L cb s line := by
  unfold posting
  rw [dropWhile_tab, next_element_tab]

theorem year_directive_tab (s : State A B) (line : List Char) :
    year_directive s (tabsToSpaces line) = year_directive s line := by
  unfold year_directive
  have h1 : (tabsToSpaces line).length = line.length := by simp [tabsToSpaces_map]
  have h2 : (tabsToSpaces line).drop 2 = tabsToSpaces (line.drop 2) := by
    simp [tabsToSpaces_map, List.map_drop]
  by_cases hl : line.length < 2
  · simp only [h1, hl, if_true]
  · simp only [h1, hl, if_false, h2, atoi_tab]

theorem tabToSpace_eq (c : Char) (h : c ≠ TAB) : tabToSpace c = c := by
  simp [tabToSpace, h]

/-- A line that does not start with a digit is processed like the line with
its tabs turned into spaces. -/
theorem step_tab_exact (L : Lib A B) (cb : Bool) (s : State A B) (c : Char) (r : List Char)
    (hd : isdigit c = false) :
    step L cb s (tabsToSpaces (c :: r)) = step L cb s (c :: r) := by
  by_cases hc : c = TAB
  · subst hc
    rw [step_posting L cb s TAB r (by decide) (by decide)]
    show step L cb s (SP :: tabsToSpaces r) = _
    rw [step_posting L cb s SP _ (by decide) (by decide)]
    exact posting_tab L cb s (TAB :: r)
  · have hl : tabsToSpaces (c :: r) = c :: tabsToSpaces r := by
      show tabToSpace c :: tabsToSpaces r = _
      rw [tabToSpace_eq c hc]
    simp only [hl, step, hd, Bool.false_eq_true, if_false]
    split
    · rfl
    · split
      · rw [← hl]; exact posting_tab L cb s (c :: r)
      · split
        · rw [← hl]; exact year_directive_tab s (c :: r)
        · rfl

theorem step_tab (L : Lib A B) (cb : Bool) (s : State A B) (line : List Char) :
    (step L cb s (tabsToSpaces line)).untab = (step L cb s line).untab := by
  cases line with
  | nil => rfl
  | cons c r =>
    cases hd : isdigit c with
    | false => rw [step_tab_exact L cb s c r hd]
    | true =>
      have hc : c ≠ TAB := fun h => by rw [h] at hd; exact absurd hd (by decide)
      have hnl : ¬ c = NL := fun h => by rw [h] at hd; exact absurd hd (by decide)
      have hl : tabsToSpaces (c :: r) = c :: tabsToSpaces r := by
        show tabToSpace c :: tabsToSpaces r = _
        rw [tabToSpace_eq c hc]
      have e1 : step L cb s (c :: r) = header L s (c :: r) := by
        simp only [step, hnl, if_false, hd, if_true]
      have e2 : step L cb s (tabsToSpaces (c :: r)) = header L s (tabsToSpaces (c :: r)) := by
        rw [hl]
        simp only [step, hnl, if_false, hd, if_true]
      rw [e1, e2]
      exact header_tab L s (c :: r)

theorem classify_tab (line : List Char) : classify (tabsToSpaces line) = classify line := by
  cases line with
  | nil => rfl
  | cons c r =>
    by_cases hc : c = TAB
    · subst hc; rfl
    · show classify (tabToSpace c :: tabsToSpaces r) = _
      rw [tabToSpace_eq c hc]
      rfl

/-- C15, as amended. Tab normalisation. A line and the line with every tab
turned into a space are of the same class. A line that is not a header is
processed with the same result, field by field: the account path, the cost
and the note of a posting, the year of a directive. A header line is processed
with the same result up to the tabs of the code and of the description, which
the entry keeps as they stand in the line (and up to the tabs of `buf`): the
date, the cleared flag and everything else in the state are the same, and the
code and the description are the same once their tabs are turned into
spaces. -/
theorem tab_normalisation (L : Lib A B) (compute_balances : Bool) (s : State A B)
    (line : List Char) :
    classify (tabsToSpaces line) = classify line ∧
    (step L compute_balances s (tabsToSpaces line)).untab =
      (step L compute_balances s line).untab ∧
    (classify line ≠ .header →
      step L compute_balances s (tabsToSpaces line) = step L compute_balances s line) := by
  refine ⟨classify_tab line, step_tab L compute_balances s line, ?_⟩
  intro hcl
  cases line with
  | nil => rfl
  | cons c r =>
    cases hd : isdigit c with
    | false => exact step_tab_exact L compute_balances s c r hd
    | true =>
      exfalso
      apply hcl
      have hnl : ¬ c = NL := fun h => by rw [h] at hd; exact absurd hd (by decide)
      simp only [classify, hnl, if_false, hd, if_true]

/-- Witness of C15: the posting line `postingWithTabs`, read after the header
`2024/01/01 Lunch`, is recorded like the line `  A  $10`. -/
theorem tab_normalisation_witness :
    (tabsToSpaces postingWithTabs = " A  $10".toList ∧ classify postingWithTabs = .posting) ∧
    (classify (tabsToSpaces postingWithTabs) = classify postingWithTabs ∧
      (step sampleLib true afterHeader (tabsToSpaces postingWithTabs)).untab =
        (step sampleLib true afterHeader postingWithTabs).untab ∧
      (classify postingWithTabs ≠ .header →
        step sampleLib true afterHeader (tabsToSpaces postingWithTabs) =
          step sampleLib true afterHeader postingWithTabs)) ∧
    postingsOf (step sampleLib true afterHeader postingWithTabs).state =
      [("A".toList, ⟨10, "$".toList⟩, [])] :=
  ⟨by decide, tab_normalisation sampleLib true afterHeader postingWithTabs, by decide⟩

/-- Counterexample to C15 as stated. The header `headerWithTab` and the same
line with its tab turned into a space open entries with different
descriptions: the first keeps the tab. -/
theorem tab_normalisation_counterexample :
    tabsToSpaces headerWithTab = "1/1 a b".toList ∧
    (step sampleLib true startState headerWithTab).state.heap.map (fun e => e.desc) =
      [Char.ofNat 97 :: TAB :: [Char.ofNat 98]] ∧
    (step sampleLib true startState (tabsToSpaces headerWithTab)).state.heap.map
      (fun e => e.desc) = ["a b".toList] ∧
    step sampleLib true startState headerWithTab ≠
      step sampleLib true startState (tabsToSpaces headerWithTab) :=
  ⟨by decide, by decide, by decide, by decide⟩

end c15d

section c20
variable {A B : Type}

/-- For a matching line whose month, day and description fit the buffer and
whose month and day fit an `int`, the header fields are stored without a
fault. -/
theorem fill_entry_done (line : List Char) (m : Int) (ov : List Int) (cy : Int)
    (e : Entry A) (buf : List Char)
    (hm : pcre_exec line = (m, some ov))
    (h3 : (group line ov 3).length < 255) (h4 : (group line ov 4).length < 255)
    (h8 : (group line ov 8).length < 255)
    (v3 : digitsValue (group line ov 3) ≤ 2147483647)
    (v4 : digitsValue (group line ov 4) ≤ 2147483647)
    (hy : ov.getD 2 (-1) < 0 → inInt (cy - 1900) = true) :
    ∃ e1 b1, fill_entry line ov m cy e buf = .done e1 b1 := by
  obtain ⟨hm9, _, hspan, ⟨p6, n3, d3⟩, ⟨p8, n4, d4⟩, hyr, _, p16, _, _⟩ :=
    pcre_exec_shape line m ov hm
  subst hm9
  have c3 := fun b => copy_ok line ov 3 b (by decide) (hspan 3 (by simp)) h3
  have c4 := fun b => copy_ok line ov 4 b (by decide) (hspan 4 (by simp)) h4
  have c8 := fun b => copy_ok line ov 8 b (by decide) (hspan 8 (by simp)) h8
  have a3 := atoi_digits _ n3 d3 v3
  have a4 := atoi_digits _ n4 d4 v4
  have i3 : inInt ((digitsValue (group line ov 3) : Int) - 1) = true := by
    simp only [inInt, Bool.and_eq_true, decide_eq_true_eq]; omega
  have n6 : ¬ ov.getD 6 (-1) < 0 := by omega
  have n8 : ¬ ov.getD 8 (-1) < 0 := by omega
  have n16 : ¬ ((((group line ov 8).length : Nat) : Int) < 0) := by omega
  unfold fill_entry
  by_cases hy2 : 0 ≤ ov.getD 2 (-1)
  · obtain ⟨l2, d2⟩ := hyr hy2
    have b2 := digitsValue_four _ l2 d2
    have c2 := copy_ok line ov 2 buf (by decide) (hspan 2 (by simp)) (by omega)
    have a2 := atoi_digits (group line ov 2) (by intro h; rw [h] at l2; cases l2) d2 (by omega)
    have i2 : inInt ((digitsValue (group line ov 2) : Int) - 1900) = true := by
      simp only [inInt, Bool.and_eq_true, decide_eq_true_eq]; omega
    simp only [if_pos hy2, c2, a2, n6, if_false, c3, a3, n8, c4, a4, i3, i2, Bool.and_self,
      Bool.not_true, Bool.false_eq_true, p16, if_true, c8, n16]
    exact ⟨_, _, rfl⟩
  · have i2 : inInt (cy - 1900) = true := hy (by omega)
    simp only [if_neg hy2, n6, if_false, c3, a3, n8, c4, a4, i3, i2, Bool.and_self,
      Bool.not_true, Bool.false_eq_true, p16, if_true, c8, n16]
    exact ⟨_, _, rfl⟩

end c20

section c20b
variable {A B : Type}

theorem record_curr (L : Lib A B) (cb : Bool) (s : State A B) (x : Transaction A) :
    (record L cb s x).state.curr = s.curr := by
  unfold record
  cases s.curr with
  | none => rfl
  | some q =>
    simp only []
    cases s.heap[q]? <;> rfl

end c20b

section c20c
variable {A B : Type}

end c20c

section c6c
variable {A B : Type}

theorem steps_snoc (L : Lib A B) (cb : Bool) (hdr : List Char) (hlen : hdr.length ≤ 1022) :
    ∀ (mid : List (List Char)) (s s1 t : State A B), steps L cb mid s = some s1 →
      step L cb (readLine s1 hdr) (cstr hdr) = .ok t →
      steps L cb (mid ++ [hdr]) s = some t := by
  intro mid
  induction mid with
  | nil =>
    intro s s1 t h hst
    simp only [steps, Option.some.injEq] at h
    subst h
    simp only [List.nil_append, steps, hlen, if_true, hst]
  | cons l ls ih =>
    intro s s1 t h hst
    simp only [steps] at h
    split at h
    · rename_i hl
      cases hs : step L cb (readLine s l) (cstr l) with
      | stuck f s2 => rw [hs] at h; cases h
      | ok s2 =>
        rw [hs] at h
        simp only [List.cons_append, steps, hl, if_true, hs]
        exact ih s2 s1 t h hst
    · cases h

/-- A header line without a year group whose month, day and description fit
the buffer and whose month and day fit an `int` is processed without a fault
when the current year less 1900 is representable, and the entry it opens gets
the day and the month of the line and the current year. -/
theorem header_date (L : Lib A B) (cb : Bool) (s : State A B) (h : List Char) (m : Int)
    (ov : List Int)
    (hm : pcre_exec h = (m, some ov)) (hny : ov.getD 2 (-1) < 0)
    (h3 : (group h ov 3).length < 255) (h4 : (group h ov 4).length < 255)
    (h8 : (group h ov 8).length < 255)
    (v3 : digitsValue (group h ov 3) ≤ 2147483647)
    (v4 : digitsValue (group h ov 4) ≤ 2147483647)
    (hy : inInt (s.current_year - 1900) = true) :
    ∃ t e, step L cb s h = .ok t ∧ t.curr = some s.heap.length ∧
      t.heap[s.heap.length]? = some e ∧
      e.date = some ⟨(digitsValue (group h ov 4) : Int),
        (digitsValue (group h ov 3) : Int) - 1, s.current_year - 1900⟩ := by
  obtain ⟨_, ⟨c, rest, hline, hc⟩, _⟩ := pcre_exec_shape h m ov hm
  have hcnl : c ≠ NL := by
    intro hn
    rw [isdigit_not_NL c hn] at hc
    cases hc
  have hstep : step L cb s h = header L s h := by
    rw [hline]
    simp only [step, if_neg hcnl, hc, if_true]
  have hfr := finalize_entry_frame L s s.curr
  obtain ⟨e1, b1, hd⟩ := fill_entry_done h m ov (finalize_entry L s s.curr).current_year
    (Entry.fresh : Entry A) (finalize_entry L s s.curr).buf hm h3 h4 h8 v3 v4
    (fun _ => by rw [hfr.2.2.1]; exact hy)
  have hdate := fill_entry_date h m ov _ _ e1 _ b1 hm hny h3 h4 hd
  rw [hfr.2.2.1] at hdate
  have hov : (pcre_exec h).2 = some ov := by rw [hm]
  have hm1 : (pcre_exec h).1 = m := by rw [hm]
  rw [hstep, header_unfold, hov]
  simp only [hm1, hd]
  refine ⟨_, e1, rfl, by simp [hfr.1], ?_, hdate⟩
  simp only [hfr.1, set_append_last]
  rw [List.getElem?_append_right (Nat.le_refl _)]
  simp

/-- C6, as amended. Year inheritance. Let a header line of at most 1022
characters match the pattern with no year group, with month, day and
description groups shorter than 255 characters and with month and day numbers
that fit an `int`; and let no line of `mid` be a year directive. After a
directive line `Y <digits>`, of at most 1022 characters and with a number that
fits an `int`, and the lines `mid`, read without the run stopping, the header
is processed without a fault, and the entry it opens has the year written in
the directive. After the lines `mid` alone from the start of `parse_ledger`,
with a host year whose difference to 1900 is representable, the entry has the
host's calendar year. In both cases it has the month and day written in the
header (the date is kept as the fields on which `std::mktime` is called: day,
month counted from 0 and year counted from 1900). -/
theorem year_inheritance (L : Lib A B) (compute_balances : Bool) (mid : List (List Char))
    (hdr : List Char) (m : Int) (ov : List Int)
    (hmid : ∀ l ∈ mid, (cstr l).head? ≠ some (Char.ofNat 89))
    (hlen : hdr.length ≤ 1022)
    (hm : pcre_exec (cstr hdr) = (m, some ov)) (hny : ov.getD 2 (-1) < 0)
    (h3 : (group (cstr hdr) ov 3).length < 255) (h4 : (group (cstr hdr) ov 4).length < 255)
    (h8 : (group (cstr hdr) ov 8).length < 255)
    (v3 : digitsValue (group (cstr hdr) ov 3) ≤ 2147483647)
    (v4 : digitsValue (group (cstr hdr) ov 4) ≤ 2147483647) :
    (∀ (s s1 : State A B) (ds : List Char), ds ≠ [] → (∀ c ∈ ds, isdigit c = true) →
      ds.length ≤ 1020 → digitsValue ds ≤ 2147483647 →
      steps L compute_balances mid
        { readLine s (Char.ofNat 89 :: SP :: ds) with
          current_year := (digitsValue ds : Int) } = some s1 →
      ∃ t p e,
        steps L compute_balances ((Char.ofNat 89 :: SP :: ds) :: (mid ++ [hdr])) s = some t ∧
        t.curr = some p ∧ t.heap[p]? = some e ∧
        e.date = some ⟨(digitsValue (group (cstr hdr) ov 4) : Int),
          (digitsValue (group (cstr hdr) ov 3) : Int) - 1, (digitsValue ds : Int) - 1900⟩) ∧
    (∀ (g s1 : State A B) (host_year : Int), inInt (host_year - 1900) = true →
      steps L compute_balances mid { g with curr := none, current_year := host_year } =
        some s1 →
      ∃ t p e,
        steps L compute_balances (mid ++ [hdr])
          { g with curr := none, current_year := host_year } = some t ∧
        t.curr = some p ∧ t.heap[p]? = some e ∧
        e.date = some ⟨(digitsValue (group (cstr hdr) ov 4) : Int),
          (digitsValue (group (cstr hdr) ov 3) : Int) - 1, host_year - 1900⟩) := by
  have key : ∀ (s0 s1 : State A B), inInt (s0.current_year - 1900) = true →
      steps L compute_balances mid s0 = some s1 →
      ∃ t p e, steps L compute_balances (mid ++ [hdr]) s0 = some t ∧
        t.curr = some p ∧ t.heap[p]? = some e ∧
        e.date = some ⟨(digitsValue (group (cstr hdr) ov 4) : Int),
          (digitsValue (group (cstr hdr) ov 3) : Int) - 1, s0.current_year - 1900⟩ := by
    intro s0 s1 hy hs1
    have hy1 := steps_keep_year L compute_balances mid s0 s1 hmid hs1
    obtain ⟨t, e, hst, hcurr, hheap, hdate⟩ :=
      header_date L compute_balances (readLine s1 hdr) (cstr hdr) m ov hm hny h3 h4 h8 v3 v4
        (by
          show inInt (s1.current_year - 1900) = true
          rw [hy1]
          exact hy)
    refine ⟨t, _, e, steps_snoc L compute_balances hdr hlen mid s0 s1 t hs1 hst, hcurr, hheap, ?_⟩
    rw [hdate]
    show some (Tm.mk _ _ (s1.current_year - 1900)) = _
    rw [hy1]
  constructor
  · intro s s1 ds hne hd hl hv hs1
    have hdir := step_directive L compute_balances (readLine s (Char.ofNat 89 :: SP :: ds)) ds
      hne hd hv
    have hin : inInt ((digitsValue ds : Int) - 1900) = true := by
      simp only [inInt, Bool.and_eq_true, decide_eq_true_eq]
      omega
    obtain ⟨t, p, e, hst, hc, hh, hdt⟩ := key _ s1 hin hs1
    refine ⟨t, p, e, ?_, hc, hh, hdt⟩
    have hl2 : (Char.ofNat 89 :: SP :: ds).length ≤ 1022 := by
      simp only [List.length_cons]
      omega
    simp only [steps, hl2, if_true, hdir]
    exact hst
  · intro g s1 host_year hy hs1
    exact key _ s1 hy hs1

/-- Witness of C6: `Y 2020` followed by `3/15  Coffee` gives the year 2020,
the month 3 and the day 15. -/
theorem year_inheritance_witness :
    (pcre_exec (cstr "3/15  Coffee".toList) = (9, some coffeeOv) ∧
      coffeeOv.getD 2 (-1) < 0) ∧
    (∃ t p e,
        steps sampleLib true ((Char.ofNat 89 :: SP :: "2020".toList) ::
          ([] ++ ["3/15  Coffee".toList])) startState = some t ∧
        t.curr = some p ∧ t.heap[p]? = some e ∧
        e.date = some ⟨(digitsValue (group (cstr "3/15  Coffee".toList) coffeeOv 4) : Int),
          (digitsValue (group (cstr "3/15  Coffee".toList) coffeeOv 3) : Int) - 1,
          (digitsValue "2020".toList : Int) - 1900⟩) ∧
    ((steps sampleLib true ["Y 2020".toList, "3/15  Coffee".toList] startState).map
      (fun t => t.heap.map (fun e => e.date))) = some [some ⟨15, 3 - 1, 2020 - 1900⟩] ∧
    dateUTC (mktimeUTC ⟨15, 3 - 1, 2020 - 1900⟩) = (2020, 3, 15) :=
  ⟨⟨by decide, by decide⟩,
    (year_inheritance sampleLib true [] "3/15  Coffee".toList 9 coffeeOv
      (fun l hl => nomatch hl) (by decide) (by decide) (by decide) (by decide) (by decide)
      (by decide) (by decide) (by decide)).1
      startState _ "2020".toList (by decide) (by decide) (by decide) (by decide) rfl,
    by decide, by decide⟩

/-- Counterexample to C6 as stated. After `Y 2020` the header
`headerLongMonth` has no year group and a month written `000...03` with 255
digits, which does not fit `buf`; the lines are read to the end, the month
stored is `atoi` of the empty `buf` minus one, that is -1, and not 3 - 1.
After `Y 2020` the header `99999999999/1 x` has a month that no `int` holds,
and the run is stuck at `atoi`, where C leaves the number undefined. After
`Y 2020` the header `13/45 x` gives the fields year 2020, month 13 and day 45,
and the date that `std::mktime` gives for them, here in the UTC zone, is
14 February 2021. -/
theorem year_inheritance_counterexample :
    (pcre_exec headerLongMonth).1 = 9 ∧
    ((pcre_exec headerLongMonth).2.getD []).getD 2 (-1) < 0 ∧
    digitsValue (group headerLongMonth ((pcre_exec headerLongMonth).2.getD []) 3) = 3 ∧
    digitsValue (group headerLongMonth ((pcre_exec headerLongMonth).2.getD []) 4) = 15 ∧
    ((steps sampleLib true ["Y 2020".toList, headerLongMonth] startState).map
      (fun t => (t.curr, t.heap.map (fun e => e.date)))) =
      some (some 0, [some ⟨15, -1, 2020 - 1900⟩]) ∧
    ((pcre_exec headerBigMonth).1 = 9 ∧
      ((pcre_exec headerBigMonth).2.getD []).getD 2 (-1) < 0 ∧
      digitsValue (group headerBigMonth ((pcre_exec headerBigMonth).2.getD []) 3) =
        99999999999 ∧
      steps sampleLib true ["Y 2020".toList, headerBigMonth] startState = none ∧
      ∃ t, loop sampleLib true ["Y 2020".toList, headerBigMonth] startState =
        .stuck .intRange t) ∧
    ((steps sampleLib true ["Y 2020".toList, "13/45 x".toList] startState).map
      (fun t => t.heap.map (fun e => e.date))) = some [some ⟨45, 13 - 1, 2020 - 1900⟩] ∧
    dateUTC (mktimeUTC ⟨45, 13 - 1, 2020 - 1900⟩) = (2021, 2, 14) :=
  ⟨by decide, by decide, by decide, by decide, by decide,
    ⟨by decide, by decide, by decide, by decide,
      (loop sampleLib true ["Y 2020".toList, headerBigMonth] startState).state, by decide⟩,
    by decide, by decide⟩

end c6c

end Ledger
